import Mathlib

/-!
# MUNGE: cipher layer (src/munged/cipher.c), client (src/munge/munge.c), defaults (munge_defs.h)

A shallow embedding of `cipher.c` (the public functions, the Libgcrypt half,
and of the OpenSSL half `_cipher_map_enum` and `_cipher_cleanup`), of
`munge.c` (`main`, `parse_cmdline`, `str_to_int`, `display_strings` and the
functions `main` calls) and of the compile-time defaults of `munge_defs.h`.

* C `int` values are `Int`; `unsigned char` values are `Nat` (stores reduce
  modulo 256).
* A pointer to a byte buffer is the list of bytes found at that address; the
  length argument that travels with it in C stays a separate `Int` argument.
* `assert` is modelled explicitly: every function that contains an assertion
  takes the flag `ndebug` (true when the build defines `NDEBUG`) and returns
  `Except Nat _`, where `Except.error n` says that the process was stopped on
  source line `n` of the file: by a failed assertion, or, for line 262, by
  the division by zero of `srclen % x->blklen` when `x->blklen` is 0, which
  stops the process in a build with or without assertions.
* Libgcrypt itself is outside the repository: it is the record `Gcry` of
  operations, either arbitrary or the CBC instance `gcry_cbc`.  The record
  also says what the platform makes of the store of a `size_t` through
  `(size_t *) &len` in `_cipher_init`, where `len` is an `int`.
* A C string is the list of its character codes, a NULL-terminated array of
  strings the list of its entries.
* What `munge.c` calls but does not define (the C library, libmunge, the
  string tables of munge.h) is the record `Env`; the command line is the list
  of the returns of `getopt_long`.  A function that can end the process
  returns `Except exit_info _`, where the error says with which status and on
  which source line the process ended.
-/

namespace Munge

/-! ## Constants -/

/-- The constant `CIPHER_MAGIC` of cipher.c, line 42. -/
def CIPHER_MAGIC : Nat := 0xDEADACE1

/-- The value of `~CIPHER_MAGIC` for a 32-bit unsigned. -/
def CIPHER_MAGIC_NOT : Nat := 0xFFFFFFFF - CIPHER_MAGIC

/-- The constant `MUNGE_MAXIMUM_BLK_LEN` of munge_defs.h, line 79: the size of
the partial block buffer of a cipher context. -/
def MUNGE_MAXIMUM_BLK_LEN : Nat := 16

/-- Modelled from the spec: the enumeration munge_cipher_t of munge.h, with
the numeric values of section 4.1 (`NONE=0`). -/
def MUNGE_CIPHER_NONE : Int := 0

/-- Modelled from the spec: munge_cipher_t value `DEFAULT=1`. -/
def MUNGE_CIPHER_DEFAULT : Int := 1

/-- Modelled from the spec: munge_cipher_t value `BLOWFISH=2`. -/
def MUNGE_CIPHER_BLOWFISH : Int := 2

/-- Modelled from the spec: munge_cipher_t value `CAST5=3`. -/
def MUNGE_CIPHER_CAST5 : Int := 3

/-- Modelled from the spec: munge_cipher_t value `AES128=4`. -/
def MUNGE_CIPHER_AES128 : Int := 4

/-- Modelled from the spec: munge_cipher_t value `AES256=5`. -/
def MUNGE_CIPHER_AES256 : Int := 5

/-- Libgcrypt algorithm identifier (gcrypt.h). -/
def GCRY_CIPHER_BLOWFISH : Int := 4

/-- Libgcrypt algorithm identifier (gcrypt.h). -/
def GCRY_CIPHER_CAST5 : Int := 3

/-- Libgcrypt algorithm identifier (gcrypt.h). -/
def GCRY_CIPHER_AES128 : Int := 7

/-- Libgcrypt algorithm identifier (gcrypt.h). -/
def GCRY_CIPHER_AES256 : Int := 9

/-- The conversion of a wider integer to `int`, as on the assignment of a
`long` to an `int`, or as an `int` read from the low four bytes of a
`size_t`: reduction to 32 bits, two's complement. -/
def to_int (v : Int) : Int := (v + 2147483648) % 4294967296 - 2147483648

/-! ## The backend and the context -/

/-- The Libgcrypt calls made by cipher.c, over handles of type `σ` (the
state behind a `gcry_cipher_hd_t`).  Every call yields its `gcry_error_t`
first (0 is success).

* `gcry_cipher_open algo`: the error and the handle stored through the first
  argument (mode CBC, flags 0).
* `keylen algo`, `blklen algo`: `gcry_cipher_algo_info` with
  `GCRYCTL_GET_KEYLEN` / `GCRYCTL_GET_BLKLEN`; the error and the number stored.
* `store_len algo v`: `_cipher_init` hands `gcry_cipher_algo_info` the
  pointer `(size_t *) &len`, although `len` is an `int` (lines 184-185, 193,
  199); this is what the store of the `size_t` value `v` through that pointer
  leaves in the locals `algo` and `len`, in this order.  Where `size_t` is as
  wide as `int` only `len` is written (`store_exact`); where it is wider the
  store runs over the bytes that follow `len` (`store_overrun`).
* `gcry_cipher_setkey h key len`, `gcry_cipher_setiv h iv len`.
* `gcry_cipher_encrypt h out outsize inp inlen` and `gcry_cipher_decrypt`:
  `out` is the memory at the output pointer, `inp` the memory at the input
  pointer (`none` for NULL, the in-place form); the result is the error, the
  handle afterwards and the memory at the output pointer afterwards.
* `null`: the all-zero handle value. -/
structure Gcry (σ : Type) where
  gcry_cipher_open : Int → Nat × σ
  keylen : Int → Nat × Int
  blklen : Int → Nat × Int
  store_len : Int → Int → Int × Int
  gcry_cipher_setkey : σ → List Nat → Int → Nat × σ
  gcry_cipher_setiv : σ → List Nat → Int → Nat × σ
  gcry_cipher_encrypt : σ → List Nat → Int → Option (List Nat) → Int → Nat × σ × List Nat
  gcry_cipher_decrypt : σ → List Nat → Int → Option (List Nat) → Int → Nat × σ × List Nat
  null : σ

/-- The struct `cipher_ctx` (Libgcrypt build), with the fields cipher.c
reads and writes: the handle, the partial block buffer
`unsigned char buf[MUNGE_MAXIMUM_BLK_LEN]`, its fill `len`, the block length,
the direction, and the two fields used by the assertions. -/
structure cipher_ctx (σ : Type) where
  ctx : σ
  buf : List Nat
  len : Int
  blklen : Int
  do_encrypt : Int
  magic : Nat
  finalized : Int

/-- What a call leaves behind: the return code, the context, the memory at
`dst` and the value of `*dstlen`. -/
structure cipher_ret (σ : Type) where
  rc : Int
  x : cipher_ctx σ
  dst : List Nat
  dstlen : Int

/-- The C library call `memcpy (dst, src, n)`: the first `n` bytes at `dst`
become the first `n` bytes at `src`. -/
def memcpy (dst src : List Nat) (n : Int) : List Nat :=
  src.take n.toNat ++ dst.drop n.toNat

/-- The macro `MIN` of common.h. -/
def MIN (a b : Int) : Int := if a ≤ b then a else b

/-! ## Private functions (Libgcrypt), cipher.c lines 170-460 -/

/-- The function `_cipher_map_enum` (lines 431-458).  `dst` is `none` for a
NULL pointer and otherwise the int it points to; the result is the return
code and the pointee afterwards. -/
def _cipher_map_enum (cipher : Int) (dst : Option Int) : Int × Option Int :=
  let r : Int × Int :=
    if cipher = MUNGE_CIPHER_BLOWFISH then (0, GCRY_CIPHER_BLOWFISH)
    else if cipher = MUNGE_CIPHER_CAST5 then (0, GCRY_CIPHER_CAST5)
    else if cipher = MUNGE_CIPHER_AES128 then (0, GCRY_CIPHER_AES128)
    else if cipher = MUNGE_CIPHER_AES256 then (0, GCRY_CIPHER_AES256)
    else (-1, 0)
  if dst.isSome ∧ r.1 = 0 then (r.1, some r.2) else (r.1, dst)

/-- The function `_cipher_init` (lines 179-209): return code and context.
Each of the two calls of `gcry_cipher_algo_info` that succeeds stores a
`size_t` through `len_ptr = (size_t *) &len`; `l1` and `l2` are the locals
`algo` and `len` after the first and the second store. -/
def _cipher_init {σ : Type} (G : Gcry σ) (x : cipher_ctx σ) (cipher : Int)
    (key iv : List Nat) (enc : Int) : Int × cipher_ctx σ :=
  let m := _cipher_map_enum cipher (some 0)
  if m.1 < 0 then (-1, x) else
  let algo := m.2.getD 0
  let o := G.gcry_cipher_open algo
  let x1 := { x with ctx := o.2 }
  if o.1 ≠ 0 then (-1, x1) else
  let k := G.keylen algo
  if k.1 ≠ 0 then (-1, x1) else
  let l1 := G.store_len algo k.2
  let sk := G.gcry_cipher_setkey x1.ctx key l1.2
  let x2 := { x1 with ctx := sk.2 }
  if sk.1 ≠ 0 then (-1, x2) else
  let b := G.blklen l1.1
  if b.1 ≠ 0 then (-1, x2) else
  let l2 := G.store_len l1.1 b.2
  let si := G.gcry_cipher_setiv x2.ctx iv l2.2
  let x3 := { x2 with ctx := si.2 }
  if si.1 ≠ 0 then (-1, x3) else
  (0, { x3 with do_encrypt := enc, len := 0, blklen := l2.2 })

/-- The function `_cipher_update_aux` (lines 306-327). -/
def _cipher_update_aux {σ : Type} (G : Gcry σ) (x : cipher_ctx σ) (dst : List Nat)
    (dstlen : Int) (src : Option (List Nat)) (srclen : Int) : cipher_ret σ :=
  let e := if x.do_encrypt ≠ 0 then G.gcry_cipher_encrypt x.ctx dst dstlen src srclen
           else G.gcry_cipher_decrypt x.ctx dst dstlen src srclen
  let x1 := { x with ctx := e.2.1 }
  if e.1 ≠ 0 then ⟨-1, x1, e.2.2, 0⟩
  else if src.isSome ∨ srclen ≠ 0 then ⟨0, x1, e.2.2, srclen⟩
  else ⟨0, x1, e.2.2, dstlen⟩

/-- The local variables of `_cipher_update` between two of its sections:
`out` holds the bytes of `vdst` below the pointer `dst`, and `dst`, `src` the
memory at these two pointers. -/
structure update_locals (σ : Type) where
  x : cipher_ctx σ
  out : List Nat
  dst : List Nat
  n_written : Int
  src : List Nat
  srclen : Int

/-- How a section of `_cipher_update` ends: a failed assertion, `goto err`
(with the context and the memory at `vdst` at that point), or falling through
to the next section. -/
inductive update_step (σ : Type) where
  | abort (line : Nat)
  | err (x : cipher_ctx σ) (vdst : List Nat)
  | next (s : update_locals σ)

/-- Lines 238-258 of `_cipher_update`: continue a partial block if one
exists. -/
def update_partial_block {σ : Type} (G : Gcry σ) (ndebug : Bool) (x : cipher_ctx σ)
    (vdst : List Nat) (dstlen : Int) (vsrc : List Nat) (srclen : Int) : update_step σ :=
  if x.len > 0 then
    if ndebug = false ∧ ¬ (x.len ≤ x.blklen) then .abort 239 else
    let n_part := MIN srclen (x.blklen - x.len)
    let x1 := { x with
      buf := x.buf.take x.len.toNat ++ memcpy (x.buf.drop x.len.toNat) vsrc n_part
      len := x.len + n_part }
    let src := vsrc.drop n_part.toNat
    let srclen1 := srclen - n_part
    if x1.len = x1.blklen then
      if x1.do_encrypt ≠ 0 ∨ srclen1 > 0 then
        let r := _cipher_update_aux G x1 vdst dstlen (some x1.buf) x1.blklen
        if r.rc < 0 then .err r.x r.dst else
        if ndebug = false ∧ ¬ (r.dstlen = r.x.blklen) then .abort 252 else
        .next ⟨{ r.x with len := 0 }, r.dst.take r.dstlen.toNat, r.dst.drop r.dstlen.toNat,
               r.dstlen, src, srclen1⟩
      else .next ⟨x1, [], vdst, 0, src, srclen1⟩
    else .next ⟨x1, [], vdst, 0, src, srclen1⟩
  else .next ⟨x, [], vdst, 0, vsrc, srclen⟩

/-- The value that lines 262-265 of `_cipher_update` give `n_partial`, the
number of bytes kept back in the partial block buffer, when `x->blklen` is
not 0 (C `%` truncates towards zero). -/
def n_partial_val {σ : Type} (x : cipher_ctx σ) (srclen : Int) : Int :=
  let n_part := Int.tmod srclen x.blklen
  if x.do_encrypt = 0 ∧ n_part = 0 then x.blklen else n_part

/-- Lines 262-265 of `_cipher_update`: `n_partial`, or `none` when
`x->blklen` is 0 and `srclen % x->blklen` on line 262 divides by zero. -/
def update_n_part {σ : Type} (x : cipher_ctx σ) (srclen : Int) : Option Int :=
  if x.blklen = 0 then none else some (n_partial_val x srclen)

/-- Lines 270-281 of `_cipher_update`: process complete blocks. -/
def update_complete_blocks {σ : Type} (G : Gcry σ) (ndebug : Bool) (s : update_locals σ)
    (dstlen : Int) (n_complete : Int) : update_step σ :=
  if n_complete > 0 then
    if ndebug = false ∧ ¬ (s.x.len = 0) then .abort 271 else
    if ndebug = false ∧ ¬ (Int.tmod n_complete s.x.blklen = 0) then .abort 272 else
    let r := _cipher_update_aux G s.x s.dst (dstlen - s.n_written) (some s.src) n_complete
    if r.rc < 0 then .err r.x (s.out ++ r.dst) else
    if ndebug = false ∧ ¬ (r.dstlen = n_complete) then .abort 277 else
    .next ⟨r.x, s.out ++ r.dst.take r.dstlen.toNat, r.dst.drop r.dstlen.toNat,
           s.n_written + r.dstlen, s.src.drop r.dstlen.toNat, s.srclen - r.dstlen⟩
  else .next s

/-- Lines 284-294 of `_cipher_update`: copy the leftovers to the partial
block buffer, and the decryption assertion. -/
def update_leftovers {σ : Type} (ndebug : Bool) (s : update_locals σ)
    ( n_part : Int) : update_step σ :=
  if n_part > 0 then
    if ndebug = false ∧ ¬ (s.x.len = 0) then .abort 285 else
    if ndebug = false ∧ ¬ (n_part ≤ s.x.blklen) then .abort 286 else
    let x1 := { s.x with buf := memcpy s.x.buf s.src n_part, len := n_part }
    if x1.do_encrypt = 0 ∧ ndebug = false ∧ ¬ (x1.len > 0) then .abort 293 else
    .next { s with x := x1 }
  else
    if s.x.do_encrypt = 0 ∧ ndebug = false ∧ ¬ (s.x.len > 0) then .abort 293 else
    .next s

/-- Lines 266-298 of `_cipher_update`: everything after `n_partial` has its
value `n_part`. -/
def update_tail {σ : Type} (G : Gcry σ) (ndebug : Bool) (s1 : update_locals σ)
    (dstlen : Int) (n_part : Int) : Except Nat (cipher_ret σ) :=
  let n_complete := s1.srclen - n_part
  match update_complete_blocks G ndebug s1 dstlen n_complete with
  | .abort l => .error l
  | .err x2 d => .ok ⟨-1, x2, d, 0⟩
  | .next s2 =>
    match update_leftovers ndebug s2 n_part with
    | .abort l => .error l
    | .err x3 d => .ok ⟨-1, x3, d, 0⟩
    | .next s3 => .ok ⟨0, s3.x, s3.out ++ s3.dst, s3.n_written⟩

/-- The function `_cipher_update` (lines 212-303).  The division by zero of
line 262 stops the process, whatever the build. -/
def _cipher_update {σ : Type} (G : Gcry σ) (ndebug : Bool) (x : cipher_ctx σ)
    (vdst : List Nat) (dstlen : Int) (vsrc : List Nat) (srclen : Int) :
    Except Nat (cipher_ret σ) :=
  if dstlen < 0 then .ok ⟨-1, x, vdst, 0⟩ else
  match update_partial_block G ndebug x vdst dstlen vsrc srclen with
  | .abort l => .error l
  | .err x1 d => .ok ⟨-1, x1, d, 0⟩
  | .next s1 =>
    match update_n_part s1.x s1.srclen with
    | none => .error 262
    | some n_part => update_tail G ndebug s1 dstlen n_part

/-- The loop of lines 340-342: `count` iterations from index `i`, each
storing `n` as an unsigned char. -/
def pad_fill (n : Int) : Nat → Nat → List Nat → List Nat
  | _, 0, buf => buf
  | i, k + 1, buf => pad_fill n (i + 1) k (buf.set i (n % 256).toNat)

/-- The loop of lines 365-369: true when no byte of `buf[start .. start+count)`
differs from `pad`. -/
def pad_check (buf : List Nat) (pad : Int) (start count : Nat) : Bool :=
  (List.range' start count).all (fun i => decide ((buf.getD i 0 : Int) = pad))

/-- The function `_cipher_final` (lines 330-381). -/
def _cipher_final {σ : Type} (G : Gcry σ) (ndebug : Bool) (x : cipher_ctx σ)
    (dst : List Nat) (dstlen : Int) : Except Nat (cipher_ret σ) :=
  if x.do_encrypt ≠ 0 then
    if ndebug = false ∧ ¬ (x.len ≤ x.blklen) then .error 338 else
    let n := x.blklen - x.len
    let x1 := { x with buf := pad_fill n x.len.toNat (x.blklen - x.len).toNat x.buf }
    let r := _cipher_update_aux G x1 dst dstlen (some x1.buf) x1.blklen
    if r.rc < 0 then .ok ⟨-1, r.x, r.dst, r.dstlen⟩
    else .ok ⟨0, r.x, r.dst, r.dstlen⟩
  else
    if x.len ≠ x.blklen then .ok ⟨-1, x, dst, dstlen⟩ else
    let r := _cipher_update_aux G x x.buf x.blklen none 0
    let x1 := { r.x with buf := r.dst }
    if r.rc < 0 then .ok ⟨-1, x1, dst, dstlen⟩ else
    let pad : Int := (x1.buf.getD (x1.blklen - 1).toNat 0 : Nat)
    if pad ≤ 0 ∨ pad > x1.blklen then .ok ⟨-1, x1, dst, dstlen⟩ else
    if pad_check x1.buf pad (x1.blklen - pad).toNat pad.toNat = false then
      .ok ⟨-1, x1, dst, dstlen⟩ else
    let n := x1.blklen - pad
    if dstlen < n then .ok ⟨-1, x1, dst, dstlen⟩ else
    .ok ⟨0, x1, memcpy dst x1.buf n, n⟩

/-- The function `_cipher_cleanup` (lines 384-389): `gcry_cipher_close`
releases the handle; the return code is always 0. -/
def _cipher_cleanup {σ : Type} (_G : Gcry σ) (x : cipher_ctx σ) : Int × cipher_ctx σ :=
  (0, x)

/-- The function `_cipher_block_size` (lines 392-405). -/
def _cipher_block_size {σ : Type} (G : Gcry σ) (cipher : Int) : Int :=
  let m := _cipher_map_enum cipher (some 0)
  if m.1 < 0 then -1 else
  let b := G.blklen (m.2.getD 0)
  if b.1 ≠ 0 then -1 else b.2

/-- The function `_cipher_iv_size` (lines 408-412). -/
def _cipher_iv_size {σ : Type} (G : Gcry σ) (cipher : Int) : Int :=
  _cipher_block_size G cipher

/-- The function `_cipher_key_size` (lines 415-428). -/
def _cipher_key_size {σ : Type} (G : Gcry σ) (cipher : Int) : Int :=
  let m := _cipher_map_enum cipher (some 0)
  if m.1 < 0 then -1 else
  let k := G.keylen (m.2.getD 0)
  if k.1 ≠ 0 then -1 else k.2

/-! ## Public functions, cipher.c lines 65-163 -/

/-- The function `cipher_init` (lines 65-82).  The two assertions of lines
78-79 are assignments: they run only in a build with assertions. -/
def cipher_init {σ : Type} (G : Gcry σ) (ndebug : Bool) (x : cipher_ctx σ) (cipher : Int)
    (key iv : List Nat) (enc : Int) : Except Nat (Int × cipher_ctx σ) :=
  if ndebug = false ∧ ¬ (enc = 0 ∨ enc = 1) then .error 74 else
  let r := _cipher_init G x cipher key iv enc
  if r.1 ≥ 0 then
    if ndebug then .ok r
    else .ok (r.1, { r.2 with magic := CIPHER_MAGIC, finalized := 0 })
  else .ok r

/-- The function `cipher_update` (lines 85-103). -/
def cipher_update {σ : Type} (G : Gcry σ) (ndebug : Bool) (x : cipher_ctx σ)
    (dst : List Nat) (dstlen : Int) (src : List Nat) (srclen : Int) :
    Except Nat (cipher_ret σ) :=
  if ndebug = false ∧ ¬ (x.magic = CIPHER_MAGIC) then .error 92 else
  if ndebug = false ∧ ¬ (x.finalized ≠ 1) then .error 93 else
  if srclen ≤ 0 then .ok ⟨0, x, dst, dstlen⟩ else
  _cipher_update G ndebug x dst dstlen src srclen

/-- The function `cipher_final` (lines 106-120).  The assertion of line 118
is an assignment. -/
def cipher_final {σ : Type} (G : Gcry σ) (ndebug : Bool) (x : cipher_ctx σ)
    (dst : List Nat) (dstlen : Int) : Except Nat (cipher_ret σ) :=
  if ndebug = false ∧ ¬ (x.magic = CIPHER_MAGIC) then .error 112 else
  if ndebug = false ∧ ¬ (x.finalized ≠ 1) then .error 113 else
  match _cipher_final G ndebug x dst dstlen with
  | .error l => .error l
  | .ok r => if ndebug then .ok r else .ok { r with x := { r.x with finalized := 1 } }

/-- The function `cipher_cleanup` (lines 123-135): the backend cleanup, then
`memset (x, 0, sizeof (*x))`, then the assignment inside the assertion of
line 133. -/
def cipher_cleanup {σ : Type} (G : Gcry σ) (ndebug : Bool) (x : cipher_ctx σ) :
    Except Nat (Int × cipher_ctx σ) :=
  if ndebug = false ∧ ¬ (x.magic = CIPHER_MAGIC) then .error 129 else
  let r := _cipher_cleanup G x
  let z : cipher_ctx σ := ⟨G.null, List.replicate MUNGE_MAXIMUM_BLK_LEN 0, 0, 0, 0, 0, 0⟩
  if ndebug then .ok (r.1, z) else .ok (r.1, { z with magic := CIPHER_MAGIC_NOT })

/-- The function `cipher_block_size` (lines 138-142). -/
def cipher_block_size {σ : Type} (G : Gcry σ) (cipher : Int) : Int :=
  _cipher_block_size G cipher

/-- The function `cipher_iv_size` (lines 145-149). -/
def cipher_iv_size {σ : Type} (G : Gcry σ) (cipher : Int) : Int :=
  _cipher_iv_size G cipher

/-- The function `cipher_key_size` (lines 152-156). -/
def cipher_key_size {σ : Type} (G : Gcry σ) (cipher : Int) : Int :=
  _cipher_key_size G cipher

/-- The function `cipher_map_enum` (lines 159-163). -/
def cipher_map_enum (cipher : Int) (dst : Option Int) : Int × Option Int :=
  _cipher_map_enum cipher dst

/-! ## Libgcrypt in CBC mode -/

/-- The state behind a CBC handle: the algorithm, the key set by
`gcry_cipher_setkey` and the chaining value (the IV, then the last
ciphertext block). -/
structure cbc_handle where
  algo : Int
  key : List Nat
  iv : List Nat

/-- Bytewise exclusive or of two blocks. -/
def xor_block (a b : List Nat) : List Nat := List.zipWith Nat.xor a b

/-- CBC encryption of `n` blocks of `b` bytes with the block function `E`:
the chaining value afterwards and the ciphertext. -/
def cbc_encrypt_blocks (E : List Nat → List Nat) (b : Nat) :
    Nat → List Nat → List Nat → List Nat × List Nat
  | 0, iv, _ => (iv, [])
  | n + 1, iv, data =>
    let c := E (xor_block (data.take b) iv)
    let r := cbc_encrypt_blocks E b n c (data.drop b)
    (r.1, c ++ r.2)

/-- CBC decryption of `n` blocks of `b` bytes with the inverse block
function `D`: the chaining value afterwards and the plaintext. -/
def cbc_decrypt_blocks (D : List Nat → List Nat) (b : Nat) :
    Nat → List Nat → List Nat → List Nat × List Nat
  | 0, iv, _ => (iv, [])
  | n + 1, iv, data =>
    let c := data.take b
    let r := cbc_decrypt_blocks D b n c (data.drop b)
    (r.1, xor_block (D c) iv ++ r.2)

/-- One CBC call of Libgcrypt (`gcry_cipher_encrypt` when `enc`, else
`gcry_cipher_decrypt`) for block length `b`: a NULL input means in-place
operation on the `outsize` bytes at `out`; the call fails when the output
is too short for the input or the input is not a whole number of blocks. -/
def cbc_crypt (enc : Bool) (F : List Nat → List Nat) (b : Nat) (h : cbc_handle)
    (out : List Nat) (outsize : Int) (inp : Option (List Nat)) (inlen : Int) :
    Nat × cbc_handle × List Nat :=
  let src := match inp with
    | none => out
    | some s => s
  let n := match inp with
    | none => outsize
    | some _ => inlen
  if outsize < n then (200, h, out)
  else if n < 0 ∨ b = 0 ∨ n.toNat % b ≠ 0 then (139, h, out)
  else
    let r := if enc then cbc_encrypt_blocks F b (n.toNat / b) h.iv src
             else cbc_decrypt_blocks F b (n.toNat / b) h.iv src
    (0, { h with iv := r.1 }, r.2 ++ out.drop n.toNat)

/-- The store through `(size_t *) &len` where `size_t` is as wide as `int`:
`len` reads the value as an `int`, and `algo` is not touched. -/
def store_exact (algo v : Int) : Int × Int := (algo, to_int v)

/-- The store through `(size_t *) &len` where `size_t` has 64 bits, the low
half of a value is stored first, and `algo` lies in the four bytes after
`len` (the frame gcc lays out on x86_64 without optimisation): `len` reads
the low half of the value and `algo` the high half. -/
def store_overrun (_algo v : Int) : Int × Int := (to_int (v / 4294967296), to_int v)

/-- Libgcrypt as CBC over a family of block ciphers: `E algo key` and
`D algo key` are the block functions, `blk algo` and `klen algo` the block
and key lengths in bytes (0 marks an algorithm the library lacks).  The store
through `(size_t *) &len` is the exact one. -/
def gcry_cbc (E D : Int → List Nat → List Nat → List Nat) (blk klen : Int → Nat) :
    Gcry cbc_handle where
  gcry_cipher_open := fun algo =>
    if blk algo = 0 then (12, ⟨0, [], []⟩) else (0, ⟨algo, [], []⟩)
  keylen := fun algo => if blk algo = 0 then (12, 0) else (0, klen algo)
  blklen := fun algo => if blk algo = 0 then (12, 0) else (0, blk algo)
  store_len := store_exact
  gcry_cipher_setkey := fun h key len => (0, { h with key := key.take len.toNat })
  gcry_cipher_setiv := fun h iv len => (0, { h with iv := iv.take len.toNat })
  gcry_cipher_encrypt := fun h out outsize inp inlen =>
    cbc_crypt true (E h.algo h.key) (blk h.algo) h out outsize inp inlen
  gcry_cipher_decrypt := fun h out outsize inp inlen =>
    cbc_crypt false (D h.algo h.key) (blk h.algo) h out outsize inp inlen
  null := ⟨0, [], []⟩

/-- The library `G` on a platform where the store through `(size_t *) &len`
does what `st` says. -/
def with_store {σ : Type} (G : Gcry σ) (st : Int → Int → Int × Int) : Gcry σ :=
  { G with store_len := st }

/-- Block and key lengths of the four ciphers in Libgcrypt. -/
def gcry_blk (algo : Int) : Nat :=
  if algo = GCRY_CIPHER_BLOWFISH ∨ algo = GCRY_CIPHER_CAST5 then 8
  else if algo = GCRY_CIPHER_AES128 ∨ algo = GCRY_CIPHER_AES256 then 16 else 0

/-- Key lengths of the four ciphers in Libgcrypt. -/
def gcry_klen (algo : Int) : Nat :=
  if algo = GCRY_CIPHER_AES256 then 32 else 16

/-- PKCS padding of a plaintext of length `p` for block length `b`:
`N = b - p mod b` bytes of value `N`. -/
def pkcs_pad (b : Nat) (P : List Nat) : List Nat :=
  List.replicate (b - P.length % b) (b - P.length % b)

/-! ## Callers -/

/-- A caller feeding chunks: one `cipher_update` per chunk into the memory
`dst` of capacity `cap`, advancing by the `*dstlen` each call reports.
The result is the context, the bytes emitted so far, and the destination
pointer and capacity left; `none` when a call returned nonzero. -/
def feed {σ : Type} (G : Gcry σ) (ndebug : Bool) :
    List (List Nat) → cipher_ctx σ → List Nat → List Nat → Int →
    Except Nat (Option (cipher_ctx σ × List Nat × List Nat × Int))
  | [], x, out, dst, cap => .ok (some (x, out, dst, cap))
  | c :: cs, x, out, dst, cap =>
    match cipher_update G ndebug x dst cap c c.length with
    | .error l => .error l
    | .ok r =>
      if r.rc ≠ 0 then .ok none
      else feed G ndebug cs r.x (out ++ r.dst.take r.dstlen.toNat)
             (r.dst.drop r.dstlen.toNat) (cap - r.dstlen)

/-- A whole run on an initialised context: the chunks through `feed`, then
`cipher_final`; the bytes emitted, or `none` when a call returned nonzero. -/
def run {σ : Type} (G : Gcry σ) (ndebug : Bool) (x : cipher_ctx σ)
    (chunks : List (List Nat)) (dst : List Nat) (cap : Int) :
    Except Nat (Option (List Nat)) :=
  match feed G ndebug chunks x [] dst cap with
  | .error l => .error l
  | .ok none => .ok none
  | .ok (some (x1, out, dst1, cap1)) =>
    match cipher_final G ndebug x1 dst1 cap1 with
    | .error l => .error l
    | .ok r => if r.rc ≠ 0 then .ok none else .ok (some (out ++ r.dst.take r.dstlen.toNat))

/-- A whole operation: `cipher_init` in direction `enc` on the context
memory `x0`, then `run`. -/
def crypt {σ : Type} (G : Gcry σ) (ndebug : Bool) (x0 : cipher_ctx σ) (cipher : Int)
    (key iv : List Nat) (enc : Int) (chunks : List (List Nat)) (dst : List Nat)
    (cap : Int) : Except Nat (Option (List Nat)) :=
  match cipher_init G ndebug x0 cipher key iv enc with
  | .error l => .error l
  | .ok r => if r.1 < 0 then .ok none else run G ndebug r.2 chunks dst cap

/-! ## munge.c: the option handlers for `-u` and `-t` -/

/-- Modelled from the spec: the error code `EMUNGE_SNAFU` of munge.h, the
first code after `SUCCESS` in the table of section 7. -/
def EMUNGE_SNAFU : Int := 1

/-- Modelled from the spec: the constant `MUNGE_TTL_MAXIMUM` of munge.h, the
TTL value that asks for the maximum (a negative `-t` selects it). -/
def MUNGE_TTL_MAXIMUM : Int := -1

/-- The errno value `ERANGE` of the C library. -/
def ERANGE : Int := 34

/-- The C library predicate `isspace` on a character code. -/
def isspace (c : Nat) : Bool := c = 32 || (9 ≤ c && c ≤ 13)

/-- The C library predicate `isdigit` on a character code. -/
def isdigit (c : Nat) : Bool := 48 ≤ c && c ≤ 57

/-- The value of a string of decimal digits. -/
def digits_value (ds : List Nat) : Int :=
  ds.foldl (fun a c => 10 * a + ((c : Int) - 48)) 0

/-- What `strtol (nptr, &endptr, 10)` leaves: the value returned, the string
at `endptr`, and errno. -/
structure strtol_ret where
  value : Int
  rest : List Nat
  errno : Int

/-- The C library call `strtol (nptr, &endptr, 10)` on a string given by its
character codes, for a `long` of maximum `long_max`: white space, an optional
sign, decimal digits.  Without digits nothing is converted (`endptr = nptr`,
value 0); a value out of range is clamped and sets errno to `ERANGE`;
otherwise errno is left alone. -/
def strtol (long_max : Int) (errno : Int) (nptr : List Nat) : strtol_ret :=
  let s1 := nptr.dropWhile isspace
  let s2 := if s1.head? = some 45 ∨ s1.head? = some 43 then s1.tail else s1
  let ds := s2.takeWhile isdigit
  if ds = [] then ⟨0, nptr, errno⟩ else
  let v := if s1.head? = some 45 then - digits_value ds else digits_value ds
  if v > long_max then ⟨long_max, s2.dropWhile isdigit, ERANGE⟩
  else if v < - long_max - 1 then ⟨- long_max - 1, s2.dropWhile isdigit, ERANGE⟩
  else ⟨v, s2.dropWhile isdigit, errno⟩

/-- How an option handler of `parse_cmdline` ends: `log_err` (line given)
ends the process with a status, or `munge_ctx_set` is called with a value and
errno is as given. -/
inductive option_result where
  | exit (status : Int) (line : Nat)
  | ctx_set (value : Int) (errno : Int)

/-- Modelled from the spec: `log_err (status, ...)` of log.c, which is not
among the sources, ends the process with exit status `status`; the model
records the source line of the call. -/
def log_err (status : Int) (line : Nat) : option_result := .exit status line

/-- The `case 't'` of `parse_cmdline` (munge.c lines 364-384) up to the call
of `munge_ctx_set (conf->ctx, MUNGE_OPT_TTL, i)`, for a `long` of maximum
`long_max` and the errno found on entry. -/
def parse_ttl (long_max : Int) (errno : Int) (optarg : List Nat) : option_result :=
  let r := strtol long_max errno optarg
  let i := to_int r.value
  if r.rest.length = optarg.length ∨ r.rest ≠ [] then log_err EMUNGE_SNAFU 367 else
  if i = long_max ∧ r.errno = ERANGE then log_err EMUNGE_SNAFU 371 else
  let i1 := if i < 0 then MUNGE_TTL_MAXIMUM else i
  .ctx_set i1 r.errno

/-- The all-digits branch of `case 'u'` of `parse_cmdline` (munge.c lines
326-327 and 336): `i = strtol (optarg, NULL, 10)` and the call of
`munge_ctx_set (conf->ctx, MUNGE_OPT_UID_RESTRICTION, i)`. -/
def parse_uid_digits (long_max : Int) (errno : Int) (optarg : List Nat) : option_result :=
  let r := strtol long_max errno optarg
  .ctx_set (to_int r.value) r.errno

/-! ## A concrete backend for worked examples -/

/-- A block function that is its own inverse: the block reversed. -/
def toy_block (_algo : Int) (_key : List Nat) (b : List Nat) : List Nat := b.reverse

/-- Libgcrypt's CBC mode over `toy_block`, with the block and key lengths of
the four ciphers. -/
def toy_gcry : Gcry cbc_handle := gcry_cbc toy_block toy_block gcry_blk gcry_klen

/-- The same library where the store through `(size_t *) &len` runs over
`algo`. -/
def toy_gcry_overrun : Gcry cbc_handle := with_store toy_gcry store_overrun

/-- A context in encrypt mode holding the three bytes 7, 8, 9 of a partial
block, block length 8. -/
def toy_enc_ctx : cipher_ctx cbc_handle :=
  ⟨⟨GCRY_CIPHER_BLOWFISH, [], List.replicate 8 0⟩,
   [7, 8, 9, 0, 0, 0, 0, 0, 0, 0, 0, 0, 0, 0, 0, 0], 3, 8, 1, CIPHER_MAGIC, 0⟩

/-- A context in decrypt mode holding back one full block whose decryption is
0, 0, 0, 1, 2, 3, 3, 3. -/
def toy_dec_ctx : cipher_ctx cbc_handle :=
  ⟨⟨GCRY_CIPHER_BLOWFISH, [], List.replicate 8 0⟩,
   [3, 3, 3, 2, 1, 0, 0, 0, 0, 0, 0, 0, 0, 0, 0, 0], 8, 8, 0, CIPHER_MAGIC, 0⟩

/-- A context in decrypt mode holding only five bytes. -/
def toy_short_ctx : cipher_ctx cbc_handle :=
  { toy_dec_ctx with len := 5 }

/-- Context memory before `cipher_init`. -/
def toy_raw_ctx : cipher_ctx cbc_handle :=
  ⟨⟨0, [], []⟩, List.replicate 16 0, 0, 0, 0, 0, 0⟩

/-- A sixteen-byte key for the worked examples. -/
def toy_key : List Nat := List.replicate 16 7
/-- An eight-byte IV for the worked examples. -/
def toy_iv : List Nat := [1, 2, 3, 4, 5, 6, 7, 8]

/-! ## Predicates used by the proofs -/

/-- The two assertion fields of a context agree with those of `x`. -/
def same_tags {σ : Type} (x y : cipher_ctx σ) : Prop :=
  y.magic = x.magic ∧ y.finalized = x.finalized

/-- A section of `_cipher_update` keeps the assertion fields and aborts only
on one of the lines from 239 on. -/
def step_keeps {σ : Type} (x : cipher_ctx σ) : update_step σ → Prop
  | .abort l => 239 ≤ l
  | .err y _ => same_tags x y
  | .next s => same_tags x s.x

/-- The context `y` is `x` with chaining value `iv` and the bytes `held` in
the partial block buffer; nothing else differs. -/
def steps_to (x y : cipher_ctx cbc_handle) (iv held : List Nat) : Prop :=
  y.ctx = { x.ctx with iv := iv } ∧ y.len = held.length
    ∧ y.buf.take held.length = held ∧ y.buf.length = x.buf.length
    ∧ y.blklen = x.blklen ∧ y.do_encrypt = x.do_encrypt
    ∧ y.magic = x.magic ∧ y.finalized = x.finalized

/-- A context of the CBC backend in working order for block length `b`. -/
structure cbc_ready (E : Int → List Nat → List Nat → List Nat) (blk : Int → Nat) (b : Nat)
    (x0 : cipher_ctx cbc_handle) : Prop where
  hb : 0 < b
  hb256 : b < 256
  hblk : blk x0.ctx.algo = b
  hbl : x0.blklen = (b : Int)
  hbuf : b ≤ x0.buf.length
  hiv : x0.ctx.iv.length = b
  hE : ∀ v : List Nat, v.length = b → (E x0.ctx.algo x0.ctx.key v).length = b

/-- The assertions of the public functions hold for `x` (nothing to hold in
a build without assertions). -/
def live (nd : Bool) (x : cipher_ctx cbc_handle) : Prop :=
  nd = false → x.magic = CIPHER_MAGIC ∧ x.finalized ≠ 1

/-- The Libgcrypt algorithm `_cipher_map_enum` stores for a cipher. -/
def cipher_algo (cipher : Int) : Int := ((_cipher_map_enum cipher (some 0)).2).getD 0

/-- The context a successful `cipher_init` leaves on the CBC backend. -/
def cbc_init_ctx (blk klen : Int → Nat) (nd : Bool) (xr : cipher_ctx cbc_handle)
    (cipher : Int) (key iv : List Nat) (enc : Int) : cipher_ctx cbc_handle :=
  { ctx := ⟨cipher_algo cipher, key.take (klen (cipher_algo cipher)),
            iv.take (blk (cipher_algo cipher))⟩
    buf := xr.buf
    len := 0
    blklen := (blk (cipher_algo cipher) : Int)
    do_encrypt := enc
    magic := if nd then xr.magic else CIPHER_MAGIC
    finalized := if nd then xr.finalized else 0 }

/-! ## Build configuration and compile-time defaults, munge_defs.h -/

/-- The configuration macros of config.h that cipher.c and munge_defs.h
test. -/
structure build_config where
  HAVE_LIBGCRYPT : Bool
  HAVE_OPENSSL : Bool
  HAVE_EVP_AES_128_CBC : Bool
  HAVE_EVP_AES_256_CBC : Bool
  HAVE_EVP_CIPHERINIT_EX : Bool

/-- Modelled from the spec: the enumeration munge_mac_t of munge.h, with the
numeric values of section 4.1 (`NONE=0`). -/
def MUNGE_MAC_NONE : Int := 0

/-- Modelled from the spec: munge_mac_t value `SHA1=3`. -/
def MUNGE_MAC_SHA1 : Int := 3

/-- The macro `MUNGE_DEFAULT_CIPHER` of munge_defs.h, lines 52-56. -/
def MUNGE_DEFAULT_CIPHER (c : build_config) : Int :=
  if c.HAVE_OPENSSL = true ∧ ¬ (c.HAVE_EVP_AES_128_CBC = true) then MUNGE_CIPHER_CAST5
  else MUNGE_CIPHER_AES128

/-- The macro `MUNGE_DEFAULT_MAC` of munge_defs.h, line 61. -/
def MUNGE_DEFAULT_MAC : Int := MUNGE_MAC_SHA1

/-- The macro `MUNGE_SOCKET_XFER_ATTEMPTS` of munge_defs.h, line 136. -/
def MUNGE_SOCKET_XFER_ATTEMPTS : Int := 5

/-- The macro `MUNGE_SOCKET_XFER_USLEEP` of munge_defs.h, line 142. -/
def MUNGE_SOCKET_XFER_USLEEP : Int := 10000

/-! ## Private functions (OpenSSL), cipher.c lines 481-622 -/

/-- The cipher descriptors (`EVP_CIPHER *`) that `_cipher_map_enum` obtains
from `EVP_bf_cbc ()`, `EVP_cast5_cbc ()`, `EVP_aes_128_cbc ()` and
`EVP_aes_256_cbc ()`. -/
inductive EVP_CIPHER where
  | bf_cbc
  | cast5_cbc
  | aes_128_cbc
  | aes_256_cbc
  deriving DecidableEq

/-- The function `_cipher_map_enum` of the OpenSSL build (lines 589-620).
`dst` is `none` for a NULL pointer and otherwise the `EVP_CIPHER *` it points
to (itself `none` when NULL); the two AES cases exist only under their
configuration macros. -/
def OpenSSL._cipher_map_enum (c : build_config) (cipher : Int)
    (dst : Option (Option EVP_CIPHER)) : Int × Option (Option EVP_CIPHER) :=
  let r : Int × Option EVP_CIPHER :=
    if cipher = MUNGE_CIPHER_BLOWFISH then (0, some .bf_cbc)
    else if cipher = MUNGE_CIPHER_CAST5 then (0, some .cast5_cbc)
    else if c.HAVE_EVP_AES_128_CBC = true ∧ cipher = MUNGE_CIPHER_AES128 then
      (0, some .aes_128_cbc)
    else if c.HAVE_EVP_AES_256_CBC = true ∧ cipher = MUNGE_CIPHER_AES256 then
      (0, some .aes_256_cbc)
    else (-1, none)
  if dst.isSome ∧ r.1 = 0 then (r.1, some r.2) else (r.1, dst)

/-- The function `cipher_map_enum` (lines 159-163) in the OpenSSL build. -/
def OpenSSL.cipher_map_enum (c : build_config) (cipher : Int)
    (dst : Option (Option EVP_CIPHER)) : Int × Option (Option EVP_CIPHER) :=
  OpenSSL._cipher_map_enum c cipher dst

/-- The struct `cipher_ctx` of the OpenSSL build: the `EVP_CIPHER_CTX` and the
two fields used by the assertions. -/
structure OpenSSL.cipher_ctx (ε : Type) where
  ctx : ε
  magic : Nat
  finalized : Int

/-- The function `_cipher_cleanup` of the OpenSSL build (lines 537-550), over
the library call `EVP_CIPHER_CTX_cleanup`, which yields its return value
(0 is failure) and the `EVP_CIPHER_CTX` afterwards; the return value is
looked at only under `HAVE_EVP_CIPHERINIT_EX`. -/
def OpenSSL._cipher_cleanup {ε : Type} (c : build_config)
    (EVP_CIPHER_CTX_cleanup : ε → Int × ε) (x : OpenSSL.cipher_ctx ε) :
    Int × OpenSSL.cipher_ctx ε :=
  let r := EVP_CIPHER_CTX_cleanup x.ctx
  let x1 := { x with ctx := r.2 }
  if c.HAVE_EVP_CIPHERINIT_EX = true ∧ r.1 = 0 then (-1, x1) else (0, x1)

/-- The function `cipher_cleanup` (lines 123-135) in the OpenSSL build;
`null` is the all-zero `EVP_CIPHER_CTX`. -/
def OpenSSL.cipher_cleanup {ε : Type} (c : build_config)
    (EVP_CIPHER_CTX_cleanup : ε → Int × ε) (null : ε) (ndebug : Bool)
    (x : OpenSSL.cipher_ctx ε) : Except Nat (Int × OpenSSL.cipher_ctx ε) :=
  if ndebug = false ∧ ¬ (x.magic = CIPHER_MAGIC) then .error 129 else
  let r := OpenSSL._cipher_cleanup c EVP_CIPHER_CTX_cleanup x
  let z : OpenSSL.cipher_ctx ε := ⟨null, 0, 0⟩
  if ndebug then .ok (r.1, z) else .ok (r.1, { z with magic := CIPHER_MAGIC_NOT })

/-! ## Sequences of calls, for the comparison of the two builds -/

/-- One call of the public interface with its arguments. -/
inductive cipher_call where
  | init (cipher : Int) (key iv : List Nat) (enc : Int)
  | update (dst : List Nat) (dstlen : Int) (src : List Nat) (srclen : Int)
  | final (dst : List Nat) (dstlen : Int)
  | cleanup

/-- What a call hands back to its caller: the return code, the memory at
`dst` and `*dstlen` (empty and 0 for the calls without a `dst`). -/
structure call_result where
  rc : Int
  dst : List Nat
  dstlen : Int

/-- One call on the context `x`: the context afterwards and what the caller
gets back. -/
def call {σ : Type} (G : Gcry σ) (ndebug : Bool) (x : cipher_ctx σ) :
    cipher_call → Except Nat (cipher_ctx σ × call_result)
  | .init cipher key iv enc =>
    match cipher_init G ndebug x cipher key iv enc with
    | .error l => .error l
    | .ok r => .ok (r.2, ⟨r.1, [], 0⟩)
  | .update dst dstlen src srclen =>
    match cipher_update G ndebug x dst dstlen src srclen with
    | .error l => .error l
    | .ok r => .ok (r.x, ⟨r.rc, r.dst, r.dstlen⟩)
  | .final dst dstlen =>
    match cipher_final G ndebug x dst dstlen with
    | .error l => .error l
    | .ok r => .ok (r.x, ⟨r.rc, r.dst, r.dstlen⟩)
  | .cleanup =>
    match cipher_cleanup G ndebug x with
    | .error l => .error l
    | .ok r => .ok (r.2, ⟨r.1, [], 0⟩)

/-- A sequence of calls on one context: the context at the end and what each
call handed back. -/
def calls {σ : Type} (G : Gcry σ) (ndebug : Bool) :
    List cipher_call → cipher_ctx σ → Except Nat (cipher_ctx σ × List call_result)
  | [], x => .ok (x, [])
  | c :: cs, x =>
    match call G ndebug x c with
    | .error l => .error l
    | .ok r =>
      match calls G ndebug cs r.1 with
      | .error l => .error l
      | .ok rs => .ok (rs.1, r.2 :: rs.2)

/-- The contexts `x` and `y` agree on every field other than `magic` and
`finalized`. -/
def same_fields {σ : Type} (x y : cipher_ctx σ) : Prop :=
  y.ctx = x.ctx ∧ y.buf = x.buf ∧ y.len = x.len ∧ y.blklen = x.blklen
    ∧ y.do_encrypt = x.do_encrypt

/-- The context `x` with other values in the two assertion fields. -/
def retag {σ : Type} (m : Nat) (f : Int) (x : cipher_ctx σ) : cipher_ctx σ :=
  { x with magic := m, finalized := f }

/-- The result of a section of `_cipher_update` with other values in the two
assertion fields of its context. -/
def update_step.retag {σ : Type} (m : Nat) (f : Int) : update_step σ → update_step σ
  | .abort l => .abort l
  | .err x d => .err (Munge.retag m f x) d
  | .next s => .next { s with x := Munge.retag m f s.x }

/-- What `_cipher_update_aux` computes from the direction and the handle
alone: the return code, the handle afterwards, the memory at `dst` and
`*dstlen`. -/
def aux_core {σ : Type} (G : Gcry σ) (d : Int) (c : σ) (dst : List Nat) (dstlen : Int)
    (src : Option (List Nat)) (srclen : Int) : Int × σ × List Nat × Int :=
  let r := _cipher_update_aux G ⟨c, [], 0, 0, d, 0, 0⟩ dst dstlen src srclen
  (r.rc, r.x.ctx, r.dst, r.dstlen)

/-- The result of a call with other values in the two assertion fields of
its context. -/
def cipher_ret.retag {σ : Type} (m : Nat) (f : Int) (r : cipher_ret σ) : cipher_ret σ :=
  { r with x := Munge.retag m f r.x }

/-! ## munge.c: `display_strings` and `str_to_int` -/

/-- The C library function `tolower` on a character code. -/
def tolower (c : Nat) : Nat := if 65 ≤ c ∧ c ≤ 90 then c + 32 else c

/-- The C library function `strcasecmp` on two strings given by their
character codes: negative, zero or positive as the first string, letter case
ignored, is less than, equal to or greater than the second. -/
def strcasecmp : List Nat → List Nat → Int
  | [], [] => 0
  | [], _ :: _ => -1
  | _ :: _, [] => 1
  | a :: as, b :: bs =>
    if tolower a < tolower b then -1
    else if tolower b < tolower a then 1
    else strcasecmp as bs

/-- The loop of `display_strings` (munge.c lines 502-506) from index `i` on:
the lines it prints, each a string with its index. -/
def display_strings_loop : List (List Nat) → Int → List (List Nat × Int)
  | [], _ => []
  | p :: pp, i =>
    if p ≠ [] then (p, i) :: display_strings_loop pp (i + 1)
    else display_strings_loop pp (i + 1)

/-- The function `display_strings` (munge.c lines 492-509) on a
NULL-terminated list given by its entries: the lines `  %s (%d)` it prints,
one for each non-empty string. -/
def display_strings (strings : List (List Nat)) : List (List Nat × Int) :=
  display_strings_loop strings 0

/-- The loop of `str_to_int` (munge.c lines 526-530) from index `i` on: the
index returned from inside the loop, or `none` when the loop runs to the
terminating NULL. -/
def str_to_int_loop (s : List Nat) : List (List Nat) → Int → Option Int
  | [], _ => none
  | p :: pp, i =>
    if strcasecmp s p = 0 then some i else str_to_int_loop s pp (i + 1)

/-- The function `str_to_int` (munge.c lines 512-544) for a `long` of maximum
`long_max` and the errno found on entry; `s` is `none` for a NULL pointer and
`strings` holds the entries before the terminating NULL. -/
def str_to_int (long_max errno : Int) (s : Option (List Nat)) (strings : List (List Nat)) :
    Int :=
  match s with
  | none => -1
  | some s =>
    if s = [] then -1 else
    match str_to_int_loop s strings 0 with
    | some i => i
    | none =>
      let i : Int := strings.length
      let r := strtol long_max errno s
      let n := to_int r.value
      if r.rest.length = s.length ∨ r.rest ≠ [] then -1 else
      if n < 0 ∨ n ≥ i then -1 else
      if strings.getD n.toNat [] = [] then -1 else n

/-- The decimal numeral of a natural number as `printf ("%d")` prints it. -/
def decimal (n : Nat) : List Nat :=
  if n = 0 then [48] else (Nat.digits 10 n).reverse.map (fun d => d + 48)

/-- Three names with an empty placeholder in the second place. -/
def toy_strings : List (List Nat) := [[110, 111, 110, 101], [], [65, 69, 83]]

/-! ## munge.c: `main` and the functions it calls -/

/-- Modelled from the spec: the error code `EMUNGE_SUCCESS` of munge.h, the
first code of the table of section 7. -/
def EMUNGE_SUCCESS : Int := 0

/-- Modelled from the spec: the error code `EMUNGE_NO_MEMORY` of munge.h, the
sixth code of the table of section 7. -/
def EMUNGE_NO_MEMORY : Int := 5

/-- The errno value `ENOMEM` of the C library. -/
def ENOMEM : Int := 12

/-- The errno value `EPIPE` of the C library. -/
def EPIPE : Int := 32

/-- How the process ends: the exit status, and the source line of the call
that ended it. -/
structure exit_info where
  status : Int
  line : Nat

/-- Modelled from the spec: a call of `log_err (status, ...)` or
`log_errno (status, ...)` of log.c, which is not among the sources, ends the
process with exit status `status`, as `exit (status)` does; `line` is the
source line of the call. -/
def log_exit (status : Int) (line : Nat) : exit_info := ⟨status, line⟩

/-- The options of `munge_ctx_set` that munge.c uses (munge.h). -/
inductive munge_opt where
  | MUNGE_OPT_CIPHER_TYPE
  | MUNGE_OPT_MAC_TYPE
  | MUNGE_OPT_ZIP_TYPE
  | MUNGE_OPT_TTL
  | MUNGE_OPT_SOCKET
  | MUNGE_OPT_UID_RESTRICTION
  | MUNGE_OPT_GID_RESTRICTION

/-- The variable argument of `munge_ctx_set`: an int or a string. -/
inductive opt_value where
  | int (v : Int)
  | str (s : List Nat)

/-- A stdio stream: `stdin`, `stdout`, or what `fopen (name, mode)`
returned. -/
inductive FILE where
  | stdin
  | stdout
  | opened (name : List Nat) (mode : Nat)

/-- What `read_data_from_string` and `read_data_from_file` (read.h) leave:
the return code, the data and its length stored through the pointers, and
errno. -/
structure read_ret where
  rc : Int
  data : Option (List Nat)
  dlen : Int
  errno : Int

/-- What `munge_encode` leaves: the status returned and the credential
stored through the first argument. -/
structure encode_ret where
  status : Int
  cred : Option (List Nat)

/-- The world outside munge.c: the C library, libmunge and the string tables
of munge.h.  `posignal` is false when the call returns `SIG_ERR`, `malloc`
false when it returns NULL, `fopen name mode` false when it returns NULL;
`munge_ctx_set` yields the error code and the context afterwards;
`getpwnam` and `getgrnam` yield the id of the entry found; `fprintf` yields
its return value; `fclose` its return value and errno afterwards. -/
structure Env (κ : Type) where
  long_max : Int
  posignal : Bool
  malloc : Bool
  munge_ctx_create : Option κ
  munge_ctx_set : κ → munge_opt → opt_value → Int × κ
  munge_cipher_strings : List (List Nat)
  munge_mac_strings : List (List Nat)
  munge_zip_strings : List (List Nat)
  getuid : Int
  getgid : Int
  getpwnam : List Nat → Option Int
  getgrnam : List Nat → Option Int
  fopen : List Nat → Nat → Bool
  read_data_from_string : List Nat → read_ret
  read_data_from_file : Option FILE → read_ret
  munge_encode : κ → Option (List Nat) → Int → encode_ret
  fprintf : FILE → List Nat → Int
  fclose : FILE → Int × Int

/-- The struct `conf` (munge.c lines 81-93); a pointer field is `none` when
NULL. -/
structure conf (κ : Type) where
  ctx : κ
  status : Int
  string : Option (List Nat)
  fn_in : Option (List Nat)
  fn_out : Option (List Nat)
  fp_in : Option FILE
  fp_out : Option FILE
  dlen : Int
  data : Option (List Nat)
  clen : Int
  cred : Option (List Nat)

/-- One return of `getopt_long`: the option character, `optarg` and
`optopt`. -/
structure getopt_ret where
  c : Nat
  optarg : List Nat
  optopt : Int

/-- The function `create_conf` (munge.c lines 163-185). -/
def create_conf {κ : Type} (E : Env κ) : Except exit_info (conf κ) :=
  if E.malloc = false then .error (log_exit EMUNGE_NO_MEMORY 169) else
  match E.munge_ctx_create with
  | none => .error (log_exit EMUNGE_NO_MEMORY 172)
  | some ctx => .ok ⟨ctx, -1, none, some [45], some [45], none, none, 0, none, 0, none⟩

/-- The value of errno after `str_to_int`: `strtol` runs, and may set it,
only when `s` is a non-empty string that matches no entry. -/
def str_to_int_errno (long_max errno : Int) (s : Option (List Nat))
    (strings : List (List Nat)) : Int :=
  match s with
  | none => errno
  | some s =>
    if s = [] then errno else
    match str_to_int_loop s strings 0 with
    | some _ => errno
    | none => (strtol long_max errno s).errno

/-- The common end of the option handlers that set an int option: the call
`munge_ctx_set (conf->ctx, opt, i)` and the `log_err` on source line `line`
when it fails. -/
def ctx_set_int {κ : Type} (E : Env κ) (cf : conf κ) (opt : munge_opt) (i : Int)
    (errno : Int) (line : Nat) : Except exit_info (conf κ × Int) :=
  let r := E.munge_ctx_set cf.ctx opt (.int i)
  if r.1 ≠ EMUNGE_SUCCESS then .error (log_exit EMUNGE_SNAFU line)
  else .ok ({ cf with ctx := r.2 }, errno)

/-- The cases `'c'`, `'m'` and `'z'` of `parse_cmdline` (munge.c lines
274-285, 290-301, 306-317): `str_to_int` on the table `strings`, then
`munge_ctx_set`; `line` is the line of the first `log_err`. -/
def parse_enum {κ : Type} (E : Env κ) (cf : conf κ) (errno : Int) (optarg : List Nat)
    (strings : List (List Nat)) (opt : munge_opt) (line : Nat) :
    Except exit_info (conf κ × Int) :=
  let i := str_to_int E.long_max errno (some optarg) strings
  let errno1 := str_to_int_errno E.long_max errno (some optarg) strings
  if i < 0 then .error (log_exit EMUNGE_SNAFU line)
  else ctx_set_int E cf opt i errno1 (line + 5)

/-- The cases `'u'` and `'g'` of `parse_cmdline` (munge.c lines 322-342,
343-363): the id of the caller for an empty argument, the number for a string
of digits, else the id that `getpwnam` or `getgrnam` finds; `line` is the
line of the first `log_err`. -/
def parse_id {κ : Type} (E : Env κ) (cf : conf κ) (errno : Int) (optarg : List Nat)
    (self : Int) (lookup : List Nat → Option Int) (opt : munge_opt) (line : Nat) :
    Except exit_info (conf κ × Int) :=
  if optarg.length = 0 then ctx_set_int E cf opt self errno (line + 5)
  else if optarg.length = (optarg.takeWhile isdigit).length then
    match parse_uid_digits E.long_max errno optarg with
    | .exit status l => .error (log_exit status l)
    | .ctx_set i errno1 => ctx_set_int E cf opt i errno1 (line + 5)
  else
    match lookup optarg with
    | some id => ctx_set_int E cf opt id errno (line + 5)
    | none => .error (log_exit EMUNGE_SNAFU line)

/-- One turn of the loop of `parse_cmdline` (munge.c lines 246-407): the
switch on the option character that `getopt_long` returned. -/
def parse_option {κ : Type} (E : Env κ) (cf : conf κ) (errno : Int) (o : getopt_ret) :
    Except exit_info (conf κ × Int) :=
  if o.c = 104 then .error (log_exit EMUNGE_SUCCESS 249)
  else if o.c = 76 then .error (log_exit EMUNGE_SUCCESS 253)
  else if o.c = 86 then .error (log_exit EMUNGE_SUCCESS 257)
  else if o.c = 110 then .ok ({ cf with fn_in := none, string := none }, errno)
  else if o.c = 115 then .ok ({ cf with fn_in := none, string := some o.optarg }, errno)
  else if o.c = 105 then .ok ({ cf with fn_in := some o.optarg, string := none }, errno)
  else if o.c = 111 then .ok ({ cf with fn_out := some o.optarg }, errno)
  else if o.c = 99 then
    parse_enum E cf errno o.optarg E.munge_cipher_strings .MUNGE_OPT_CIPHER_TYPE 276
  else if o.c = 67 then .error (log_exit EMUNGE_SUCCESS 288)
  else if o.c = 109 then
    parse_enum E cf errno o.optarg E.munge_mac_strings .MUNGE_OPT_MAC_TYPE 292
  else if o.c = 77 then .error (log_exit EMUNGE_SUCCESS 304)
  else if o.c = 122 then
    parse_enum E cf errno o.optarg E.munge_zip_strings .MUNGE_OPT_ZIP_TYPE 308
  else if o.c = 90 then .error (log_exit EMUNGE_SUCCESS 320)
  else if o.c = 117 then
    parse_id E cf errno o.optarg E.getuid E.getpwnam .MUNGE_OPT_UID_RESTRICTION 333
  else if o.c = 103 then
    parse_id E cf errno o.optarg E.getgid E.getgrnam .MUNGE_OPT_GID_RESTRICTION 354
  else if o.c = 116 then
    match parse_ttl E.long_max errno o.optarg with
    | .exit status l => .error (log_exit status l)
    | .ctx_set i errno1 => ctx_set_int E cf .MUNGE_OPT_TTL i errno1 380
  else if o.c = 83 then
    let r := E.munge_ctx_set cf.ctx .MUNGE_OPT_SOCKET (.str o.optarg)
    if r.1 ≠ EMUNGE_SUCCESS then .error (log_exit EMUNGE_SNAFU 388)
    else .ok ({ cf with ctx := r.2 }, errno)
  else if o.c = 63 then
    if o.optopt > 0 then .error (log_exit EMUNGE_SNAFU 395)
    else .error (log_exit EMUNGE_SNAFU 399)
  else .error (log_exit EMUNGE_SNAFU 404)

/-- The loop of `parse_cmdline` over the successive returns of `getopt_long`
(the last, -1, left out). -/
def parse_options {κ : Type} (E : Env κ) :
    List getopt_ret → conf κ → Int → Except exit_info (conf κ × Int)
  | [], cf, errno => .ok (cf, errno)
  | o :: os, cf, errno =>
    match parse_option E cf errno o with
    | .error e => .error e
    | .ok r => parse_options E os r.1 r.2

/-- The function `parse_cmdline` (munge.c lines 224-414) on the returns of
`getopt_long` and on `argv[optind]` as it is after the loop (`none` when
NULL); errno is carried along. -/
def parse_cmdline {κ : Type} (E : Env κ) (cf : conf κ) (errno : Int)
    (opts : List getopt_ret) (rest : Option (List Nat)) :
    Except exit_info (conf κ × Int) :=
  match parse_options E opts cf errno with
  | .error e => .error e
  | .ok r => if rest.isSome then .error (log_exit EMUNGE_SNAFU 410) else .ok r

/-- Lines 550-558 of `open_files`: the input stream. -/
def open_files_in {κ : Type} (E : Env κ) (cf : conf κ) : Except exit_info (conf κ) :=
  match cf.fn_in with
  | none => .ok cf
  | some name =>
    if name = [45] then .ok { cf with fp_in := some .stdin }
    else if E.fopen name 114 then .ok { cf with fp_in := some (.opened name 114) }
    else .error (log_exit EMUNGE_SNAFU 555)

/-- Lines 559-567 of `open_files`: the output stream. -/
def open_files_out {κ : Type} (E : Env κ) (cf : conf κ) : Except exit_info (conf κ) :=
  match cf.fn_out with
  | none => .ok cf
  | some name =>
    if name = [45] then .ok { cf with fp_out := some .stdout }
    else if E.fopen name 119 then .ok { cf with fp_out := some (.opened name 119) }
    else .error (log_exit EMUNGE_SNAFU 564)

/-- The function `open_files` (munge.c lines 547-569). -/
def open_files {κ : Type} (E : Env κ) (cf : conf κ) : Except exit_info (conf κ) :=
  match open_files_in E cf with
  | .error e => .error e
  | .ok cf1 => open_files_out E cf1

/-- The function `display_cred` (munge.c lines 572-582): the line written to
the output, `none` when there is no output stream. -/
def display_cred {κ : Type} (E : Env κ) (cf : conf κ) :
    Except exit_info (Option (List Nat)) :=
  match cf.fp_out with
  | none => .ok none
  | some fp =>
    if E.fprintf fp (cf.cred.getD [] ++ [10]) < 0 then .error (log_exit EMUNGE_SNAFU 579)
    else .ok (some (cf.cred.getD [] ++ [10]))

/-- The function `destroy_conf` (munge.c lines 188-221), as far as it can end
the process: the two `fclose` calls. -/
def destroy_conf {κ : Type} (E : Env κ) (cf : conf κ) : Except exit_info Unit :=
  let r1 : Except exit_info Unit :=
    match cf.fp_in with
    | none => .ok ()
    | some fp => if (E.fclose fp).1 < 0 then .error (log_exit EMUNGE_SNAFU 199) else .ok ()
  match r1 with
  | .error e => .error e
  | .ok _ =>
    match cf.fp_out with
    | none => .ok ()
    | some fp =>
      if (E.fclose fp).1 < 0 ∧ (E.fclose fp).2 ≠ EPIPE then
        .error (log_exit EMUNGE_SNAFU 205)
      else .ok ()

/-- Lines 123-129 of `main`: `posignal`, `create_conf`, `parse_cmdline` and
`open_files`; errno is `errno` on entry. -/
def main_startup {κ : Type} (E : Env κ) (errno : Int) (opts : List getopt_ret)
    (rest : Option (List Nat)) : Except exit_info (conf κ × Int) :=
  if E.posignal = false then .error (log_exit EMUNGE_SNAFU 124) else
  match create_conf E with
  | .error e => .error e
  | .ok cf0 =>
    match parse_cmdline E cf0 errno opts rest with
    | .error e => .error e
    | .ok r =>
      match open_files E r.1 with
      | .error e => .error e
      | .ok cf2 => .ok (cf2, r.2)

/-- Lines 131-136 of `main`: the input is read from the string, else from the
input file, else not at all (`rc` stays 0). -/
def main_read {κ : Type} (E : Env κ) (cf : conf κ) (errno : Int) : read_ret :=
  match cf.string with
  | some s => E.read_data_from_string s
  | none =>
    match cf.fn_in with
    | some _ => E.read_data_from_file cf.fp_in
    | none => ⟨0, cf.data, cf.dlen, errno⟩

/-- The struct `conf` after lines 131-154 of `main`, when the input was read
and encoded. -/
def main_conf {κ : Type} (cf : conf κ) (rd : read_ret) (en : encode_ret) : conf κ :=
  { cf with data := rd.data, dlen := rd.dlen, status := en.status, cred := en.cred,
            clen := (en.cred.getD []).length }

/-- What a run of the program leaves: the exit status, the source line of the
call that ended it, and the line written by `display_cred` (`none` when
nothing was written). -/
structure main_ret where
  status : Int
  line : Nat
  out : Option (List Nat)

/-- The function `main` (munge.c lines 116-160). -/
def main {κ : Type} (E : Env κ) (errno : Int) (opts : List getopt_ret)
    (rest : Option (List Nat)) : main_ret :=
  match main_startup E errno opts rest with
  | .error e => ⟨e.status, e.line, none⟩
  | .ok (cf, errno1) =>
    let rd := main_read E cf errno1
    if rd.rc < 0 then
      if rd.errno = ENOMEM then ⟨EMUNGE_NO_MEMORY, 139, none⟩
      else ⟨EMUNGE_SNAFU, 142, none⟩
    else
    let en := E.munge_encode cf.ctx rd.data rd.dlen
    if en.status ≠ EMUNGE_SUCCESS then ⟨en.status, 152, none⟩ else
    let cf3 := main_conf cf rd en
    match display_cred E cf3 with
    | .error e => ⟨e.status, e.line, none⟩
    | .ok w =>
      match destroy_conf E cf3 with
      | .error e => ⟨e.status, e.line, w⟩
      | .ok _ => ⟨EMUNGE_SUCCESS, 159, w⟩

/-- A world in which every call succeeds: reading gives the bytes of the
string (or `hi` from a file), `munge_encode` gives the credential `MUNGE:`,
and `fprintf` returns `ok`. -/
def toy_env (ok : Int) : Env Unit where
  long_max := 9223372036854775807
  posignal := true
  malloc := true
  munge_ctx_create := some ()
  munge_ctx_set := fun _ _ _ => (0, ())
  munge_cipher_strings := toy_strings
  munge_mac_strings := toy_strings
  munge_zip_strings := toy_strings
  getuid := 1000
  getgid := 1000
  getpwnam := fun _ => none
  getgrnam := fun _ => none
  fopen := fun _ _ => true
  read_data_from_string := fun s => ⟨0, some s, s.length, 0⟩
  read_data_from_file := fun _ => ⟨0, some [104, 105], 2, 0⟩
  munge_encode := fun _ _ _ => ⟨0, some [77, 85, 78, 71, 69, 58]⟩
  fprintf := fun _ _ => ok
  fclose := fun _ => (0, 0)

/-- The world of `toy_env 0` in which every `fclose` returns `rc` and leaves
errno at `errno`. -/
def toy_env_close (rc errno : Int) : Env Unit :=
  { toy_env 0 with fclose := fun _ => (rc, errno) }

/-- Lines 137-159 of `main`: what follows once the input was read with result
`rd`. -/
def main_finish {κ : Type} (E : Env κ) (cf : conf κ) (rd : read_ret) : main_ret :=
  if rd.rc < 0 then
    if rd.errno = ENOMEM then ⟨EMUNGE_NO_MEMORY, 139, none⟩
    else ⟨EMUNGE_SNAFU, 142, none⟩
  else
  let en := E.munge_encode cf.ctx rd.data rd.dlen
  if en.status ≠ EMUNGE_SUCCESS then ⟨en.status, 152, none⟩ else
  let cf3 := main_conf cf rd en
  match display_cred E cf3 with
  | .error e => ⟨e.status, e.line, none⟩
  | .ok w =>
    match destroy_conf E cf3 with
    | .error e => ⟨e.status, e.line, w⟩
    | .ok _ => ⟨EMUNGE_SUCCESS, 159, w⟩

/-- Whether a return of `getopt_long` is one of the options `-n`, `-s` and
`-i`. -/
def is_input_opt (o : getopt_ret) : Bool := o.c = 110 || o.c = 115 || o.c = 105

/-- The last of the options `-n`, `-s` and `-i` on a command line, if there is
one. -/
def last_input_opt (opts : List getopt_ret) : Option getopt_ret :=
  (opts.filter is_input_opt).getLast?

/-- The pair (`string`, `fn_in`) that the last of the options `-n`, `-s` and
`-i` alone determines: neither for `-n`, the string for `-s`, the file name
for `-i`; the pair `s0` when there is no such option. -/
def select_input (s0 : Option (List Nat) × Option (List Nat)) (opts : List getopt_ret) :
    Option (List Nat) × Option (List Nat) :=
  match last_input_opt opts with
  | none => s0
  | some o =>
    if o.c = 110 then (none, none)
    else if o.c = 115 then (some o.optarg, none)
    else (none, some o.optarg)

/-- What one turn of the option loop leaves of the input and output fields of
`conf`: the data and the streams are kept, `fn_out` is kept by every option
but `-o`, and `string` and `fn_in` are set by `-n`, `-s`, `-i` and kept by
every other option. -/
def option_effect {κ : Type} (cf : conf κ) (o : getopt_ret) (cf1 : conf κ) : Prop :=
  cf1.data = cf.data ∧ cf1.dlen = cf.dlen ∧ cf1.fp_in = cf.fp_in ∧ cf1.fp_out = cf.fp_out
  ∧ (o.c ≠ 111 → cf1.fn_out = cf.fn_out)
  ∧ (cf1.string, cf1.fn_in) = select_input (cf.string, cf.fn_in) [o]

/-! ## Theorems -/

/-! ### The division of line 262 and the store through `len_ptr` -/

/-- With a block length other than 0, line 262 gives `n_partial` its
value. -/
theorem update_n_part_pos {σ : Type} (x : cipher_ctx σ) (srclen : Int) (h : x.blklen ≠ 0) :
    update_n_part x srclen = some (n_partial_val x srclen) := by
  unfold update_n_part
  rw [if_neg h]

/-- With a block length of 0, line 262 divides by zero. -/
theorem update_n_part_zero {σ : Type} (x : cipher_ctx σ) (srclen : Int) (h : x.blklen = 0) :
    update_n_part x srclen = none := by
  unfold update_n_part
  rw [if_pos h]

/-- The function `_cipher_update` past the partial block section, with a
block length other than 0. -/
theorem update_of_next {σ : Type} (G : Gcry σ) (nd : Bool) (x : cipher_ctx σ)
    (vdst : List Nat) (dstlen : Int) (vsrc : List Nat) (srclen : Int) (s1 : update_locals σ)
    (hd : ¬ dstlen < 0)
    (hp : update_partial_block G nd x vdst dstlen vsrc srclen = .next s1)
    (hb : s1.x.blklen ≠ 0) :
    _cipher_update G nd x vdst dstlen vsrc srclen
      = update_tail G nd s1 dstlen (n_partial_val s1.x s1.srclen) := by
  unfold _cipher_update
  rw [if_neg hd, hp]
  simp only
  rw [update_n_part_pos _ _ hb]

/-- On a context with nothing in the partial block and the block length 0,
which is what `cipher_cleanup` leaves, `_cipher_update` comes to line 262 and
divides by zero, in either build. -/
theorem update_div_zero {σ : Type} (G : Gcry σ) (nd : Bool) (x : cipher_ctx σ)
    (vdst : List Nat) (dstlen : Int) (vsrc : List Nat) (srclen : Int)
    (hd : 0 ≤ dstlen) (hl : x.len ≤ 0) (hb : x.blklen = 0) :
    _cipher_update G nd x vdst dstlen vsrc srclen = .error 262 := by
  have hp : update_partial_block G nd x vdst dstlen vsrc srclen
      = .next ⟨x, [], vdst, 0, vsrc, srclen⟩ := by
    unfold update_partial_block
    rw [if_neg (by omega)]
  unfold _cipher_update
  rw [if_neg (by omega), hp]
  simp only
  rw [update_n_part_zero _ _ hb]

/-- A number that an `int` holds is read back as it is. -/
theorem to_int_small (v : Int) (h0 : 0 ≤ v) (h1 : v < 2147483648) : to_int v = v := by
  unfold to_int
  omega

/-- The function `_cipher_update_aux` keeps the block length. -/
theorem aux_blklen {σ : Type} (G : Gcry σ) (y : cipher_ctx σ) (d : List Nat) (n : Int)
    (s : Option (List Nat)) (k : Int) :
    (_cipher_update_aux G y d n s k).x.blklen = y.blklen := by
  unfold _cipher_update_aux
  dsimp only
  split_ifs <;> rfl

/-- The partial block section keeps the block length. -/
theorem partial_block_blklen {σ : Type} (G : Gcry σ) (nd : Bool) (x : cipher_ctx σ)
    (vdst : List Nat) (dstlen : Int) (vsrc : List Nat) (srclen : Int) (s1 : update_locals σ)
    (h : update_partial_block G nd x vdst dstlen vsrc srclen = .next s1) :
    s1.x.blklen = x.blklen := by
  unfold update_partial_block at h
  dsimp only at h
  split_ifs at h <;> simp only [update_step.next.injEq] at h <;> subst h
  · exact aux_blklen G _ _ _ _ _
  · rfl
  · rfl
  · rfl

/-- The function `_cipher_final` keeps the block length. -/
theorem final_blklen {σ : Type} (G : Gcry σ) (nd : Bool) (x : cipher_ctx σ) (dst : List Nat)
    (dstlen : Int) (r : cipher_ret σ) (h : _cipher_final G nd x dst dstlen = .ok r) :
    r.x.blklen = x.blklen := by
  unfold _cipher_final at h
  dsimp only at h
  split_ifs at h <;>
    (simp only [Except.ok.injEq] at h
     subst h
     first
       | rfl
       | exact aux_blklen G _ _ _ _ _)

/-! ### The padding loops -/

/-- The padding loop of lines 340-342 writes `count` copies of the byte into
`buf[i .. i + count)` and nothing else. -/
theorem pad_fill_eq (n : Int) : ∀ (k i : Nat) (buf : List Nat), i + k ≤ buf.length →
    pad_fill n i k buf
      = buf.take i ++ List.replicate k (n % 256).toNat ++ buf.drop (i + k) := by
  intro k
  induction k with
  | zero => intro i buf _; simp [pad_fill]
  | succ k ih =>
    intro i buf h
    have hi : i < buf.length := by omega
    rw [pad_fill, ih (i + 1) _ (by simp; omega)]
    rw [List.drop_set_of_lt _ _ (by omega), List.set_eq_take_append_cons_drop, if_pos hi]
    have e1 : List.take (i + 1) (List.take i buf ++ (n % 256).toNat :: List.drop (i + 1) buf)
        = List.take i buf ++ [(n % 256).toNat] := by
      rw [List.take_append_eq_append_take]
      simp [List.length_take, Nat.min_eq_left (Nat.le_of_lt hi)]
    rw [e1, List.replicate_succ, show i + 1 + k = i + (k + 1) by omega]
    simp

/-- The checking loop of lines 365-369 succeeds exactly when every byte of
the range equals `pad`. -/
theorem pad_check_iff (buf : List Nat) (pad : Int) (start count : Nat) :
    pad_check buf pad start count = true
      ↔ ∀ i : Nat, start ≤ i → i < start + count → (buf.getD i 0 : Int) = pad := by
  simp only [pad_check, List.all_eq_true, List.mem_range'_1, decide_eq_true_eq]
  constructor
  · intro h i h1 h2; exact h i ⟨h1, h2⟩
  · intro h i hi; exact h i hi.1 hi.2

/-! ### C1: encrypt finalize -/

/-- C1: in encrypt mode with a partial block of `len` bytes, `0 ≤ len < blklen`,
`_cipher_final` fills `buf[len .. blklen)` with the byte `N = blklen - len`
(so `1 ≤ N ≤ blklen`), keeps `buf[0 .. len)`, and hands exactly that one block
of `blklen` bytes to `gcry_cipher_encrypt` with output `dst`; its return code
and `*dstlen` are those of that one call. -/
theorem cipher_final_encrypt_pads {σ : Type} (G : Gcry σ) (ndebug : Bool)
    (x : cipher_ctx σ) (dst : List Nat) (dstlen : Int)
    (henc : x.do_encrypt ≠ 0) (h0 : 0 ≤ x.len) (hlt : x.len < x.blklen)
    (hbuf : x.buf.length = MUNGE_MAXIMUM_BLK_LEN) (hcap : x.blklen ≤ x.buf.length) :
    let N := x.blklen - x.len
    let padded := x.buf.take x.len.toNat ++ List.replicate N.toNat N.toNat
      ++ x.buf.drop x.blklen.toNat
    let e := G.gcry_cipher_encrypt x.ctx dst dstlen (some padded) x.blklen
    1 ≤ N ∧ N ≤ x.blklen ∧
    (padded.take x.blklen.toNat).length = x.blklen.toNat ∧
    padded.take x.len.toNat = x.buf.take x.len.toNat ∧
    (padded.take x.blklen.toNat).drop x.len.toNat = List.replicate N.toNat N.toNat ∧
    _cipher_final G ndebug x dst dstlen
      = .ok ⟨if e.1 ≠ 0 then -1 else 0, { x with buf := padded, ctx := e.2.1 }, e.2.2,
             if e.1 ≠ 0 then 0 else x.blklen⟩ := by
  intro N padded e
  have hN : N = x.blklen - x.len := rfl
  have hl16 : x.blklen ≤ 16 := by
    have := hbuf; simp only [MUNGE_MAXIMUM_BLK_LEN] at this; omega
  have hlen1 : (x.buf.take x.len.toNat).length = x.len.toNat := by
    rw [List.length_take]; omega
  have hfill : pad_fill N x.len.toNat (x.blklen - x.len).toNat x.buf = padded := by
    rw [pad_fill_eq N _ _ _ (by omega)]
    have h1 : (N % 256).toNat = N.toNat := by omega
    have h2 : x.len.toNat + (x.blklen - x.len).toNat = x.blklen.toNat := by omega
    rw [h1, h2]
  refine ⟨by omega, by omega, ?_, ?_, ?_, ?_⟩
  · simp only [padded, List.length_take, List.length_append, List.length_replicate,
      List.length_drop]
    omega
  · simp only [padded, List.append_assoc]
    rw [List.take_left' hlen1]
  · have hp : padded.take x.blklen.toNat
        = x.buf.take x.len.toNat ++ List.replicate N.toNat N.toNat := by
      simp only [padded]
      rw [List.take_left']
      simp only [List.length_append, List.length_replicate, hlen1]
      omega
    rw [hp, List.drop_left' hlen1]
  · unfold _cipher_final
    rw [if_pos henc, if_neg (by omega)]
    simp only [hfill, _cipher_update_aux, if_pos henc]
    by_cases he : e.1 = 0
    · have he2 : (G.gcry_cipher_encrypt x.ctx dst dstlen (some padded) x.blklen).1 = 0 := he
      simp [he2, e]
    · have he2 : ¬ (G.gcry_cipher_encrypt x.ctx dst dstlen (some padded) x.blklen).1 = 0 := he
      simp [he2, e]

/-- C1 at a context holding 7, 8, 9 with block length 8: five bytes of value 5
are appended. -/
theorem cipher_final_encrypt_pads_witness :
    toy_enc_ctx.do_encrypt ≠ 0 ∧
    (List.take 8 ([7, 8, 9] ++ List.replicate 5 5 ++ List.replicate 8 0)).drop 3
      = List.replicate 5 5 :=
  ⟨by decide,
   (cipher_final_encrypt_pads toy_gcry false toy_enc_ctx [] 8 (by decide) (by decide)
      (by decide) (by decide) (by decide)).2.2.2.2.1⟩

/-! ### C2 and C7: decrypt finalize -/

/-- What `_cipher_final` leaves in decrypt mode: it always returns, either
with 0, or with -1 and `dst` and `*dstlen` as they were. -/
theorem final_decrypt_shape {σ : Type} (G : Gcry σ) (ndebug : Bool) (x : cipher_ctx σ)
    (dst : List Nat) (dstlen : Int) (hdec : x.do_encrypt = 0) :
    ∃ r, _cipher_final G ndebug x dst dstlen = .ok r ∧
      (r.rc = 0 ∨ (r.rc = -1 ∧ r.dst = dst ∧ r.dstlen = dstlen)) := by
  unfold _cipher_final
  simp only [hdec, ne_eq, not_true_eq_false, if_false]
  split_ifs <;> simp

/-- C2: in decrypt mode, when the backend decrypts the held block (`blk` is
what it leaves in the buffer), `_cipher_final` returns 0 exactly when the
buffer is full (`len = blklen`), the last byte `pad` of `blk` has
`1 ≤ pad ≤ blklen`, each of the last `pad` bytes of `blk` equals `pad`, and
`*dstlen ≥ blklen - pad`; it then copies the first `blklen - pad` bytes of
`blk` to `dst` and sets `*dstlen = blklen - pad`; otherwise it returns -1. -/
theorem cipher_final_decrypt_iff {σ : Type} (G : Gcry σ) (ndebug : Bool)
    (x : cipher_ctx σ) (dst : List Nat) (dstlen : Int) (hdec : x.do_encrypt = 0)
    (hback : (G.gcry_cipher_decrypt x.ctx x.buf x.blklen none 0).1 = 0) :
    let blk := (G.gcry_cipher_decrypt x.ctx x.buf x.blklen none 0).2.2
    let pad : Int := (blk.getD (x.blklen - 1).toNat 0 : Nat)
    let good := x.len = x.blklen ∧ 1 ≤ pad ∧ pad ≤ x.blklen
      ∧ (∀ i : Nat, x.blklen - pad ≤ i → (i : Int) < x.blklen → (blk.getD i 0 : Int) = pad)
      ∧ x.blklen - pad ≤ dstlen
    ∃ r, _cipher_final G ndebug x dst dstlen = .ok r ∧ (r.rc = 0 ↔ good)
      ∧ (good → r.dst = blk.take (x.blklen - pad).toNat ++ dst.drop (x.blklen - pad).toNat
            ∧ r.dstlen = x.blklen - pad)
      ∧ (¬ good → r.rc = -1) := by
  intro blk pad good
  have hblk : blk = (G.gcry_cipher_decrypt x.ctx x.buf x.blklen none 0).2.2 := rfl
  have hpad : pad = ((blk.getD (x.blklen - 1).toNat 0 : Nat) : Int) := rfl
  unfold _cipher_final
  simp only [hdec, ne_eq, not_true_eq_false, if_false, _cipher_update_aux, hback,
    Option.isSome_none, Bool.false_eq_true, false_or, if_true, ← hblk, ← hpad,
    Int.lt_irrefl, Int.reduceNeg, Int.reduceLT]
  by_cases h1 : x.len = x.blklen
  · simp only [h1, not_true_eq_false, if_false]
    by_cases h2 : pad ≤ 0 ∨ pad > x.blklen
    · simp only [h2, if_true]
      refine ⟨_, rfl, ?_, ?_, ?_⟩ <;> simp [good] <;> intros <;> omega
    · simp only [h2, if_false]
      have hch : pad_check blk pad (x.blklen - pad).toNat pad.toNat = true
          ↔ ∀ i : Nat, x.blklen - pad ≤ i → (i : Int) < x.blklen
              → (blk.getD i 0 : Int) = pad := by
        rw [pad_check_iff]
        constructor
        · intro h i hi1 hi2; exact h i (by omega) (by omega)
        · intro h i hi1 hi2; exact h i (by omega) (by omega)
      by_cases h3 : pad_check blk pad (x.blklen - pad).toNat pad.toNat = true
      · have h3' := hch.mp h3
        simp only [h3, Bool.true_eq_false, if_false]
        by_cases h4 : dstlen < x.blklen - pad
        · simp only [h4, if_true]
          refine ⟨_, rfl, ?_, ?_, ?_⟩ <;> simp [good] <;> intros <;> omega
        · simp only [h4, if_false]
          have hg : good := ⟨h1, by omega, by omega, h3', by omega⟩
          refine ⟨_, rfl, ?_, ?_, ?_⟩
          · exact ⟨fun _ => hg, fun _ => rfl⟩
          · intro _; simp [memcpy]
          · intro h; exact absurd hg h
      · have h3f : pad_check blk pad (x.blklen - pad).toNat pad.toNat = false := by
          simpa using h3
        have hng : ¬ good := fun hg => h3 (hch.mpr hg.2.2.2.1)
        simp only [h3f, if_true]
        refine ⟨_, rfl, ?_, ?_, ?_⟩
        · simp [hng]
        · intro h; exact absurd h hng
        · intro _; rfl
  · simp only [h1, not_false_eq_true, if_true]
    have hng : ¬ good := fun hg => h1 hg.1
    refine ⟨_, rfl, ?_, ?_, ?_⟩
    · simp [hng]
    · intro h; exact absurd h hng
    · intro _; rfl

/-- C2 at a context whose held block decrypts to 0, 0, 0, 1, 2, 3, 3, 3. -/
theorem cipher_final_decrypt_iff_witness :
    toy_dec_ctx.do_encrypt = 0 ∧
    (toy_gcry.gcry_cipher_decrypt toy_dec_ctx.ctx toy_dec_ctx.buf toy_dec_ctx.blklen
       none 0).2.2 = [0, 0, 0, 1, 2, 3, 3, 3, 0, 0, 0, 0, 0, 0, 0, 0] ∧
    ∃ r, _cipher_final toy_gcry false toy_dec_ctx [] 8 = .ok r :=
  ⟨by decide, by decide,
   (cipher_final_decrypt_iff toy_gcry false toy_dec_ctx [] 8 (by decide) (by decide)).imp
     (fun _ h => h.1)⟩

/-- C7: decrypt finalize fails in one way only.  Whatever two decrypt-mode
contexts and backends are given the same `dst` and `*dstlen`, each call
returns; a call that does not return 0 returns exactly -1, leaves every byte
of `dst` and `*dstlen` as they were; so two failing calls give the same
caller-visible result whichever check failed. -/
theorem cipher_final_decrypt_uniform_failure {σ : Type} (G1 G2 : Gcry σ) (nd1 nd2 : Bool)
    (x1 x2 : cipher_ctx σ) (dst : List Nat) (dstlen : Int)
    (h1 : x1.do_encrypt = 0) (h2 : x2.do_encrypt = 0) :
    ∃ r1 r2, _cipher_final G1 nd1 x1 dst dstlen = .ok r1
      ∧ _cipher_final G2 nd2 x2 dst dstlen = .ok r2
      ∧ (r1.rc ≠ 0 → r1.rc = -1 ∧ r1.dst = dst ∧ r1.dstlen = dstlen)
      ∧ (r2.rc ≠ 0 → r2.rc = -1 ∧ r2.dst = dst ∧ r2.dstlen = dstlen)
      ∧ (r1.rc ≠ 0 → r2.rc ≠ 0 →
          r1.rc = r2.rc ∧ r1.dst = r2.dst ∧ r1.dstlen = r2.dstlen) := by
  obtain ⟨r1, e1, c1⟩ := final_decrypt_shape G1 nd1 x1 dst dstlen h1
  obtain ⟨r2, e2, c2⟩ := final_decrypt_shape G2 nd2 x2 dst dstlen h2
  refine ⟨r1, r2, e1, e2, ?_, ?_, ?_⟩
  · intro h
    rcases c1 with c | c
    · exact absurd c h
    · exact c
  · intro h
    rcases c2 with c | c
    · exact absurd c h
    · exact c
  · intro h h'
    rcases c1 with c | c
    · exact absurd c h
    · rcases c2 with d | d
      · exact absurd d h'
      · exact ⟨by rw [c.1, d.1], by rw [c.2.1, d.2.1], by rw [c.2.2, d.2.2]⟩

/-- C7 at two contexts failing for different reasons: one holds five bytes of
an eight-byte block, the other a full block whose capacity `*dstlen = 2` is
too small for the five bytes of plaintext. -/
theorem cipher_final_decrypt_uniform_failure_witness :
    ∃ r1 r2, _cipher_final toy_gcry false toy_short_ctx [9, 9] 2 = .ok r1
      ∧ _cipher_final toy_gcry false toy_dec_ctx [9, 9] 2 = .ok r2
      ∧ (r1.rc ≠ 0 → r1.rc = -1 ∧ r1.dst = [9, 9] ∧ r1.dstlen = 2)
      ∧ (r2.rc ≠ 0 → r2.rc = -1 ∧ r2.dst = [9, 9] ∧ r2.dstlen = 2)
      ∧ (r1.rc ≠ 0 → r2.rc ≠ 0 →
          r1.rc = r2.rc ∧ r1.dst = r2.dst ∧ r1.dstlen = r2.dstlen) :=
  cipher_final_decrypt_uniform_failure toy_gcry toy_gcry false false toy_short_ctx
    toy_dec_ctx [9, 9] 2 (by decide) (by decide)

/-! ### C6: the cipher enumeration -/

/-- The return code of `_cipher_map_enum`. -/
theorem map_enum_rc (cipher : Int) (dst : Option Int) :
    (_cipher_map_enum cipher dst).1
      = if cipher = 2 ∨ cipher = 3 ∨ cipher = 4 ∨ cipher = 5 then 0 else -1 := by
  unfold _cipher_map_enum
  simp only [MUNGE_CIPHER_BLOWFISH, MUNGE_CIPHER_CAST5, MUNGE_CIPHER_AES128,
    MUNGE_CIPHER_AES256]
  split_ifs <;> simp_all

/-- A rejecting `_cipher_map_enum` leaves the pointee alone. -/
theorem map_enum_dst (cipher : Int) (dst : Option Int)
    (h : (_cipher_map_enum cipher dst).1 ≠ 0) : (_cipher_map_enum cipher dst).2 = dst := by
  unfold _cipher_map_enum at h ⊢
  by_cases hd : dst.isSome = true <;> split_ifs at h ⊢ <;> simp_all

/-- C6: `cipher_map_enum` returns 0 exactly for BLOWFISH (2), CAST5 (3),
AES128 (4) and AES256 (5) and -1 for every other value, NONE (0) and
DEFAULT (1) among them; it writes through `dst` only when it returns 0; and
for a cipher it rejects, `cipher_init`, `cipher_block_size`,
`cipher_iv_size` and `cipher_key_size` each return -1. -/
theorem cipher_map_enum_accepts_four {σ : Type} (G : Gcry σ) (ndebug : Bool)
    (x : cipher_ctx σ) (cipher : Int) (dst : Option Int) (key iv : List Nat) (enc : Int)
    (henc : enc = 0 ∨ enc = 1) :
    ((cipher_map_enum cipher dst).1 = 0 ↔
        cipher = MUNGE_CIPHER_BLOWFISH ∨ cipher = MUNGE_CIPHER_CAST5
          ∨ cipher = MUNGE_CIPHER_AES128 ∨ cipher = MUNGE_CIPHER_AES256)
    ∧ ((cipher_map_enum cipher dst).1 ≠ 0 →
        (cipher_map_enum cipher dst).1 = -1 ∧ (cipher_map_enum cipher dst).2 = dst)
    ∧ (cipher_map_enum MUNGE_CIPHER_NONE dst).1 = -1
    ∧ (cipher_map_enum MUNGE_CIPHER_DEFAULT dst).1 = -1
    ∧ ((cipher_map_enum cipher dst).1 ≠ 0 →
        cipher_init G ndebug x cipher key iv enc = .ok (-1, x)
          ∧ cipher_block_size G cipher = -1 ∧ cipher_iv_size G cipher = -1
          ∧ cipher_key_size G cipher = -1) := by
  have hrc := map_enum_rc cipher dst
  have hrc0 := map_enum_rc cipher (some 0)
  simp only [cipher_map_enum, MUNGE_CIPHER_BLOWFISH, MUNGE_CIPHER_CAST5, MUNGE_CIPHER_AES128,
    MUNGE_CIPHER_AES256, MUNGE_CIPHER_NONE, MUNGE_CIPHER_DEFAULT]
  refine ⟨?_, ?_, ?_, ?_, ?_⟩
  · rw [hrc]; split_ifs with h <;> simp [h]
  · intro h
    refine ⟨?_, map_enum_dst cipher dst h⟩
    rw [hrc] at h ⊢
    split_ifs at h ⊢ with h'
    · exact absurd rfl h
    · rfl
  · rw [map_enum_rc]; decide
  · rw [map_enum_rc]; decide
  · intro h
    have hc : ¬ (cipher = 2 ∨ cipher = 3 ∨ cipher = 4 ∨ cipher = 5) := by
      intro hc; rw [hrc, if_pos hc] at h; exact h rfl
    have h0 : (_cipher_map_enum cipher (some 0)).1 = -1 := by rw [hrc0, if_neg hc]
    refine ⟨?_, ?_, ?_, ?_⟩
    · unfold cipher_init _cipher_init
      have : ¬ (ndebug = false ∧ ¬ (enc = 0 ∨ enc = 1)) := fun hh => hh.2 henc
      rw [if_neg this]
      simp [h0]
    · simp [cipher_block_size, _cipher_block_size, h0]
    · simp [cipher_iv_size, _cipher_iv_size, _cipher_block_size, h0]
    · simp [cipher_key_size, _cipher_key_size, h0]

/-- C6 at DEFAULT (1), which is rejected. -/
theorem cipher_map_enum_accepts_four_witness :
    cipher_init toy_gcry false toy_raw_ctx MUNGE_CIPHER_DEFAULT [] [] 1 = .ok (-1, toy_raw_ctx)
    ∧ cipher_block_size toy_gcry MUNGE_CIPHER_DEFAULT = -1 :=
  let h := (cipher_map_enum_accepts_four toy_gcry false toy_raw_ctx MUNGE_CIPHER_DEFAULT none
    [] [] 1 (by decide)).2.2.2.2 (by decide)
  ⟨h.1, h.2.1⟩

/-! ### C8: the assertion state machine -/

/-- The helper `_cipher_update_aux` changes the handle only. -/
theorem aux_tags {σ : Type} (G : Gcry σ) (x : cipher_ctx σ) (dst : List Nat) (dstlen : Int)
    (src : Option (List Nat)) (srclen : Int) :
    same_tags x (_cipher_update_aux G x dst dstlen src srclen).x := by
  unfold _cipher_update_aux same_tags
  dsimp only
  split_ifs <;> exact ⟨rfl, rfl⟩

/-- The partial block section keeps `magic` and `finalized`. -/
theorem partial_block_keeps {σ : Type} (G : Gcry σ) (ndebug : Bool) (x : cipher_ctx σ)
    (vdst : List Nat) (dstlen : Int) (vsrc : List Nat) (srclen : Int) :
    step_keeps x (update_partial_block G ndebug x vdst dstlen vsrc srclen) := by
  unfold update_partial_block
  dsimp only
  split_ifs <;> simp only [step_keeps, same_tags, and_self, Nat.le_refl] <;>
    first
      | decide
      | exact aux_tags G _ _ _ _ _

/-- The complete blocks section keeps `magic` and `finalized`. -/
theorem complete_blocks_keeps {σ : Type} (G : Gcry σ) (ndebug : Bool) (s : update_locals σ)
    (dstlen n_complete : Int) :
    step_keeps s.x (update_complete_blocks G ndebug s dstlen n_complete) := by
  unfold update_complete_blocks
  dsimp only
  split_ifs <;> simp only [step_keeps, same_tags, and_self, Nat.le_refl] <;>
    first
      | decide
      | exact aux_tags G _ _ _ _ _

/-- The leftovers section keeps `magic` and `finalized`. -/
theorem leftovers_keeps {σ : Type} (ndebug : Bool) (s : update_locals σ) (n : Int) :
    step_keeps s.x (update_leftovers ndebug s n) := by
  unfold update_leftovers
  dsimp only
  split_ifs <;> simp only [step_keeps, same_tags, and_self, Nat.le_refl] <;> decide

/-- Lines 259-298 keep `magic` and `finalized`. -/
theorem tail_keeps {σ : Type} (G : Gcry σ) (ndebug : Bool) (s1 : update_locals σ)
    (dstlen n_part : Int) :
    match update_tail G ndebug s1 dstlen n_part with
    | .error l => 239 ≤ l
    | .ok r => same_tags s1.x r.x := by
  unfold update_tail
  simp only
  have h2 := complete_blocks_keeps G ndebug s1 dstlen (s1.srclen - n_part)
  cases hs2 : update_complete_blocks G ndebug s1 dstlen (s1.srclen - n_part) with
  | abort l => rw [hs2] at h2; simpa [step_keeps] using h2
  | err y d => rw [hs2] at h2; simpa [step_keeps] using h2
  | next s2 =>
    rw [hs2] at h2
    simp only [step_keeps] at h2
    simp only
    have h3 := leftovers_keeps ndebug s2 n_part
    cases hs3 : update_leftovers ndebug s2 n_part with
    | abort l => rw [hs3] at h3; simpa [step_keeps] using h3
    | err y d =>
      rw [hs3] at h3
      simp only [step_keeps, same_tags] at h2 h3 ⊢
      exact ⟨h3.1.trans h2.1, h3.2.trans h2.2⟩
    | next s3 =>
      rw [hs3] at h3
      simp only [step_keeps, same_tags] at h2 h3 ⊢
      exact ⟨h3.1.trans h2.1, h3.2.trans h2.2⟩

/-- The function `_cipher_update` keeps `magic` and `finalized`, and is
stopped only on one of its own lines: an assertion, or the division of
line 262. -/
theorem update_keeps {σ : Type} (G : Gcry σ) (ndebug : Bool) (x : cipher_ctx σ)
    (vdst : List Nat) (dstlen : Int) (vsrc : List Nat) (srclen : Int) :
    match _cipher_update G ndebug x vdst dstlen vsrc srclen with
    | .error l => 239 ≤ l
    | .ok r => same_tags x r.x := by
  unfold _cipher_update
  split_ifs
  · simp [same_tags]
  · have h1 := partial_block_keeps G ndebug x vdst dstlen vsrc srclen
    cases hs1 : update_partial_block G ndebug x vdst dstlen vsrc srclen with
    | abort l => rw [hs1] at h1; simpa [step_keeps] using h1
    | err y d => rw [hs1] at h1; simpa [step_keeps] using h1
    | next s1 =>
      rw [hs1] at h1
      simp only [step_keeps, same_tags] at h1
      simp only
      cases hn : update_n_part s1.x s1.srclen with
      | none =>
        simp only
        decide
      | some n_part =>
        simp only
        have h2 := tail_keeps G ndebug s1 dstlen n_part
        cases hs2 : update_tail G ndebug s1 dstlen n_part with
        | error l => rw [hs2] at h2; exact h2
        | ok r =>
          rw [hs2] at h2
          simp only [same_tags] at h2 ⊢
          exact ⟨h2.1.trans h1.1, h2.2.trans h1.2⟩

/-- The function `_cipher_final` keeps `magic` and `finalized`, and aborts
only on the assertion of line 338. -/
theorem final_keeps {σ : Type} (G : Gcry σ) (ndebug : Bool) (x : cipher_ctx σ)
    (dst : List Nat) (dstlen : Int) :
    match _cipher_final G ndebug x dst dstlen with
    | .error l => l = 338
    | .ok r => same_tags x r.x := by
  unfold _cipher_final
  dsimp only
  split_ifs <;> simp only [same_tags, and_self] <;> exact aux_tags G _ _ _ _ _

/-- The complement of the magic number differs from it. -/
theorem magic_not_ne : CIPHER_MAGIC_NOT ≠ CIPHER_MAGIC := by decide

/-- On a cleaned-up or finalized context `cipher_update` stops at its entry
assertions. -/
theorem update_dead {σ : Type} (G : Gcry σ) (x : cipher_ctx σ) (d : List Nat) (n : Int)
    (s : List Nat) (m : Int) :
    (x.magic ≠ CIPHER_MAGIC → cipher_update G false x d n s m = .error 92)
    ∧ (x.magic = CIPHER_MAGIC → x.finalized = 1 →
        cipher_update G false x d n s m = .error 93) := by
  unfold cipher_update
  constructor
  · intro h; rw [if_pos ⟨rfl, h⟩]
  · intro h h'; rw [if_neg (by simp [h]), if_pos (by simp [h'])]

/-- On a cleaned-up or finalized context `cipher_final` stops at its entry
assertions. -/
theorem final_dead {σ : Type} (G : Gcry σ) (x : cipher_ctx σ) (d : List Nat) (n : Int) :
    (x.magic ≠ CIPHER_MAGIC → cipher_final G false x d n = .error 112)
    ∧ (x.magic = CIPHER_MAGIC → x.finalized = 1 → cipher_final G false x d n = .error 113) := by
  unfold cipher_final
  constructor
  · intro h; rw [if_pos ⟨rfl, h⟩]
  · intro h h'; rw [if_neg (by simp [h]), if_pos (by simp [h'])]

/-- On a live context `cipher_final` is `_cipher_final` followed by
`finalized = 1`. -/
theorem final_live {σ : Type} (G : Gcry σ) (x : cipher_ctx σ) (d : List Nat) (n : Int)
    (hm : x.magic = CIPHER_MAGIC) (hf : x.finalized = 0) :
    cipher_final G false x d n
      = match _cipher_final G false x d n with
        | .error l => .error l
        | .ok r => .ok { r with x := { r.x with finalized := 1 } } := by
  unfold cipher_final
  rw [if_neg (by simp [hm]), if_neg (by simp [hf])]
  cases _cipher_final G false x d n <;> rfl

/-- The function `cipher_cleanup` in a build with assertions. -/
theorem cleanup_live {σ : Type} (G : Gcry σ) (x : cipher_ctx σ) :
    (x.magic = CIPHER_MAGIC →
      cipher_cleanup G false x
        = .ok (0, ⟨G.null, List.replicate MUNGE_MAXIMUM_BLK_LEN 0, 0, 0, 0, CIPHER_MAGIC_NOT, 0⟩))
    ∧ (x.magic ≠ CIPHER_MAGIC → cipher_cleanup G false x = .error 129) := by
  unfold cipher_cleanup _cipher_cleanup
  constructor
  · intro hm
    rw [if_neg (by simp [hm])]
    simp only [Bool.false_eq_true, if_false]
  · intro h; rw [if_pos ⟨rfl, h⟩]

/-- C8: in a build with assertions (`ndebug = false`), a successful
`cipher_init` leaves `magic = CIPHER_MAGIC` and `finalized = 0`; on such a
context `cipher_update` passes the assertions of lines 92-93 (an abort can
only come from a line of `_cipher_update`, 239 or later) and keeps both
fields; `cipher_final` passes those of lines 112-113 (an abort can only be
line 338) and leaves `finalized = 1`, after which every `cipher_update` and
`cipher_final`, with whatever backend, stops at the assertion
`finalized != 1` (lines 93, 113) while `cipher_cleanup` still passes;
`cipher_cleanup` leaves `magic = ~CIPHER_MAGIC`, after which every
`cipher_update`, `cipher_final` and `cipher_cleanup` stops at the assertion
`magic == CIPHER_MAGIC` (lines 92, 112, 129). -/
theorem cipher_state_machine {σ : Type} (G : Gcry σ) :
    (∀ x cipher key iv enc rc y,
        cipher_init G false x cipher key iv enc = .ok (rc, y) → 0 ≤ rc →
          y.magic = CIPHER_MAGIC ∧ y.finalized = 0)
    ∧ (∀ x dst dstlen src srclen, x.magic = CIPHER_MAGIC → x.finalized = 0 →
        match cipher_update G false x dst dstlen src srclen with
        | .error l => 239 ≤ l
        | .ok r => r.x.magic = CIPHER_MAGIC ∧ r.x.finalized = 0)
    ∧ (∀ x dst dstlen, x.magic = CIPHER_MAGIC → x.finalized = 0 →
        match cipher_final G false x dst dstlen with
        | .error l => l = 338
        | .ok r => r.x.magic = CIPHER_MAGIC ∧ r.x.finalized = 1
            ∧ (∀ (G' : Gcry σ) d n s m, cipher_update G' false r.x d n s m = .error 93)
            ∧ (∀ (G' : Gcry σ) d n, cipher_final G' false r.x d n = .error 113)
            ∧ ∃ z, cipher_cleanup G false r.x = .ok (0, z) ∧ z.magic = CIPHER_MAGIC_NOT)
    ∧ (∀ x, x.magic = CIPHER_MAGIC →
        ∃ z, cipher_cleanup G false x = .ok (0, z) ∧ z.magic = CIPHER_MAGIC_NOT
          ∧ (∀ (G' : Gcry σ) d n s m, cipher_update G' false z d n s m = .error 92)
          ∧ (∀ (G' : Gcry σ) d n, cipher_final G' false z d n = .error 112)
          ∧ (∀ (G' : Gcry σ), cipher_cleanup G' false z = .error 129)) := by
  refine ⟨?_, ?_, ?_, ?_⟩
  · intro x cipher key iv enc rc y h hrc
    unfold cipher_init at h
    simp only [Bool.false_eq_true, if_false] at h
    split_ifs at h with h1 h2
    · simp only [Except.ok.injEq, Prod.mk.injEq] at h
      rw [← h.2]
      exact ⟨rfl, rfl⟩
    · simp only [Except.ok.injEq] at h
      rw [h] at h2
      exact absurd hrc h2
  · intro x dst dstlen src srclen hm hf
    unfold cipher_update
    rw [if_neg (by simp [hm]), if_neg (by simp [hf])]
    split_ifs
    · exact ⟨hm, hf⟩
    · have h := update_keeps G false x dst dstlen src srclen
      cases hu : _cipher_update G false x dst dstlen src srclen with
      | error l => rw [hu] at h; exact h
      | ok r =>
        rw [hu] at h
        simp only [same_tags] at h ⊢
        exact ⟨h.1.trans hm, h.2.trans hf⟩
  · intro x dst dstlen hm hf
    rw [final_live G x dst dstlen hm hf]
    have h := final_keeps G false x dst dstlen
    cases hu : _cipher_final G false x dst dstlen with
    | error l => rw [hu] at h; exact h
    | ok r =>
      rw [hu] at h
      simp only [same_tags] at h
      have hm' : r.x.magic = CIPHER_MAGIC := h.1.trans hm
      refine ⟨hm', rfl, ?_, ?_, ?_⟩
      · intro G' d n s m
        exact (update_dead G' _ d n s m).2 hm' rfl
      · intro G' d n
        exact (final_dead G' _ d n).2 hm' rfl
      · exact ⟨_, (cleanup_live G _).1 hm', rfl⟩
  · intro x hm
    refine ⟨_, (cleanup_live G x).1 hm, rfl, ?_, ?_, ?_⟩
    · intro G' d n s m
      exact (update_dead G' _ d n s m).1 magic_not_ne
    · intro G' d n
      exact (final_dead G' _ d n).1 magic_not_ne
    · intro G'
      exact (cleanup_live G' _).2 magic_not_ne

/-! ### CBC over a block function -/

/-- Length of the exclusive or of two blocks. -/
theorem xor_block_length (a b : List Nat) : (xor_block a b).length = min a.length b.length := by
  simp [xor_block]

/-- Exclusive or with the same block twice is the identity. -/
theorem xor_block_cancel : ∀ (a b : List Nat), a.length = b.length →
    xor_block (xor_block a b) b = a := by
  intro a
  induction a with
  | nil => intro b _; simp [xor_block]
  | cons x xs ih =>
    intro b h
    cases b with
    | nil => simp at h
    | cons y ys =>
      simp only [List.length_cons, Nat.add_right_cancel_iff] at h
      have := ih ys h
      simp only [xor_block, List.zipWith_cons_cons, List.cons.injEq] at this ⊢
      exact ⟨Nat.xor_cancel_right y x, this⟩

/-- Splitting a CBC encryption after `n` blocks. -/
theorem cbc_encrypt_split (E : List Nat → List Nat) (b : Nat) :
    ∀ (n k : Nat) (iv data : List Nat),
      cbc_encrypt_blocks E b (n + k) iv data
        = ((cbc_encrypt_blocks E b k (cbc_encrypt_blocks E b n iv data).1
              (data.drop (n * b))).1,
           (cbc_encrypt_blocks E b n iv data).2
             ++ (cbc_encrypt_blocks E b k (cbc_encrypt_blocks E b n iv data).1
                  (data.drop (n * b))).2) := by
  intro n
  induction n with
  | zero => intro k iv data; simp [cbc_encrypt_blocks]
  | succ n ih =>
    intro k iv data
    rw [show n + 1 + k = (n + k) + 1 by omega]
    simp only [cbc_encrypt_blocks]
    rw [ih]
    simp only [List.drop_drop, List.append_assoc]
    rw [show b + n * b = (n + 1) * b by rw [Nat.add_mul]; omega]

/-- Splitting a CBC decryption after `n` blocks. -/
theorem cbc_decrypt_split (D : List Nat → List Nat) (b : Nat) :
    ∀ (n k : Nat) (iv data : List Nat),
      cbc_decrypt_blocks D b (n + k) iv data
        = ((cbc_decrypt_blocks D b k (cbc_decrypt_blocks D b n iv data).1
              (data.drop (n * b))).1,
           (cbc_decrypt_blocks D b n iv data).2
             ++ (cbc_decrypt_blocks D b k (cbc_decrypt_blocks D b n iv data).1
                  (data.drop (n * b))).2) := by
  intro n
  induction n with
  | zero => intro k iv data; simp [cbc_decrypt_blocks]
  | succ n ih =>
    intro k iv data
    rw [show n + 1 + k = (n + k) + 1 by omega]
    simp only [cbc_decrypt_blocks]
    rw [ih]
    simp only [List.drop_drop, List.append_assoc]
    rw [show b + n * b = (n + 1) * b by rw [Nat.add_mul]; omega]

/-- A CBC encryption of `n` blocks reads only the first `n * b` bytes. -/
theorem cbc_encrypt_congr (E : List Nat → List Nat) (b : Nat) :
    ∀ (n : Nat) (iv d1 d2 : List Nat), d1.take (n * b) = d2.take (n * b) →
      cbc_encrypt_blocks E b n iv d1 = cbc_encrypt_blocks E b n iv d2 := by
  intro n
  induction n with
  | zero => intro iv d1 d2 _; simp [cbc_encrypt_blocks]
  | succ n ih =>
    intro iv d1 d2 h
    have hb : b ≤ (n + 1) * b := by rw [Nat.add_mul]; omega
    have h1 : d1.take b = d2.take b := by
      have := congrArg (List.take b) h
      simpa [List.take_take, Nat.min_eq_left hb] using this
    have h2 : (d1.drop b).take (n * b) = (d2.drop b).take (n * b) := by
      have := congrArg (List.drop b) h
      rw [List.drop_take, List.drop_take] at this
      rwa [show (n + 1) * b - b = n * b by rw [Nat.add_mul]; omega] at this
    simp only [cbc_encrypt_blocks, h1]
    rw [ih _ _ _ h2]

/-- A CBC decryption of `n` blocks reads only the first `n * b` bytes. -/
theorem cbc_decrypt_congr (D : List Nat → List Nat) (b : Nat) :
    ∀ (n : Nat) (iv d1 d2 : List Nat), d1.take (n * b) = d2.take (n * b) →
      cbc_decrypt_blocks D b n iv d1 = cbc_decrypt_blocks D b n iv d2 := by
  intro n
  induction n with
  | zero => intro iv d1 d2 _; simp [cbc_decrypt_blocks]
  | succ n ih =>
    intro iv d1 d2 h
    have hb : b ≤ (n + 1) * b := by rw [Nat.add_mul]; omega
    have h1 : d1.take b = d2.take b := by
      have := congrArg (List.take b) h
      simpa [List.take_take, Nat.min_eq_left hb] using this
    have h2 : (d1.drop b).take (n * b) = (d2.drop b).take (n * b) := by
      have := congrArg (List.drop b) h
      rw [List.drop_take, List.drop_take] at this
      rwa [show (n + 1) * b - b = n * b by rw [Nat.add_mul]; omega] at this
    simp only [cbc_decrypt_blocks, h1]
    rw [ih _ _ _ h2]

/-- Lengths of a CBC encryption over a length-preserving block function. -/
theorem cbc_encrypt_length (E : List Nat → List Nat) (b : Nat)
    (hE : ∀ v : List Nat, v.length = b → (E v).length = b) :
    ∀ (n : Nat) (iv data : List Nat), iv.length = b → n * b ≤ data.length →
      (cbc_encrypt_blocks E b n iv data).1.length = b
        ∧ (cbc_encrypt_blocks E b n iv data).2.length = n * b := by
  intro n
  induction n with
  | zero => intro iv data hiv _; simp [cbc_encrypt_blocks, hiv]
  | succ n ih =>
    intro iv data hiv hlen
    have hb : b + n * b = (n + 1) * b := by rw [Nat.add_mul]; omega
    have hx : (xor_block (data.take b) iv).length = b := by
      rw [xor_block_length, List.length_take, hiv]; omega
    have hc := hE _ hx
    have := ih (E (xor_block (data.take b) iv)) (data.drop b) hc
      (by rw [List.length_drop]; omega)
    simp only [cbc_encrypt_blocks, List.length_append, hc, this.1, this.2, true_and]
    omega

/-- CBC decryption undoes CBC encryption, and both end on the same chaining
value. -/
theorem cbc_roundtrip (E D : List Nat → List Nat) (b : Nat)
    (hE : ∀ v : List Nat, v.length = b → (E v).length = b)
    (hD : ∀ v : List Nat, v.length = b → D (E v) = v) :
    ∀ (n : Nat) (iv data : List Nat), iv.length = b → n * b ≤ data.length →
      cbc_decrypt_blocks D b n iv (cbc_encrypt_blocks E b n iv data).2
        = ((cbc_encrypt_blocks E b n iv data).1, data.take (n * b)) := by
  intro n
  induction n with
  | zero => intro iv data _ _; simp [cbc_encrypt_blocks, cbc_decrypt_blocks]
  | succ n ih =>
    intro iv data hiv hlen
    have hb : b + n * b = (n + 1) * b := by rw [Nat.add_mul]; omega
    have hx : (xor_block (data.take b) iv).length = b := by
      rw [xor_block_length, List.length_take, hiv]; omega
    have hc := hE _ hx
    have hrec := ih (E (xor_block (data.take b) iv)) (data.drop b) hc
      (by rw [List.length_drop]; omega)
    simp only [cbc_encrypt_blocks, cbc_decrypt_blocks]
    rw [List.take_left' hc, List.drop_left' hc, hrec, hD _ hx,
      xor_block_cancel _ _ (by rw [List.length_take, hiv]; omega)]
    simp only [Prod.mk.injEq, true_and]
    rw [← hb, ← List.take_add]

/-! ### `_cipher_update` on the CBC backend -/

/-- A CBC call on `k` whole blocks that fit the output succeeds. -/
theorem cbc_crypt_blocks (enc : Bool) (F : List Nat → List Nat) (b k : Nat) (h : cbc_handle)
    (out : List Nat) (cap : Int) (src : List Nat)
    (hb : 0 < b) (hcap : ((k * b : Nat) : Int) ≤ cap) :
    cbc_crypt enc F b h out cap (some src) ((k * b : Nat) : Int)
      = (0,
         { h with iv := (if enc then cbc_encrypt_blocks F b k h.iv src
                         else cbc_decrypt_blocks F b k h.iv src).1 },
         (if enc then cbc_encrypt_blocks F b k h.iv src
          else cbc_decrypt_blocks F b k h.iv src).2 ++ out.drop (k * b)) := by
  have h1 : ¬ (cap < ((k * b : Nat) : Int)) := by omega
  have h2 : ¬ (((k * b : Nat) : Int) < 0 ∨ b = 0 ∨ ((k * b : Nat) : Int).toNat % b ≠ 0) := by
    rw [Int.toNat_ofNat, Nat.mul_mod_left]
    omega
  have h3 : ((k * b : Nat) : Int).toNat / b = k := by
    rw [Int.toNat_ofNat, Nat.mul_div_cancel _ hb]
  unfold cbc_crypt
  dsimp only
  rw [if_neg h1, if_neg h2, h3, Int.toNat_ofNat]

/-- The in-place CBC call on one block. -/
theorem cbc_crypt_inplace (enc : Bool) (F : List Nat → List Nat) (b : Nat) (h : cbc_handle)
    (out : List Nat) (hb : 0 < b) :
    cbc_crypt enc F b h out (b : Int) none 0
      = (0,
         { h with iv := (if enc then cbc_encrypt_blocks F b 1 h.iv out
                         else cbc_decrypt_blocks F b 1 h.iv out).1 },
         (if enc then cbc_encrypt_blocks F b 1 h.iv out
          else cbc_decrypt_blocks F b 1 h.iv out).2 ++ out.drop b) := by
  have h1 : ¬ ((b : Int) < (b : Int)) := by omega
  have h2 : ¬ ((b : Int) < 0 ∨ b = 0 ∨ (b : Int).toNat % b ≠ 0) := by
    rw [Int.toNat_ofNat, Nat.mod_self]
    omega
  have h3 : (b : Int).toNat / b = 1 := by
    rw [Int.toNat_ofNat, Nat.div_self hb]
  unfold cbc_crypt
  dsimp only
  rw [if_neg h1, if_neg h2, h3, Int.toNat_ofNat]

/-- One call of `_cipher_update_aux` on the CBC backend with an input of `k`
whole blocks that fits the output. -/
theorem aux_cbc (E D : Int → List Nat → List Nat → List Nat) (blk klen : Int → Nat)
    (x : cipher_ctx cbc_handle) (dst : List Nat) (cap : Int) (src : List Nat) (b k : Nat)
    (hb : 0 < b) (hblk : blk x.ctx.algo = b) (hcap : ((k * b : Nat) : Int) ≤ cap) :
    _cipher_update_aux (gcry_cbc E D blk klen) x dst cap (some src) ((k * b : Nat) : Int)
      = ⟨0,
         { x with ctx := { x.ctx with iv :=
            (if x.do_encrypt ≠ 0
              then cbc_encrypt_blocks (E x.ctx.algo x.ctx.key) b k x.ctx.iv src
              else cbc_decrypt_blocks (D x.ctx.algo x.ctx.key) b k x.ctx.iv src).1 } },
         (if x.do_encrypt ≠ 0
              then cbc_encrypt_blocks (E x.ctx.algo x.ctx.key) b k x.ctx.iv src
              else cbc_decrypt_blocks (D x.ctx.algo x.ctx.key) b k x.ctx.iv src).2
           ++ dst.drop (k * b),
         ((k * b : Nat) : Int)⟩ := by
  unfold _cipher_update_aux
  by_cases he : x.do_encrypt ≠ 0
  · simp only [gcry_cbc, hblk, if_pos he, cbc_crypt_blocks true _ b k _ _ _ _ hb hcap]
    simp
  · simp only [gcry_cbc, hblk, if_neg he, cbc_crypt_blocks false _ b k _ _ _ _ hb hcap]
    simp

/-- The complete-blocks section on the CBC backend. -/
theorem complete_blocks_cbc (E D : Int → List Nat → List Nat → List Nat)
    (blk klen : Int → Nat) (nd : Bool) (s : update_locals cbc_handle) (dstlen : Int)
    (b k : Nat) (hb : 0 < b) (hblk : blk s.x.ctx.algo = b) (hbl : s.x.blklen = (b : Int))
    (hlen0 : s.x.len = 0) (hcap : s.n_written + ((k * b : Nat) : Int) ≤ dstlen)
    (R : List Nat × List Nat)
    (hR : R = if s.x.do_encrypt ≠ 0
      then cbc_encrypt_blocks (E s.x.ctx.algo s.x.ctx.key) b k s.x.ctx.iv s.src
      else cbc_decrypt_blocks (D s.x.ctx.algo s.x.ctx.key) b k s.x.ctx.iv s.src)
    (hr : R.2.length = k * b) :
    update_complete_blocks (gcry_cbc E D blk klen) nd s dstlen ((k * b : Nat) : Int)
      = .next ⟨{ s.x with ctx := { s.x.ctx with iv := R.1 } }, s.out ++ R.2,
               s.dst.drop (k * b), s.n_written + ((k * b : Nat) : Int),
               s.src.drop (k * b), s.srclen - ((k * b : Nat) : Int)⟩ := by
  unfold update_complete_blocks
  rcases Nat.eq_zero_or_pos k with hk | hk
  · subst hk
    have hR' : R = (s.x.ctx.iv, []) := by
      rw [hR]; split_ifs <;> simp [cbc_encrypt_blocks, cbc_decrypt_blocks]
    rw [if_neg (by simp)]
    subst hR'
    simp
  · have hpos : ((k * b : Nat) : Int) > 0 := by
      have := Nat.mul_pos hk hb
      omega
    have hmod : Int.tmod ((k * b : Nat) : Int) s.x.blklen = 0 := by
      rw [hbl, ← Int.ofNat_tmod, Nat.mul_mod_left]; rfl
    rw [if_pos hpos, if_neg (fun h => h.2 hlen0), if_neg (fun h => h.2 hmod)]
    have haux := aux_cbc E D blk klen s.x s.dst (dstlen - s.n_written) s.src b k hb hblk
      (by omega)
    rw [← hR] at haux
    simp only [haux]
    rw [if_neg (by decide), if_neg (fun h => h.2 trivial)]
    simp only [Int.toNat_ofNat]
    rw [List.take_left' hr, List.drop_left' hr]

/-- Everything after the partial block section, on the CBC backend: `k`
whole blocks are processed and `np` bytes kept back. -/
theorem tail_cbc (E D : Int → List Nat → List Nat → List Nat)
    (blk klen : Int → Nat) (nd : Bool) (s : update_locals cbc_handle) (dstlen : Int)
    (b k np : Nat) (hb : 0 < b) (hblk : blk s.x.ctx.algo = b)
    (hbl : s.x.blklen = (b : Int)) (hlen0 : s.x.len = 0)
    (hn : s.srclen = ((k * b + np : Nat) : Int))
    (hnp : n_partial_val s.x s.srclen = (np : Int)) (hnpb : np ≤ b)
    (hdec : s.x.do_encrypt = 0 → 0 < np)
    (hcap : s.n_written + ((k * b : Nat) : Int) ≤ dstlen)
    (hsrc : k * b + np ≤ s.src.length) (hbuf : b ≤ s.x.buf.length)
    (R : List Nat × List Nat)
    (hR : R = if s.x.do_encrypt ≠ 0
      then cbc_encrypt_blocks (E s.x.ctx.algo s.x.ctx.key) b k s.x.ctx.iv s.src
      else cbc_decrypt_blocks (D s.x.ctx.algo s.x.ctx.key) b k s.x.ctx.iv s.src)
    (hr : R.2.length = k * b) :
    ∃ y, update_tail (gcry_cbc E D blk klen) nd s dstlen (n_partial_val s.x s.srclen)
        = .ok ⟨0, y, s.out ++ R.2 ++ s.dst.drop (k * b),
               s.n_written + ((k * b : Nat) : Int)⟩
      ∧ steps_to s.x y R.1 ((s.src.drop (k * b)).take np) := by
  have hnc : s.srclen - n_partial_val s.x s.srclen = ((k * b : Nat) : Int) := by
    rw [hnp, hn]; push_cast; omega
  have hheld : ((s.src.drop (k * b)).take np).length = np := by
    rw [List.length_take, List.length_drop]; omega
  unfold update_tail
  simp only [hnc, complete_blocks_cbc E D blk klen nd s dstlen b k hb hblk hbl hlen0 hcap R hR hr]
  rw [hnp]
  unfold update_leftovers
  rcases Nat.eq_zero_or_pos np with h0 | hpos
  · subst h0
    have henc : ¬ s.x.do_encrypt = 0 := fun h => absurd (hdec h) (by omega)
    rw [if_neg (by simp), if_neg (fun h => henc h.1)]
    refine ⟨_, rfl, ?_⟩
    simp [steps_to, hlen0]
  · have hp : ((np : Nat) : Int) > 0 := by omega
    rw [if_pos hp, if_neg (fun h => h.2 hlen0), if_neg (fun h => h.2 (by rw [hbl]; omega))]
    simp only
    rw [if_neg (fun h => h.2.2 hp)]
    refine ⟨_, rfl, ?_⟩
    simp only [steps_to, hheld, memcpy, Int.toNat_ofNat, true_and, and_true]
    refine ⟨?_, ?_⟩
    · rw [List.take_left' hheld]
    · rw [List.length_append, hheld, List.length_drop]; omega

/-- The partial block section when the new bytes do not complete the block
(encrypt mode). -/
theorem partial_short_enc {σ : Type} (G : Gcry σ) (nd : Bool) (x : cipher_ctx σ)
    (dst : List Nat) (cap : Int) (src : List Nat) (b l : Nat)
    (hbl : x.blklen = (b : Int)) (hl : x.len = (l : Int)) (hl0 : 0 < l)
    (hn : l + src.length < b) :
    update_partial_block G nd x dst cap src (src.length : Int)
      = .next ⟨{ x with buf := x.buf.take l ++ (src ++ (x.buf.drop l).drop src.length),
                        len := ((l + src.length : Nat) : Int) },
               [], dst, 0, [], 0⟩ := by
  have hmin : MIN (src.length : Int) ((b : Int) - (l : Int)) = (src.length : Int) := by
    unfold MIN; rw [if_pos (by omega)]
  unfold update_partial_block
  rw [if_pos (by omega), if_neg (fun h => h.2 (by omega))]
  simp only [hbl, hl, hmin, Int.toNat_ofNat, memcpy, List.take_length, List.drop_length]
  rw [if_neg (by omega)]
  simp

/-- The partial block section when the new bytes complete the block, on the
CBC backend in encrypt mode: the block is encrypted and emitted. -/
theorem partial_fill_enc (E D : Int → List Nat → List Nat → List Nat)
    (blk klen : Int → Nat) (nd : Bool) (x : cipher_ctx cbc_handle)
    (dst : List Nat) (cap : Int) (src : List Nat) (b l : Nat)
    (hb : 0 < b) (hblk : blk x.ctx.algo = b)
    (hbl : x.blklen = (b : Int)) (hl : x.len = (l : Int)) (hl0 : 0 < l) (hlb : l < b)
    (henc : x.do_encrypt ≠ 0) (hn : b ≤ l + src.length) (hcap : (b : Int) ≤ cap)
    (buf1 : List Nat)
    (hbuf1 : buf1 = x.buf.take l ++ (src.take (b - l) ++ (x.buf.drop l).drop (b - l)))
    (R : List Nat × List Nat)
    (hR : R = cbc_encrypt_blocks (E x.ctx.algo x.ctx.key) b 1 x.ctx.iv buf1)
    (hr : R.2.length = b) :
    update_partial_block (gcry_cbc E D blk klen) nd x dst cap src (src.length : Int)
      = .next ⟨{ x with buf := buf1, len := 0, ctx := { x.ctx with iv := R.1 } },
               R.2, dst.drop b, (b : Int), src.drop (b - l),
               (src.length : Int) - ((b - l : Nat) : Int)⟩ := by
  have hmin : MIN (src.length : Int) ((b : Int) - (l : Int)) = ((b - l : Nat) : Int) := by
    unfold MIN; split_ifs <;> omega
  have hlen : (l : Int) + ((b - l : Nat) : Int) = (b : Int) := by omega
  have haux := aux_cbc E D blk klen
    { x with buf := buf1, len := (b : Int) } dst cap buf1 b 1 hb hblk
    (by omega)
  simp only [if_pos henc, ← hR, Nat.one_mul, hbl] at haux
  unfold update_partial_block
  rw [if_pos (by omega), if_neg (fun h => h.2 (by omega))]
  simp only [hbl, hl, hmin, hlen, Int.toNat_ofNat, memcpy, ← hbuf1]
  rw [if_pos trivial, if_pos (Or.inl henc), haux]
  simp only
  rw [if_neg (by decide), if_neg (fun h => h.2 trivial)]
  simp only [Int.toNat_ofNat]
  rw [List.take_left' hr, List.drop_left' hr]

/-- In encrypt mode the bytes kept back are the remainder modulo the block
length. -/
theorem n_part_enc (x : cipher_ctx cbc_handle) (b n : Nat) (hbl : x.blklen = (b : Int))
    (henc : x.do_encrypt ≠ 0) : n_partial_val x (n : Int) = ((n % b : Nat) : Int) := by
  unfold n_partial_val
  simp only [hbl, ← Int.ofNat_tmod]
  rw [if_neg (fun h => henc h.1)]

/-- One encrypt-mode `_cipher_update` on the CBC backend. -/
theorem enc_update_cbc (E D : Int → List Nat → List Nat → List Nat)
    (blk klen : Int → Nat) (nd : Bool) (x : cipher_ctx cbc_handle)
    (dst : List Nat) (cap : Int) (src : List Nat) (b l : Nat)
    (hb : 0 < b) (hblk : blk x.ctx.algo = b)
    (hbl : x.blklen = (b : Int)) (hl : x.len = (l : Int)) (hlb : l < b)
    (henc : x.do_encrypt ≠ 0) (hbuf : b ≤ x.buf.length) (hiv : x.ctx.iv.length = b)
    (hE : ∀ v : List Nat, v.length = b → (E x.ctx.algo x.ctx.key v).length = b)
    (hcap : (((l + src.length) / b * b : Nat) : Int) ≤ cap)
    (R : List Nat × List Nat)
    (hR : R = cbc_encrypt_blocks (E x.ctx.algo x.ctx.key) b ((l + src.length) / b)
      x.ctx.iv (x.buf.take l ++ src)) :
    ∃ y, _cipher_update (gcry_cbc E D blk klen) nd x dst cap src (src.length : Int)
        = .ok ⟨0, y, R.2 ++ dst.drop ((l + src.length) / b * b),
               (((l + src.length) / b * b : Nat) : Int)⟩
      ∧ steps_to x y R.1 ((x.buf.take l ++ src).drop ((l + src.length) / b * b)) := by
  have hcap0 : ¬ cap < 0 := by omega
  have htl : (x.buf.take l).length = l := by rw [List.length_take]; omega
  have hbz : x.blklen ≠ 0 := by rw [hbl]; omega
  rcases Nat.eq_zero_or_pos l with hl0 | hl0
  · -- no partial block
    subst hl0
    have hp : update_partial_block (gcry_cbc E D blk klen) nd x dst cap src (src.length : Int)
        = .next ⟨x, [], dst, 0, src, (src.length : Int)⟩ := by
      unfold update_partial_block
      rw [if_neg (by omega)]
    simp only [Nat.zero_add, List.take_zero, List.nil_append] at hR hcap ⊢
    have hdm : src.length / b * b + src.length % b = src.length := Nat.div_add_mod' _ _
    have hRlen := (cbc_encrypt_length (E x.ctx.algo x.ctx.key) b hE (src.length / b)
      x.ctx.iv src hiv (by omega)).2
    obtain ⟨y, hy, hst⟩ := tail_cbc E D blk klen nd ⟨x, [], dst, 0, src, (src.length : Int)⟩
      cap b (src.length / b) (src.length % b) hb hblk hbl hl
      (by simp only; rw [hdm]) (n_part_enc x b _ hbl henc) (Nat.le_of_lt (Nat.mod_lt _ hb))
      (fun h => absurd h henc) (by simpa using hcap) (by simp only; omega) hbuf R
      (by simp only; rw [if_pos henc]; exact hR) (by rw [hR]; exact hRlen)
    rw [update_of_next _ nd x dst cap src _ _ hcap0 hp hbz]
    simp only [List.nil_append, Int.zero_add] at hy
    refine ⟨y, hy, ?_⟩
    simp only at hst
    rwa [List.take_of_length_le (by rw [List.length_drop]; omega)] at hst
  · rcases Nat.lt_or_ge (l + src.length) b with hn | hn
    · -- the block stays incomplete
      have hk : (l + src.length) / b = 0 := Nat.div_eq_of_lt hn
      rw [hk] at hR hcap ⊢
      simp only [cbc_encrypt_blocks] at hR
      rw [update_of_next _ nd x dst cap src _ _ hcap0
        (partial_short_enc _ nd x dst cap src b l hbl hl hl0 hn) hbz]
      simp only
      unfold update_tail
      have hnp : n_partial_val
          { x with buf := x.buf.take l ++ (src ++ (x.buf.drop l).drop src.length),
                   len := ((l + src.length : Nat) : Int) } 0 = 0 := by
        have := n_part_enc
          { x with buf := x.buf.take l ++ (src ++ (x.buf.drop l).drop src.length),
                   len := ((l + src.length : Nat) : Int) } b 0 hbl henc
        simpa using this
      simp only [hnp, Int.sub_zero]
      unfold update_complete_blocks
      rw [if_neg (by omega)]
      simp only
      unfold update_leftovers
      rw [if_neg (by omega), if_neg (fun h => henc h.1)]
      refine ⟨{ x with buf := x.buf.take l ++ (src ++ (x.buf.drop l).drop src.length),
                       len := ((l + src.length : Nat) : Int) }, by rw [hR]; simp, ?_⟩
      rw [hR]
      simp only [steps_to, Nat.zero_mul, List.drop_zero, List.length_append, htl, true_and,
        and_true, List.length_drop]
      rw [← List.append_assoc, List.take_left' (by rw [List.length_append, htl])]
      exact ⟨rfl, by omega⟩
    · -- the block is completed and encrypted
      obtain ⟨n2, hn2⟩ : ∃ n2, src.length = (b - l) + n2 := ⟨src.length - (b - l), by omega⟩
      have hk : (l + src.length) / b = n2 / b + 1 := by
        rw [show l + src.length = b + n2 by omega, Nat.add_div_left _ hb]
      have hkb : (n2 / b + 1) * b = n2 / b * b + b := by rw [Nat.add_mul, Nat.one_mul]
      have hdm : n2 / b * b + n2 % b = n2 := Nat.div_add_mod' _ _
      obtain ⟨m, hm⟩ : ∃ m, n2 / b * b = m := ⟨_, rfl⟩
      have hst : (src.take (b - l)).length = b - l := by rw [List.length_take]; omega
      have hsd : (src.drop (b - l)).length = n2 := by rw [List.length_drop]; omega
      have hbuf1 : (x.buf.take l ++ (src.take (b - l) ++ (x.buf.drop l).drop (b - l))).length
          = x.buf.length := by
        simp only [List.length_append, htl, hst, List.length_drop]; omega
      have hR1 := cbc_encrypt_length (E x.ctx.algo x.ctx.key) b hE 1 x.ctx.iv
        (x.buf.take l ++ (src.take (b - l) ++ (x.buf.drop l).drop (b - l))) hiv
        (by rw [hbuf1]; omega)
      rw [Nat.one_mul] at hR1
      have hR2 := cbc_encrypt_length (E x.ctx.algo x.ctx.key) b hE (n2 / b)
        (cbc_encrypt_blocks (E x.ctx.algo x.ctx.key) b 1 x.ctx.iv
          (x.buf.take l ++ (src.take (b - l) ++ (x.buf.drop l).drop (b - l)))).1
        (src.drop (b - l)) hR1.1 (by omega)
      rw [hk, hkb, hm] at hcap
      rw [update_of_next _ nd x dst cap src _ _ hcap0
        (partial_fill_enc E D blk klen nd x dst cap src b l hb hblk hbl hl hl0 hlb henc hn
          (by omega) _ rfl _ rfl hR1.2) hbz]
      obtain ⟨y, hy, hsteps⟩ := tail_cbc E D blk klen nd
        ⟨{ x with buf := x.buf.take l ++ (src.take (b - l) ++ (x.buf.drop l).drop (b - l)),
                  len := 0,
                  ctx := { x.ctx with iv :=
                    (cbc_encrypt_blocks (E x.ctx.algo x.ctx.key) b 1 x.ctx.iv
                      (x.buf.take l ++ (src.take (b - l)
                        ++ (x.buf.drop l).drop (b - l)))).1 } },
          (cbc_encrypt_blocks (E x.ctx.algo x.ctx.key) b 1 x.ctx.iv
            (x.buf.take l ++ (src.take (b - l) ++ (x.buf.drop l).drop (b - l)))).2,
          dst.drop b, (b : Int), src.drop (b - l),
          (src.length : Int) - ((b - l : Nat) : Int)⟩
        cap b (n2 / b) (n2 % b) hb hblk hbl rfl
        (by simp only; rw [hdm]; omega)
        (by
          simp only
          rw [show (src.length : Int) - ((b - l : Nat) : Int) = (n2 : Int) by omega]
          exact n_part_enc _ b n2 hbl henc)
        (Nat.le_of_lt (Nat.mod_lt _ hb)) (fun h => absurd h henc)
        (by simp only; rw [hm]; omega)
        (by simp only; omega) (by simp only; rw [hbuf1]; exact hbuf) _
        (by simp only; rw [if_pos henc]) hR2.2
      rw [hy]
      have hdata1 : (x.buf.take l ++ src).take (1 * b)
          = (x.buf.take l ++ (src.take (b - l) ++ (x.buf.drop l).drop (b - l))).take (1 * b) := by
        have e1 := @List.take_append _ (x.buf.take l) src (b - l)
        rw [htl, show l + (b - l) = b by omega] at e1
        rw [Nat.one_mul, e1, ← List.append_assoc,
          List.take_left' (by rw [List.length_append, htl, hst]; omega)]
      have hdata2 : (x.buf.take l ++ src).drop (1 * b) = src.drop (b - l) := by
        have e2 := @List.drop_append _ (x.buf.take l) src (b - l)
        rw [htl, show l + (b - l) = b by omega] at e2
        rw [Nat.one_mul, e2]
      have hRR : R = ((cbc_encrypt_blocks (E x.ctx.algo x.ctx.key) b (n2 / b)
            (cbc_encrypt_blocks (E x.ctx.algo x.ctx.key) b 1 x.ctx.iv
              (x.buf.take l ++ (src.take (b - l) ++ (x.buf.drop l).drop (b - l)))).1
            (src.drop (b - l))).1,
          (cbc_encrypt_blocks (E x.ctx.algo x.ctx.key) b 1 x.ctx.iv
              (x.buf.take l ++ (src.take (b - l) ++ (x.buf.drop l).drop (b - l)))).2
            ++ (cbc_encrypt_blocks (E x.ctx.algo x.ctx.key) b (n2 / b)
            (cbc_encrypt_blocks (E x.ctx.algo x.ctx.key) b 1 x.ctx.iv
              (x.buf.take l ++ (src.take (b - l) ++ (x.buf.drop l).drop (b - l)))).1
            (src.drop (b - l))).2) := by
        rw [hR, hk, Nat.add_comm (n2 / b) 1, cbc_encrypt_split, hdata2,
          cbc_encrypt_congr _ _ 1 _ _ _ hdata1]
      have hdrop : (x.buf.take l ++ src).drop ((n2 / b + 1) * b)
          = (src.drop (b - l)).drop (n2 / b * b) := by
        rw [← hdata2, List.drop_drop, Nat.one_mul, hkb, Nat.add_comm]
      refine ⟨y, ?_, ?_⟩
      · rw [hRR, hk, hkb]
        simp only [List.drop_drop, List.append_assoc]
        push_cast
        rw [Nat.add_comm b (n2 / b * b), Int.add_comm]
      · rw [hk, hdrop, hRR]
        simp only at hsteps ⊢
        rw [@List.take_of_length_le _ (n2 % b) ((src.drop (b - l)).drop (n2 / b * b))
          (by rw [List.length_drop, hsd]; omega)] at hsteps
        simp only [steps_to] at hsteps ⊢
        refine ⟨hsteps.1, hsteps.2.1, hsteps.2.2.1, ?_, hsteps.2.2.2.2⟩
        rw [hsteps.2.2.2.1, hbuf1]

/-- Encrypt-mode `_cipher_final` on the CBC backend: the padded block is
encrypted and emitted. -/
theorem enc_final_cbc (E D : Int → List Nat → List Nat → List Nat)
    (blk klen : Int → Nat) (nd : Bool) (x : cipher_ctx cbc_handle)
    (dst : List Nat) (cap : Int) (b l : Nat)
    (hb : 0 < b) (hb256 : b < 256) (hblk : blk x.ctx.algo = b)
    (hbl : x.blklen = (b : Int)) (hl : x.len = (l : Int)) (hlb : l < b)
    (henc : x.do_encrypt ≠ 0) (hbuf : b ≤ x.buf.length)
    (hcap : (b : Int) ≤ cap)
    (R : List Nat × List Nat)
    (hR : R = cbc_encrypt_blocks (E x.ctx.algo x.ctx.key) b 1 x.ctx.iv
      (x.buf.take l ++ List.replicate (b - l) (b - l))) :
    ∃ y, _cipher_final (gcry_cbc E D blk klen) nd x dst cap
        = .ok ⟨0, y, R.2 ++ dst.drop b, (b : Int)⟩ ∧ same_tags x y := by
  have htl : (x.buf.take l).length = l := by rw [List.length_take]; omega
  have hfill : pad_fill (x.blklen - x.len) x.len.toNat (x.blklen - x.len).toNat x.buf
      = x.buf.take l ++ List.replicate (b - l) (b - l) ++ x.buf.drop b := by
    rw [pad_fill_eq _ _ _ _ (by omega), hbl, hl]
    have h1 : (((b : Int) - (l : Int)) % 256).toNat = b - l := by omega
    have h2 : ((b : Int) - (l : Int)).toNat = b - l := by omega
    rw [h1, h2, Int.toNat_ofNat, show l + (b - l) = b by omega]
  have hcong : cbc_encrypt_blocks (E x.ctx.algo x.ctx.key) b 1 x.ctx.iv
      (x.buf.take l ++ List.replicate (b - l) (b - l) ++ x.buf.drop b) = R := by
    have ha : (x.buf.take l ++ List.replicate (b - l) (b - l)).length = b := by
      rw [List.length_append, htl, List.length_replicate]; omega
    rw [hR]
    apply cbc_encrypt_congr
    rw [Nat.one_mul, List.take_left' ha, List.take_of_length_le (Nat.le_of_eq ha)]
  have haux := aux_cbc E D blk klen
    { x with buf := x.buf.take l ++ List.replicate (b - l) (b - l) ++ x.buf.drop b } dst cap
    (x.buf.take l ++ List.replicate (b - l) (b - l) ++ x.buf.drop b) b 1 hb hblk (by omega)
  simp only [if_pos henc, Nat.one_mul, hcong, hbl] at haux
  unfold _cipher_final
  rw [if_pos henc, if_neg (fun h => h.2 (by omega))]
  simp only [hfill]
  simp only [hbl, haux]
  rw [if_neg (by decide)]
  exact ⟨_, rfl, rfl, rfl⟩

/-! ### Encrypt-mode runs on the CBC backend -/

/-- Quotient of a sum by the block length. -/
theorem div_mul_add (s n b : Nat) (hb : 0 < b) :
    (s + n) / b = s / b + (s % b + n) / b := by
  have h : s + n = (s % b + n) + s / b * b := by
    have := Nat.div_add_mod' s b; omega
  rw [h, Nat.add_mul_div_right _ _ hb, Nat.add_comm]

/-- One `cipher_update` in encrypt mode, in terms of the plaintext `S` fed so
far: the context moves from the state after `S` to the state after `S ++ c`,
and the bytes emitted extend the CBC encryption of the whole blocks. -/
theorem enc_step (E D : Int → List Nat → List Nat → List Nat) (blk klen : Int → Nat)
    (nd : Bool) (b : Nat) (x0 x : cipher_ctx cbc_handle) (hx0 : cbc_ready E blk b x0)
    (henc : x0.do_encrypt ≠ 0) (hlive : live nd x0)
    (S c dst : List Nat) (cap : Int) (hc : c ≠ [])
    (hst : steps_to x0 x
      (cbc_encrypt_blocks (E x0.ctx.algo x0.ctx.key) b (S.length / b) x0.ctx.iv S).1
      (S.drop (S.length / b * b)))
    (hcap : ((((S ++ c).length / b * b : Nat) : Int)) ≤ ((S.length / b * b : Nat) : Int) + cap) :
    ∃ y o, cipher_update (gcry_cbc E D blk klen) nd x dst cap c (c.length : Int)
        = .ok ⟨0, y, o ++ dst.drop o.length, (o.length : Int)⟩
      ∧ steps_to x0 y
          (cbc_encrypt_blocks (E x0.ctx.algo x0.ctx.key) b ((S ++ c).length / b)
            x0.ctx.iv (S ++ c)).1
          ((S ++ c).drop ((S ++ c).length / b * b))
      ∧ (cbc_encrypt_blocks (E x0.ctx.algo x0.ctx.key) b ((S ++ c).length / b)
            x0.ctx.iv (S ++ c)).2
          = (cbc_encrypt_blocks (E x0.ctx.algo x0.ctx.key) b (S.length / b) x0.ctx.iv S).2 ++ o
      ∧ o.length + S.length / b * b = (S ++ c).length / b * b := by
  obtain ⟨hb, hb256, hblk, hbl, hbuf, hiv, hE⟩ := hx0
  obtain ⟨h1, h2, h3, h4, h5, h6, h7, h8⟩ := hst
  have hcl : 0 < c.length := List.length_pos.mpr hc
  have hdm := Nat.div_add_mod' S.length b
  have hheld : (S.drop (S.length / b * b)).length = S.length % b := by
    rw [List.length_drop]; omega
  have hq := div_mul_add S.length c.length b hb
  have hml := Nat.mod_lt S.length hb
  have hRS := cbc_encrypt_length (E x0.ctx.algo x0.ctx.key) b hE (S.length / b) x0.ctx.iv S
    hiv (by omega)
  have hxa : x.ctx.algo = x0.ctx.algo := by rw [h1]
  have hxk : x.ctx.key = x0.ctx.key := by rw [h1]
  have hxi : x.ctx.iv
      = (cbc_encrypt_blocks (E x0.ctx.algo x0.ctx.key) b (S.length / b) x0.ctx.iv S).1 := by
    rw [h1]
  rw [hheld] at h2 h3
  obtain ⟨m1, hm1⟩ : ∃ m, S.length / b * b = m := ⟨_, rfl⟩
  obtain ⟨m2, hm2⟩ : ∃ m, (S.length % b + c.length) / b * b = m := ⟨_, rfl⟩
  have hmm : (S ++ c).length / b * b = m1 + m2 := by
    rw [List.length_append, hq, Nat.add_mul, hm1, hm2]
  obtain ⟨y, hy, hsy⟩ := enc_update_cbc E D blk klen nd x dst cap c b (S.length % b) hb
    (by rw [hxa]; exact hblk) (by rw [h5]; exact hbl) h2 hml (by rw [h6]; exact henc)
    (by rw [h4]; exact hbuf) (by rw [hxi]; exact hRS.1)
    (by rw [hxa, hxk]; exact hE)
    (by rw [hm2]; rw [hmm, hm1] at hcap; push_cast at hcap; omega) _ rfl
  rw [h3, hxa, hxk, hxi] at hy hsy
  -- the CBC encryption of `S ++ c`, split after the blocks of `S`
  have hsplit : cbc_encrypt_blocks (E x0.ctx.algo x0.ctx.key) b ((S ++ c).length / b)
        x0.ctx.iv (S ++ c)
      = ((cbc_encrypt_blocks (E x0.ctx.algo x0.ctx.key) b ((S.length % b + c.length) / b)
            (cbc_encrypt_blocks (E x0.ctx.algo x0.ctx.key) b (S.length / b) x0.ctx.iv S).1
            (S.drop (S.length / b * b) ++ c)).1,
         (cbc_encrypt_blocks (E x0.ctx.algo x0.ctx.key) b (S.length / b) x0.ctx.iv S).2
          ++ (cbc_encrypt_blocks (E x0.ctx.algo x0.ctx.key) b ((S.length % b + c.length) / b)
            (cbc_encrypt_blocks (E x0.ctx.algo x0.ctx.key) b (S.length / b) x0.ctx.iv S).1
            (S.drop (S.length / b * b) ++ c)).2) := by
    rw [List.length_append, hq, cbc_encrypt_split,
      List.drop_append_of_le_length (by omega),
      cbc_encrypt_congr _ _ (S.length / b) _ (S ++ c) S
        (by rw [List.take_append_of_le_length (by omega)])]
  have hRo := cbc_encrypt_length (E x0.ctx.algo x0.ctx.key) b hE
    ((S.length % b + c.length) / b)
    (cbc_encrypt_blocks (E x0.ctx.algo x0.ctx.key) b (S.length / b) x0.ctx.iv S).1
    (S.drop (S.length / b * b) ++ c) hRS.1
    (by rw [List.length_append, hheld]; exact Nat.div_mul_le_self _ _)
  have hlv : ¬ (nd = false ∧ ¬ x.magic = CIPHER_MAGIC) := by
    intro h; exact h.2 (by rw [h7]; exact (hlive h.1).1)
  have hlf : ¬ (nd = false ∧ ¬ x.finalized ≠ 1) := by
    intro h; exact h.2 (by rw [h8]; exact (hlive h.1).2)
  refine ⟨y, (cbc_encrypt_blocks (E x0.ctx.algo x0.ctx.key) b ((S.length % b + c.length) / b)
      (cbc_encrypt_blocks (E x0.ctx.algo x0.ctx.key) b (S.length / b) x0.ctx.iv S).1
      (S.drop (S.length / b * b) ++ c)).2, ?_, ?_, ?_, ?_⟩
  · unfold cipher_update
    rw [if_neg hlv, if_neg hlf, if_neg (by omega), hy, hRo.2]
  · rw [hsplit]
    simp only
    obtain ⟨s1, s2, s3, s4, s5, s6, s7, s8⟩ := hsy
    have hd : (S ++ c).drop ((S ++ c).length / b * b)
        = (S.drop (S.length / b * b) ++ c).drop ((S.length % b + c.length) / b * b) := by
      rw [hmm, hm1, hm2, ← List.drop_drop, List.drop_append_of_le_length (by omega)]
    rw [hd]
    refine ⟨by rw [s1, h1], s2, s3, by rw [s4, h4], by rw [s5, h5], by rw [s6, h6],
      by rw [s7, h7], by rw [s8, h8]⟩
  · rw [hsplit]
  · rw [hRo.2, hmm, hm1, hm2, Nat.add_comm]

/-- A caller feeding non-empty chunks in encrypt mode: every update returns
0, and the bytes emitted are the CBC encryption of the whole blocks fed. -/
theorem feed_enc (E D : Int → List Nat → List Nat → List Nat) (blk klen : Int → Nat)
    (nd : Bool) (b : Nat) (x0 : cipher_ctx cbc_handle) (hx0 : cbc_ready E blk b x0)
    (henc : x0.do_encrypt ≠ 0) (hlive : live nd x0) :
    ∀ (chunks : List (List Nat)), (∀ c ∈ chunks, c ≠ []) →
    ∀ (S : List Nat) (x : cipher_ctx cbc_handle) (out dst : List Nat) (cap : Int),
      steps_to x0 x
        (cbc_encrypt_blocks (E x0.ctx.algo x0.ctx.key) b (S.length / b) x0.ctx.iv S).1
        (S.drop (S.length / b * b)) →
      ((((S ++ chunks.flatten).length / b * b : Nat) : Int))
        ≤ ((S.length / b * b : Nat) : Int) + cap →
      ∃ y o, feed (gcry_cbc E D blk klen) nd chunks x out dst cap
          = .ok (some (y, out ++ o, dst.drop o.length, cap - (o.length : Int)))
        ∧ steps_to x0 y
            (cbc_encrypt_blocks (E x0.ctx.algo x0.ctx.key) b
              ((S ++ chunks.flatten).length / b) x0.ctx.iv (S ++ chunks.flatten)).1
            ((S ++ chunks.flatten).drop ((S ++ chunks.flatten).length / b * b))
        ∧ (cbc_encrypt_blocks (E x0.ctx.algo x0.ctx.key) b
              ((S ++ chunks.flatten).length / b) x0.ctx.iv (S ++ chunks.flatten)).2
            = (cbc_encrypt_blocks (E x0.ctx.algo x0.ctx.key) b (S.length / b)
                x0.ctx.iv S).2 ++ o
        ∧ o.length + S.length / b * b = (S ++ chunks.flatten).length / b * b := by
  intro chunks
  induction chunks with
  | nil =>
    intro _ S x out dst cap hst _
    refine ⟨x, [], ?_, ?_, ?_, ?_⟩
    · simp [feed]
    · simpa using hst
    · simp
    · simp
  | cons c cs ih =>
    intro hne S x out dst cap hst hcap
    have hc : c ≠ [] := hne c (List.mem_cons_self _ _)
    have hcs : ∀ c' ∈ cs, c' ≠ [] := fun c' h => hne c' (List.mem_cons_of_mem _ h)
    have hfl : S ++ (c :: cs).flatten = (S ++ c) ++ cs.flatten := by
      rw [List.flatten_cons, List.append_assoc]
    rw [hfl] at hcap ⊢
    have hmono : (S ++ c).length / b * b ≤ ((S ++ c) ++ cs.flatten).length / b * b := by
      apply Nat.mul_le_mul_right
      apply Nat.div_le_div_right
      rw [List.length_append (S ++ c)]
      omega
    obtain ⟨y, o1, hu, hsy, hout, hlen⟩ := enc_step E D blk klen nd b x0 x hx0 henc hlive
      S c dst cap hc hst (by omega)
    obtain ⟨z, o2, hf, hsz, hout2, hlen2⟩ := ih hcs (S ++ c) y (out ++ o1)
      (dst.drop o1.length) (cap - (o1.length : Int)) hsy (by omega)
    refine ⟨z, o1 ++ o2, ?_, hsz, ?_, ?_⟩
    · rw [feed, hu]
      simp only [ne_eq, not_true_eq_false, if_false, Int.toNat_ofNat]
      have e : cap - (o1.length : Int) - (o2.length : Int)
          = cap - ((o1.length + o2.length : Nat) : Int) := by push_cast; omega
      rw [List.take_left' rfl, List.drop_left' rfl, hf, List.drop_drop, List.length_append,
        List.append_assoc, e]
    · rw [hout2, hout, List.append_assoc]
    · rw [List.length_append]; omega

/-- A whole encrypt-mode run on a fresh context: the bytes emitted by the
updates and by `cipher_final` are the CBC encryption of the plaintext
followed by its PKCS padding. -/
theorem run_enc (E D : Int → List Nat → List Nat → List Nat) (blk klen : Int → Nat)
    (nd : Bool) (b : Nat) (x0 : cipher_ctx cbc_handle) (hx0 : cbc_ready E blk b x0)
    (henc : x0.do_encrypt ≠ 0) (hlive : live nd x0) (hlen0 : x0.len = 0)
    (chunks : List (List Nat)) (hne : ∀ c ∈ chunks, c ≠ []) (dst : List Nat) (cap : Int)
    (hcap : ((((chunks.flatten.length / b + 1) * b : Nat) : Int)) ≤ cap) :
    run (gcry_cbc E D blk klen) nd x0 chunks dst cap
      = .ok (some (cbc_encrypt_blocks (E x0.ctx.algo x0.ctx.key) b
          (chunks.flatten.length / b + 1) x0.ctx.iv
          (chunks.flatten ++ pkcs_pad b chunks.flatten)).2) := by
  have hready := hx0
  obtain ⟨hb, hb256, hblk, hbl, hbuf, hiv, hE⟩ := hx0
  obtain ⟨P, hP⟩ : ∃ P, chunks.flatten = P := ⟨_, rfl⟩
  obtain ⟨m, hm⟩ : ∃ m, P.length / b * b = m := ⟨_, rfl⟩
  have hkb : (P.length / b + 1) * b = m + b := by rw [Nat.add_mul, Nat.one_mul, hm]
  have hdm := Nat.div_add_mod' P.length b
  have hml := Nat.mod_lt P.length hb
  rw [hP, hkb] at hcap
  rw [hP]
  have hst0 : steps_to x0 x0
      (cbc_encrypt_blocks (E x0.ctx.algo x0.ctx.key) b (([] : List Nat).length / b)
        x0.ctx.iv []).1
      (([] : List Nat).drop (([] : List Nat).length / b * b)) := by
    simp [steps_to, cbc_encrypt_blocks, hlen0]
  obtain ⟨y, o, hf, hsy, hout, hlen⟩ := feed_enc E D blk klen nd b x0 hready henc hlive
    chunks hne [] x0 [] dst cap hst0
    (by simp only [List.nil_append, hP, hm, List.length_nil, Nat.zero_div, Nat.zero_mul]
        omega)
  simp only [List.nil_append, hP, List.length_nil, Nat.zero_div, Nat.zero_mul, Nat.add_zero,
    cbc_encrypt_blocks] at hf hsy hout hlen
  rw [hm] at hlen
  obtain ⟨s1, s2, s3, s4, s5, s6, s7, s8⟩ := hsy
  have hheld : (P.drop (P.length / b * b)).length = P.length % b := by
    rw [List.length_drop]; omega
  rw [hheld] at s2 s3
  have hRS := cbc_encrypt_length (E x0.ctx.algo x0.ctx.key) b hE (P.length / b) x0.ctx.iv P
    hiv (by omega)
  have hya : y.ctx.algo = x0.ctx.algo := by rw [s1]
  have hyk : y.ctx.key = x0.ctx.key := by rw [s1]
  have hyi : y.ctx.iv
      = (cbc_encrypt_blocks (E x0.ctx.algo x0.ctx.key) b (P.length / b) x0.ctx.iv P).1 := by
    rw [s1]
  obtain ⟨z, hz, _⟩ := enc_final_cbc E D blk klen nd y (dst.drop o.length)
    (cap - (o.length : Int)) b (P.length % b) hb hb256 (by rw [hya]; exact hblk)
    (by rw [s5]; exact hbl) s2 hml (by rw [s6]; exact henc) (by rw [s4]; exact hbuf)
    (by omega) _ rfl
  rw [s3, hya, hyk, hyi] at hz
  have hpadlen : (P.drop (P.length / b * b)
      ++ List.replicate (b - P.length % b) (b - P.length % b)).length = b := by
    rw [List.length_append, hheld, List.length_replicate]; omega
  have hRf := cbc_encrypt_length (E x0.ctx.algo x0.ctx.key) b hE 1
    (cbc_encrypt_blocks (E x0.ctx.algo x0.ctx.key) b (P.length / b) x0.ctx.iv P).1
    (P.drop (P.length / b * b) ++ List.replicate (b - P.length % b) (b - P.length % b))
    hRS.1 (by rw [hpadlen]; omega)
  rw [Nat.one_mul] at hRf
  have hlv : ¬ (nd = false ∧ ¬ y.magic = CIPHER_MAGIC) := by
    intro h; exact h.2 (by rw [s7]; exact (hlive h.1).1)
  have hlf : ¬ (nd = false ∧ ¬ y.finalized ≠ 1) := by
    intro h; exact h.2 (by rw [s8]; exact (hlive h.1).2)
  have htotal : (cbc_encrypt_blocks (E x0.ctx.algo x0.ctx.key) b (P.length / b + 1) x0.ctx.iv
        (P ++ pkcs_pad b P)).2
      = o ++ (cbc_encrypt_blocks (E x0.ctx.algo x0.ctx.key) b 1
          (cbc_encrypt_blocks (E x0.ctx.algo x0.ctx.key) b (P.length / b) x0.ctx.iv P).1
          (P.drop (P.length / b * b)
            ++ List.replicate (b - P.length % b) (b - P.length % b))).2 := by
    rw [cbc_encrypt_split, List.drop_append_of_le_length (by omega),
      cbc_encrypt_congr _ _ (P.length / b) _ (P ++ pkcs_pad b P) P
        (by rw [List.take_append_of_le_length (by omega)]), ← hout]
    rfl
  unfold run
  rw [hf]
  simp only
  unfold cipher_final
  rw [if_neg hlv, if_neg hlf, hz]
  cases nd <;>
    simp only [Bool.false_eq_true, if_false, if_true, ne_eq, not_true_eq_false,
      Int.toNat_ofNat, List.take_left' hRf.2, htotal]

/-! ### Decrypt-mode runs on the CBC backend -/

/-- A byte of the padding inside `tail ++ padding ++ rest`. -/
theorem getD_padding (tail rest : List Nat) (N v i : Nat) (h1 : tail.length ≤ i)
    (h2 : i < tail.length + N) :
    (tail ++ List.replicate N v ++ rest).getD i 0 = v := by
  rw [List.getD_eq_getElem?_getD, List.append_assoc,
    List.getElem?_append_right h1,
    List.getElem?_append_left (by rw [List.length_replicate]; omega),
    List.getElem?_replicate]
  rw [if_pos (by omega)]
  rfl

/-- The in-place call of `_cipher_update_aux` made by decrypt finalize, on
the CBC backend. -/
theorem aux_cbc_inplace (E D : Int → List Nat → List Nat → List Nat) (blk klen : Int → Nat)
    (x : cipher_ctx cbc_handle) (b : Nat) (hb : 0 < b) (hblk : blk x.ctx.algo = b)
    (hdec : x.do_encrypt = 0) :
    _cipher_update_aux (gcry_cbc E D blk klen) x x.buf (b : Int) none 0
      = ⟨0,
         { x with ctx := { x.ctx with iv :=
            (cbc_decrypt_blocks (D x.ctx.algo x.ctx.key) b 1 x.ctx.iv x.buf).1 } },
         (cbc_decrypt_blocks (D x.ctx.algo x.ctx.key) b 1 x.ctx.iv x.buf).2 ++ x.buf.drop b,
         (b : Int)⟩ := by
  unfold _cipher_update_aux
  simp only [gcry_cbc, hblk, hdec, ne_eq, not_true_eq_false, if_false,
    cbc_crypt_inplace false _ b _ _ hb]
  simp

/-- Decrypt-mode `_cipher_final` on the CBC backend, when the held block
decrypts to `tail` followed by its PKCS padding. -/
theorem dec_final_cbc (E D : Int → List Nat → List Nat → List Nat)
    (blk klen : Int → Nat) (nd : Bool) (x : cipher_ctx cbc_handle)
    (dst : List Nat) (cap : Int) (b : Nat) (tail : List Nat)
    (hb : 0 < b) (hb256 : b < 256) (hblk : blk x.ctx.algo = b)
    (hbl : x.blklen = (b : Int)) (hl : x.len = (b : Int))
    (hdec : x.do_encrypt = 0) (htl : tail.length < b)
    (hplain : (cbc_decrypt_blocks (D x.ctx.algo x.ctx.key) b 1 x.ctx.iv x.buf).2
      = tail ++ List.replicate (b - tail.length) (b - tail.length))
    (hcap : (tail.length : Int) ≤ cap) :
    ∃ y, _cipher_final (gcry_cbc E D blk klen) nd x dst cap
        = .ok ⟨0, y, tail ++ dst.drop tail.length, (tail.length : Int)⟩ ∧ same_tags x y := by
  have haux := aux_cbc_inplace E D blk klen x b hb hblk hdec
  rw [hplain] at haux
  have hpadv : ((tail ++ List.replicate (b - tail.length) (b - tail.length)
      ++ x.buf.drop b).getD (((b : Int) - 1).toNat) 0 : Nat) = b - tail.length :=
    getD_padding _ _ _ _ _ (by omega) (by omega)
  have hchk : pad_check (tail ++ List.replicate (b - tail.length) (b - tail.length)
      ++ x.buf.drop b) ((b - tail.length : Nat) : Int)
      ((b : Int) - ((b - tail.length : Nat) : Int)).toNat
      ((b - tail.length : Nat) : Int).toNat = true := by
    rw [pad_check_iff]
    intro i hi1 hi2
    rw [getD_padding _ _ _ _ _ (by omega) (by omega)]
  unfold _cipher_final
  rw [if_neg (by simp [hdec]), if_neg (by simp [hl, hbl])]
  simp only [hbl, haux]
  rw [if_neg (by decide)]
  simp only [hpadv]
  rw [if_neg (by omega), hchk, if_neg (by decide), if_neg (by omega)]
  refine ⟨{ x with
    ctx := { x.ctx with iv :=
      (cbc_decrypt_blocks (D x.ctx.algo x.ctx.key) b 1 x.ctx.iv x.buf).1 },
    buf := tail ++ List.replicate (b - tail.length) (b - tail.length) ++ x.buf.drop b },
    ?_, rfl, rfl⟩
  have e1 : (b : Int) - ((b - tail.length : Nat) : Int) = (tail.length : Int) := by omega
  simp only [e1, memcpy, Int.toNat_ofNat, List.append_assoc, List.take_left' rfl, hbl]

/-- The first decrypt-mode `_cipher_update`, given `q + 1` whole blocks: `q`
blocks are decrypted and emitted, the last block is held back. -/
theorem dec_update_cbc (E D : Int → List Nat → List Nat → List Nat)
    (blk klen : Int → Nat) (nd : Bool) (x : cipher_ctx cbc_handle)
    (dst : List Nat) (cap : Int) (C : List Nat) (b q : Nat)
    (hb : 0 < b) (hblk : blk x.ctx.algo = b)
    (hbl : x.blklen = (b : Int)) (hl0 : x.len = 0) (hdec : x.do_encrypt = 0)
    (hbuf : b ≤ x.buf.length) (hC : C.length = q * b + b)
    (hcap : ((q * b : Nat) : Int) ≤ cap)
    (R : List Nat × List Nat)
    (hR : R = cbc_decrypt_blocks (D x.ctx.algo x.ctx.key) b q x.ctx.iv C)
    (hr : R.2.length = q * b) :
    ∃ y, _cipher_update (gcry_cbc E D blk klen) nd x dst cap C (C.length : Int)
        = .ok ⟨0, y, R.2 ++ dst.drop (q * b), ((q * b : Nat) : Int)⟩
      ∧ steps_to x y R.1 (C.drop (q * b)) := by
  have hp : update_partial_block (gcry_cbc E D blk klen) nd x dst cap C (C.length : Int)
      = .next ⟨x, [], dst, 0, C, (C.length : Int)⟩ := by
    unfold update_partial_block
    rw [if_neg (by omega)]
  have hnp : n_partial_val x (C.length : Int) = (b : Int) := by
    unfold n_partial_val
    simp only [hbl, ← Int.ofNat_tmod]
    have : C.length % b = 0 := by
      rw [hC, show q * b + b = (q + 1) * b by rw [Nat.add_mul, Nat.one_mul],
        Nat.mul_mod_left]
    rw [this, if_pos ⟨hdec, rfl⟩]
  obtain ⟨y, hy, hst⟩ := tail_cbc E D blk klen nd ⟨x, [], dst, 0, C, (C.length : Int)⟩
    cap b q b hb hblk hbl hl0 (by simp only; rw [hC]) hnp (Nat.le_refl _)
    (fun _ => hb) (by simpa using hcap) (by simp only; omega) hbuf R
    (by simp only; rw [if_neg (by simp [hdec])]; exact hR) hr
  have hbz : x.blklen ≠ 0 := by rw [hbl]; omega
  rw [update_of_next _ nd x dst cap C _ _
    (by have : (0 : Int) ≤ ((q * b : Nat) : Int) := Int.ofNat_nonneg _; omega) hp hbz]
  simp only [List.nil_append, Int.zero_add] at hy
  refine ⟨y, hy, ?_⟩
  simp only at hst
  rwa [List.take_of_length_le (by rw [List.length_drop]; omega)] at hst

/-! ### `cipher_init` on the CBC backend -/

/-- A successful `cipher_init` on the CBC backend. -/
theorem init_cbc (E D : Int → List Nat → List Nat → List Nat) (blk klen : Int → Nat)
    (nd : Bool) (xr : cipher_ctx cbc_handle) (cipher : Int) (key iv : List Nat) (enc : Int)
    (hsup : (_cipher_map_enum cipher (some 0)).1 = 0)
    (hb : 0 < blk (cipher_algo cipher)) (hbm : blk (cipher_algo cipher) < 2147483648)
    (hk : klen (cipher_algo cipher) < 2147483648) (henc : enc = 0 ∨ enc = 1) :
    cipher_init (gcry_cbc E D blk klen) nd xr cipher key iv enc
      = .ok (0, cbc_init_ctx blk klen nd xr cipher key iv enc) := by
  have hb0 : ¬ blk (cipher_algo cipher) = 0 := by omega
  have hb0' : ¬ blk ((_cipher_map_enum cipher (some 0)).2.getD 0) = 0 := hb0
  have hkt : to_int ((klen ((_cipher_map_enum cipher (some 0)).2.getD 0) : Nat) : Int)
      = ((klen ((_cipher_map_enum cipher (some 0)).2.getD 0) : Nat) : Int) :=
    to_int_small _ (Int.natCast_nonneg _) (by have := hk; unfold cipher_algo at this; omega)
  have hbt : to_int ((blk ((_cipher_map_enum cipher (some 0)).2.getD 0) : Nat) : Int)
      = ((blk ((_cipher_map_enum cipher (some 0)).2.getD 0) : Nat) : Int) :=
    to_int_small _ (Int.natCast_nonneg _) (by have := hbm; unfold cipher_algo at this; omega)
  have hinit : _cipher_init (gcry_cbc E D blk klen) xr cipher key iv enc
      = (0, { xr with
          ctx := ⟨cipher_algo cipher, key.take (klen (cipher_algo cipher)),
                  iv.take (blk (cipher_algo cipher))⟩
          do_encrypt := enc, len := 0, blklen := (blk (cipher_algo cipher) : Int) }) := by
    unfold _cipher_init
    simp only [hsup, gcry_cbc, store_exact, hkt, hbt, hb0', if_false, Int.toNat_ofNat,
      cipher_algo]
    simp
  unfold cipher_init
  rw [if_neg (fun h => h.2 henc), hinit]
  cases nd <;> simp [cbc_init_ctx]

/-- The context after `cipher_init` is in working order. -/
theorem init_ready (E : Int → List Nat → List Nat → List Nat) (blk klen : Int → Nat)
    (nd : Bool) (xr : cipher_ctx cbc_handle) (cipher : Int) (key iv : List Nat) (enc : Int)
    (b : Nat) (hblk : blk (cipher_algo cipher) = b) (hb : 0 < b)
    (hbmax : b ≤ MUNGE_MAXIMUM_BLK_LEN) (hxr : xr.buf.length = MUNGE_MAXIMUM_BLK_LEN)
    (hiv : b ≤ iv.length)
    (hE : ∀ v : List Nat, v.length = b →
      (E (cipher_algo cipher) (key.take (klen (cipher_algo cipher))) v).length = b) :
    cbc_ready E blk b (cbc_init_ctx blk klen nd xr cipher key iv enc)
      ∧ live nd (cbc_init_ctx blk klen nd xr cipher key iv enc) := by
  have h16 : b ≤ 16 := hbmax
  refine ⟨⟨hb, by omega, hblk, ?_, ?_, ?_, hE⟩, ?_⟩
  · simp [cbc_init_ctx, hblk]
  · simp only [cbc_init_ctx, hxr]; exact hbmax
  · simp only [cbc_init_ctx, hblk, List.length_take]; omega
  · intro h
    subst h
    simp [cbc_init_ctx]

/-- The ciphertext of `P` with its PKCS padding, seen from the decrypting
side: its length, the decryption of all blocks but the last, and the
decryption of the last block from any buffer that starts with it. -/
theorem cbc_padded_decrypt (E D : List Nat → List Nat) (b : Nat) (iv P : List Nat)
    (hb : 0 < b) (hiv : iv.length = b)
    (hE : ∀ v : List Nat, v.length = b → (E v).length = b)
    (hD : ∀ v : List Nat, v.length = b → D (E v) = v)
    (C : List Nat)
    (hC : C = (cbc_encrypt_blocks E b (P.length / b + 1) iv (P ++ pkcs_pad b P)).2) :
    ∃ chain : List Nat, chain.length = b
      ∧ C.length = P.length / b * b + b
      ∧ cbc_decrypt_blocks D b (P.length / b) iv C = (chain, P.take (P.length / b * b))
      ∧ ∀ buf : List Nat, buf.take b = C.drop (P.length / b * b) →
          (cbc_decrypt_blocks D b 1 chain buf).2
            = P.drop (P.length / b * b)
              ++ List.replicate (b - (P.drop (P.length / b * b)).length)
                  (b - (P.drop (P.length / b * b)).length) := by
  have hdm := Nat.div_add_mod' P.length b
  have hml := Nat.mod_lt P.length hb
  obtain ⟨m, hm⟩ : ∃ m, P.length / b * b = m := ⟨_, rfl⟩
  obtain ⟨data, hdata⟩ : ∃ data, P ++ pkcs_pad b P = data := ⟨_, rfl⟩
  have hdlen : data.length = m + b := by
    rw [← hdata, List.length_append, pkcs_pad, List.length_replicate]; omega
  have hdtake : data.take m = P.take m := by
    rw [← hdata, List.take_append_of_le_length (by omega)]
  have hddrop : data.drop m
      = P.drop m ++ List.replicate (b - (P.drop m).length) (b - (P.drop m).length) := by
    rw [← hdata, List.drop_append_of_le_length (by omega), pkcs_pad, List.length_drop,
      show P.length - m = P.length % b by omega]
  have hddl : (data.drop m).length = b := by rw [List.length_drop]; omega
  obtain ⟨Rq, hRq⟩ : ∃ R, cbc_encrypt_blocks E b (P.length / b) iv data = R := ⟨_, rfl⟩
  obtain ⟨Rl, hRl⟩ : ∃ R, cbc_encrypt_blocks E b 1 Rq.1 (data.drop m) = R := ⟨_, rfl⟩
  have hRqlen := cbc_encrypt_length E b hE (P.length / b) iv data hiv (by omega)
  rw [hRq, hm] at hRqlen
  have hRllen := cbc_encrypt_length E b hE 1 Rq.1 (data.drop m) hRqlen.1 (by omega)
  rw [hRl, Nat.one_mul] at hRllen
  have hCdef : C = Rq.2 ++ Rl.2 := by
    rw [hC, hdata, cbc_encrypt_split, hRq, hm, hRl]
  have hCdrop : C.drop m = Rl.2 := by rw [hCdef, List.drop_left' hRqlen.2]
  rw [hm]
  refine ⟨Rq.1, hRqlen.1, ?_, ?_, ?_⟩
  · rw [hCdef, List.length_append, hRqlen.2, hRllen.2]
  · rw [cbc_decrypt_congr _ _ (P.length / b) _ C Rq.2
        (by rw [hm, hCdef, List.take_left' hRqlen.2,
          List.take_of_length_le (Nat.le_of_eq hRqlen.2)]),
      ← hRq, cbc_roundtrip _ _ b hE hD _ _ _ hiv (by omega), hm, hdtake]
  · intro buf hbuf'
    rw [hCdrop] at hbuf'
    rw [cbc_decrypt_congr _ _ 1 _ buf Rl.2
        (by rw [Nat.one_mul, hbuf', List.take_of_length_le (Nat.le_of_eq hRllen.2)]),
      ← hRl, cbc_roundtrip _ _ b hE hD _ _ _ hRqlen.1 (by omega), Nat.one_mul,
      List.take_of_length_le (Nat.le_of_eq hddl), hddrop]

/-- A run of one update and `cipher_final`, from what the two private
functions return. -/
theorem run_single {σ : Type} (G : Gcry σ) (nd : Bool) (x0 y z : cipher_ctx σ)
    (C dst o1 o2 : List Nat) (cap : Int)
    (hm0 : nd = false → x0.magic = CIPHER_MAGIC ∧ x0.finalized ≠ 1)
    (hC : 0 < C.length)
    (hu : _cipher_update G nd x0 dst cap C (C.length : Int)
      = .ok ⟨0, y, o1 ++ dst.drop o1.length, (o1.length : Int)⟩)
    (hy : same_tags x0 y)
    (hf : _cipher_final G nd y (dst.drop o1.length) (cap - (o1.length : Int))
      = .ok ⟨0, z, o2 ++ (dst.drop o1.length).drop o2.length, (o2.length : Int)⟩) :
    run G nd x0 [C] dst cap = .ok (some (o1 ++ o2)) := by
  have hlv0 : ¬ (nd = false ∧ ¬ x0.magic = CIPHER_MAGIC) := fun h => h.2 (hm0 h.1).1
  have hlf0 : ¬ (nd = false ∧ ¬ x0.finalized ≠ 1) := fun h => h.2 (hm0 h.1).2
  have hlv : ¬ (nd = false ∧ ¬ y.magic = CIPHER_MAGIC) := by
    intro h; exact h.2 (by rw [hy.1]; exact (hm0 h.1).1)
  have hlf : ¬ (nd = false ∧ ¬ y.finalized ≠ 1) := by
    intro h; exact h.2 (by rw [hy.2]; exact (hm0 h.1).2)
  unfold run
  rw [feed, cipher_update, if_neg hlv0, if_neg hlf0, if_neg (by omega), hu]
  simp only [ne_eq, not_true_eq_false, if_false, Int.toNat_ofNat, feed, List.nil_append]
  rw [List.take_left' rfl, List.drop_left' rfl]
  unfold cipher_final
  rw [if_neg hlv, if_neg hlf, hf]
  cases nd <;>
    simp only [Bool.false_eq_true, if_false, if_true, ne_eq, not_true_eq_false,
      Int.toNat_ofNat, List.take_left' rfl]

/-- A decrypt-mode run over the whole ciphertext of `P` in one update, on a
fresh context with the key and IV of the encryption, gives back `P`. -/
theorem run_dec (E D : Int → List Nat → List Nat → List Nat) (blk klen : Int → Nat)
    (nd : Bool) (b : Nat) (x0 : cipher_ctx cbc_handle) (hx0 : cbc_ready E blk b x0)
    (hdec : x0.do_encrypt = 0) (hlive : live nd x0) (hlen0 : x0.len = 0)
    (hD : ∀ v : List Nat, v.length = b →
      D x0.ctx.algo x0.ctx.key (E x0.ctx.algo x0.ctx.key v) = v)
    (P dst : List Nat) (cap : Int) (hcap : (P.length : Int) ≤ cap) :
    run (gcry_cbc E D blk klen) nd x0
        [(cbc_encrypt_blocks (E x0.ctx.algo x0.ctx.key) b (P.length / b + 1) x0.ctx.iv
          (P ++ pkcs_pad b P)).2] dst cap
      = .ok (some P) := by
  obtain ⟨hb, hb256, hblk, hbl, hbuf, hiv, hE⟩ := hx0
  obtain ⟨C, hC⟩ : ∃ C, C = (cbc_encrypt_blocks (E x0.ctx.algo x0.ctx.key) b
      (P.length / b + 1) x0.ctx.iv (P ++ pkcs_pad b P)).2 := ⟨_, rfl⟩
  obtain ⟨chain, hchain, hClen, hdecq, hdecl⟩ := cbc_padded_decrypt
    (E x0.ctx.algo x0.ctx.key) (D x0.ctx.algo x0.ctx.key) b x0.ctx.iv P hb hiv hE hD C hC
  rw [← hC]
  clear hC hE hD
  have hdm := Nat.div_add_mod' P.length b
  have hml := Nat.mod_lt P.length hb
  obtain ⟨m, hm⟩ : ∃ m, P.length / b * b = m := ⟨_, rfl⟩
  rw [hm] at hClen hdecq hdecl
  have hPm : (P.take m).length = m := by rw [List.length_take]; omega
  have hPd : (P.drop m).length = P.length % b := by rw [List.length_drop]; omega
  obtain ⟨y, hy, hsy⟩ := dec_update_cbc E D blk klen nd x0 dst cap C b (P.length / b) hb hblk
    hbl hlen0 hdec hbuf (by rw [hm]; exact hClen) (by rw [hm]; omega) _ rfl
    (by rw [hdecq, hm]; exact hPm)
  simp only [hdecq, hm] at hy hsy
  obtain ⟨s1, s2, s3, s4, s5, s6, s7, s8⟩ := hsy
  have hCd : (C.drop m).length = b := by rw [List.length_drop]; omega
  rw [hCd] at s2 s3
  obtain ⟨z, hz, _⟩ := dec_final_cbc E D blk klen nd y (dst.drop m) (cap - (m : Int)) b
    (P.drop m) hb hb256 (by rw [s1]; exact hblk) (by rw [s5]; exact hbl) s2
    (by rw [s6]; exact hdec) (by omega)
    (by rw [s1]; exact hdecl y.buf s3) (by omega)
  have hrun := run_single (gcry_cbc E D blk klen) nd x0 y z C dst (P.take m) (P.drop m) cap
    hlive (by omega) (by rw [hPm]; exact hy) ⟨s7, s8⟩ (by rw [hPm]; exact hz)
  rw [hrun, List.take_append_drop]

/-! ### C3, C4, C9: whole operations -/

/-- The store through `len_ptr` belongs to `_cipher_init` alone:
`cipher_update` does not depend on it. -/
theorem cipher_update_store {σ : Type} (G : Gcry σ) (st : Int → Int → Int × Int) (nd : Bool)
    (x : cipher_ctx σ) (dst : List Nat) (cap : Int) (src : List Nat) (n : Int) :
    cipher_update (with_store G st) nd x dst cap src n
      = cipher_update G nd x dst cap src n := rfl

/-- The function `cipher_final` does not depend on the store through
`len_ptr`. -/
theorem cipher_final_store {σ : Type} (G : Gcry σ) (st : Int → Int → Int × Int) (nd : Bool)
    (x : cipher_ctx σ) (dst : List Nat) (cap : Int) :
    cipher_final (with_store G st) nd x dst cap = cipher_final G nd x dst cap := rfl

/-- A run of updates does not depend on the store through `len_ptr`. -/
theorem feed_store {σ : Type} (G : Gcry σ) (st : Int → Int → Int × Int) (nd : Bool)
    (chunks : List (List Nat)) :
    ∀ (x : cipher_ctx σ) (out dst : List Nat) (cap : Int),
      feed (with_store G st) nd chunks x out dst cap = feed G nd chunks x out dst cap := by
  induction chunks with
  | nil => intro x out dst cap; rfl
  | cons c cs ih =>
    intro x out dst cap
    rw [feed, feed, cipher_update_store]
    cases cipher_update G nd x dst cap c c.length with
    | error l => rfl
    | ok r =>
      simp only
      split_ifs
      · rfl
      · exact ih _ _ _ _

/-- A whole run on an initialised context does not depend on the store
through `len_ptr`. -/
theorem run_store {σ : Type} (G : Gcry σ) (st : Int → Int → Int × Int) (nd : Bool)
    (x : cipher_ctx σ) (chunks : List (List Nat)) (dst : List Nat) (cap : Int) :
    run (with_store G st) nd x chunks dst cap = run G nd x chunks dst cap := by
  unfold run
  rw [feed_store]
  rfl

/-- A whole encryption, `cipher_init` included, over non-empty chunks, where
the store through `len_ptr` is exact. -/
theorem crypt_enc (E D : Int → List Nat → List Nat → List Nat) (blk klen : Int → Nat)
    (nd : Bool) (xr : cipher_ctx cbc_handle) (cipher : Int) (key iv : List Nat)
    (chunks : List (List Nat)) (dst : List Nat) (cap : Int) (b : Nat)
    (hsup : (cipher_map_enum cipher none).1 = 0)
    (hblk : blk (cipher_algo cipher) = b) (hb : 0 < b) (hbmax : b ≤ MUNGE_MAXIMUM_BLK_LEN)
    (hk : klen (cipher_algo cipher) < 2147483648)
    (hxr : xr.buf.length = MUNGE_MAXIMUM_BLK_LEN) (hiv : b ≤ iv.length)
    (hE : ∀ v : List Nat, v.length = b →
      (E (cipher_algo cipher) (key.take (klen (cipher_algo cipher))) v).length = b)
    (hne : ∀ c ∈ chunks, c ≠ [])
    (hcap : ((((chunks.flatten.length / b + 1) * b : Nat) : Int)) ≤ cap) :
    crypt (gcry_cbc E D blk klen) nd xr cipher key iv 1 chunks dst cap
      = .ok (some (cbc_encrypt_blocks
          (E (cipher_algo cipher) (key.take (klen (cipher_algo cipher)))) b
          (chunks.flatten.length / b + 1) (iv.take b)
          (chunks.flatten ++ pkcs_pad b chunks.flatten)).2) := by
  have hsup' : (_cipher_map_enum cipher (some 0)).1 = 0 := by
    have h := hsup
    rw [cipher_map_enum, map_enum_rc] at h
    rw [map_enum_rc]; exact h
  obtain ⟨hready, hlive⟩ := init_ready E blk klen nd xr cipher key iv 1 b hblk hb hbmax hxr
    hiv hE
  have hrun := run_enc E D blk klen nd b (cbc_init_ctx blk klen nd xr cipher key iv 1) hready
    (by simp [cbc_init_ctx]) hlive rfl chunks hne dst cap hcap
  unfold crypt
  rw [init_cbc E D blk klen nd xr cipher key iv 1 hsup' (by rw [hblk]; exact hb)
    (by rw [hblk]; unfold MUNGE_MAXIMUM_BLK_LEN at hbmax; omega) hk (Or.inr rfl)]
  simp only [Int.lt_irrefl, if_false, hrun]
  simp only [cbc_init_ctx, hblk]

/-- C4: encryption does not depend on how the plaintext is chunked.  On a
context of the CBC backend initialised for encryption (in working order for
the block length `b`, nothing held in the partial block), whatever the store
through `len_ptr` does, any split of the plaintext into non-empty chunks fed
to successive `cipher_update` calls, followed by `cipher_final` (enough room
at `dst`), runs to the end, and the bytes written by the updates followed by
those written by `cipher_final` are the CBC encryption of the plaintext
followed by its PKCS padding: the same bytes as when the plaintext is passed
in a single update. -/
theorem encrypt_chunking_independent (E D : Int → List Nat → List Nat → List Nat)
    (blk klen : Int → Nat) (st : Int → Int → Int × Int)
    (nd : Bool) (b : Nat) (x0 : cipher_ctx cbc_handle) (hx0 : cbc_ready E blk b x0)
    (henc : x0.do_encrypt ≠ 0) (hlive : live nd x0) (hlen0 : x0.len = 0)
    (chunks : List (List Nat)) (hne : ∀ c ∈ chunks, c ≠ []) (dst : List Nat) (cap : Int)
    (hcap : ((((chunks.flatten.length / b + 1) * b : Nat) : Int)) ≤ cap) :
    run (with_store (gcry_cbc E D blk klen) st) nd x0 chunks dst cap
      = .ok (some (cbc_encrypt_blocks (E x0.ctx.algo x0.ctx.key) b
          (chunks.flatten.length / b + 1) x0.ctx.iv
          (chunks.flatten ++ pkcs_pad b chunks.flatten)).2)
    ∧ run (with_store (gcry_cbc E D blk klen) st) nd x0 chunks dst cap
      = run (with_store (gcry_cbc E D blk klen) st) nd x0
          (if chunks.flatten = [] then [] else [chunks.flatten]) dst cap := by
  have h1 := run_enc E D blk klen nd b x0 hx0 henc hlive hlen0 chunks hne dst cap hcap
  have hfl : (if chunks.flatten = [] then ([] : List (List Nat)) else [chunks.flatten]).flatten
      = chunks.flatten := by
    split_ifs with h
    · simp [h]
    · simp
  have hne2 : ∀ c ∈ (if chunks.flatten = [] then ([] : List (List Nat))
      else [chunks.flatten]), c ≠ [] := by
    intro c hc
    split_ifs at hc with h
    · simp at hc
    · simp only [List.mem_singleton] at hc
      rw [hc]; exact h
  have h2 := run_enc E D blk klen nd b x0 hx0 henc hlive hlen0
    (if chunks.flatten = [] then [] else [chunks.flatten]) hne2 dst cap
    (by rw [hfl]; exact hcap)
  rw [run_store, run_store, h1, h2, hfl]
  exact ⟨rfl, rfl⟩

/-- C9: on a context of the CBC backend initialised for encryption (in
working order for the block length `b > 0`, nothing held in the partial
block), whatever the store through `len_ptr` does, a plaintext of total
length `p` fed through any sequence of non-empty encrypt-mode updates and
`cipher_final` (enough room at `dst`) runs to the end and emits
`(p / b + 1) * b` bytes, the least multiple of `b` above `p`; a block-aligned
plaintext grows by exactly one block.  An update with `srclen ≤ 0` emits
nothing: it returns 0 with the context and `dst` as they were, so such
updates can be left out of any sequence. -/
theorem ciphertext_length (E D : Int → List Nat → List Nat → List Nat)
    (blk klen : Int → Nat) (st : Int → Int → Int × Int)
    (nd : Bool) (b p : Nat) (x0 : cipher_ctx cbc_handle) (hx0 : cbc_ready E blk b x0)
    (henc : x0.do_encrypt ≠ 0) (hlive : live nd x0) (hlen0 : x0.len = 0)
    (chunks : List (List Nat)) (hp : p = (chunks.map List.length).sum)
    (hne : ∀ c ∈ chunks, c ≠ []) (dst : List Nat) (cap : Int)
    (hcap : ((((p / b + 1) * b : Nat) : Int)) ≤ cap) :
    0 < b
    ∧ ∃ out, run (with_store (gcry_cbc E D blk klen) st) nd x0 chunks dst cap
        = .ok (some out)
      ∧ out.length = (p / b + 1) * b
      ∧ p < (p / b + 1) * b
      ∧ (∀ m, b ∣ m → p < m → (p / b + 1) * b ≤ m)
      ∧ (p % b = 0 → out.length = p + b)
      ∧ (∀ (y : cipher_ctx cbc_handle) (d : List Nat) (n : Int) (s : List Nat) (k : Int),
          live nd y → k ≤ 0 →
            cipher_update (with_store (gcry_cbc E D blk klen) st) nd y d n s k
              = .ok ⟨0, y, d, n⟩) := by
  have hb : 0 < b := hx0.hb
  refine ⟨hb, ?_⟩
  have hpl : chunks.flatten.length = p := by rw [List.length_flatten, hp]
  have hdm := Nat.div_add_mod' p b
  have hml := Nat.mod_lt p hb
  have hkb : (p / b + 1) * b = p / b * b + b := by rw [Nat.add_mul, Nat.one_mul]
  have h1 := run_enc E D blk klen nd b x0 hx0 henc hlive hlen0 chunks hne dst cap
    (by rw [hpl]; exact hcap)
  have hlen := (cbc_encrypt_length (E x0.ctx.algo x0.ctx.key) b hx0.hE
    (chunks.flatten.length / b + 1) x0.ctx.iv
    (chunks.flatten ++ pkcs_pad b chunks.flatten)
    (by rw [hx0.hiv])
    (by
      rw [List.length_append, pkcs_pad, List.length_replicate, hpl, hkb]
      omega)).2
  rw [hpl] at hlen h1
  refine ⟨_, (run_store _ st nd x0 chunks dst cap).trans h1, hlen, by omega, ?_, ?_, ?_⟩
  · rintro m ⟨t, rfl⟩ hlt
    have ht : p / b < t := by
      apply (Nat.div_lt_iff_lt_mul hb).mpr
      rw [Nat.mul_comm]; exact hlt
    rw [Nat.mul_comm b t]
    exact Nat.mul_le_mul_right b ht
  · intro h0
    rw [hlen, hkb]
    omega
  · intro y d n s k hy hk
    rw [cipher_update_store]
    unfold cipher_update
    rw [if_neg (fun h => h.2 (hy h.1).1), if_neg (fun h => h.2 (hy h.1).2), if_pos hk]

/-- Round trip of the cipher layer on the CBC backend over an invertible
block function, where the store through `len_ptr` is exact.  Encrypting `P`
(one `cipher_update` over `P`, none when `P` is empty, then `cipher_final`)
and decrypting the result under the same cipher, key and IV (one
`cipher_update` over the whole ciphertext, then `cipher_final`) succeeds and
yields exactly `P`. -/
theorem round_trip_exact_store (E D : Int → List Nat → List Nat → List Nat)
    (blk klen : Int → Nat)
    (nd nd' : Bool) (xr xr' : cipher_ctx cbc_handle) (cipher : Int) (key iv : List Nat)
    (P dst dst' : List Nat) (cap cap' : Int) (b : Nat)
    (hsup : (cipher_map_enum cipher none).1 = 0)
    (hblk : blk (cipher_algo cipher) = b) (hb : 0 < b) (hbmax : b ≤ MUNGE_MAXIMUM_BLK_LEN)
    (hk : klen (cipher_algo cipher) < 2147483648)
    (hxr : xr.buf.length = MUNGE_MAXIMUM_BLK_LEN)
    (hxr' : xr'.buf.length = MUNGE_MAXIMUM_BLK_LEN) (hiv : b ≤ iv.length)
    (hE : ∀ v : List Nat, v.length = b →
      (E (cipher_algo cipher) (key.take (klen (cipher_algo cipher))) v).length = b)
    (hD : ∀ v : List Nat, v.length = b →
      D (cipher_algo cipher) (key.take (klen (cipher_algo cipher)))
        (E (cipher_algo cipher) (key.take (klen (cipher_algo cipher))) v) = v)
    (hcap : ((((P.length / b + 1) * b : Nat) : Int)) ≤ cap)
    (hcap' : (P.length : Int) ≤ cap') :
    ∃ C, crypt (gcry_cbc E D blk klen) nd xr cipher key iv 1
          (if P = [] then [] else [P]) dst cap = .ok (some C)
      ∧ crypt (gcry_cbc E D blk klen) nd' xr' cipher key iv 0 [C] dst' cap'
          = .ok (some P) := by
  have hsup' : (_cipher_map_enum cipher (some 0)).1 = 0 := by
    have h := hsup
    rw [cipher_map_enum, map_enum_rc] at h
    rw [map_enum_rc]; exact h
  have hfl : (if P = [] then ([] : List (List Nat)) else [P]).flatten = P := by
    split_ifs with h
    · simp [h]
    · simp
  have hne : ∀ c ∈ (if P = [] then ([] : List (List Nat)) else [P]), c ≠ [] := by
    intro c hc
    split_ifs at hc with h
    · simp at hc
    · simp only [List.mem_singleton] at hc
      rw [hc]; exact h
  have h1 := crypt_enc E D blk klen nd xr cipher key iv (if P = [] then [] else [P]) dst cap
    b hsup hblk hb hbmax hk hxr hiv hE hne (by rw [hfl]; exact hcap)
  rw [hfl] at h1
  refine ⟨_, h1, ?_⟩
  obtain ⟨hready, hlive⟩ := init_ready E blk klen nd' xr' cipher key iv 0 b hblk hb hbmax
    hxr' hiv hE
  have hrun := run_dec E D blk klen nd' b (cbc_init_ctx blk klen nd' xr' cipher key iv 0)
    hready rfl hlive rfl hD P dst' cap' hcap'
  unfold crypt
  rw [init_cbc E D blk klen nd' xr' cipher key iv 0 hsup' (by rw [hblk]; exact hb)
    (by rw [hblk]; unfold MUNGE_MAXIMUM_BLK_LEN at hbmax; omega) hk (Or.inl rfl)]
  simp only [Int.lt_irrefl, if_false]
  simp only [cbc_init_ctx, hblk] at hrun ⊢
  exact hrun

/-- Round trip on contexts that are initialised, whatever the store through
`len_ptr` does: the encryption of `P` on a context in working order for
encryption, decrypted on a context in working order for decryption with the
same algorithm, key and IV, gives back `P`. -/
theorem round_trip_initialised (E D : Int → List Nat → List Nat → List Nat)
    (blk klen : Int → Nat) (st : Int → Int → Int × Int)
    (nd nd' : Bool) (b : Nat) (x0 x0' : cipher_ctx cbc_handle)
    (hx0 : cbc_ready E blk b x0) (hx0' : cbc_ready E blk b x0')
    (hctx : x0'.ctx = x0.ctx)
    (henc : x0.do_encrypt ≠ 0) (hdec : x0'.do_encrypt = 0)
    (hlive : live nd x0) (hlive' : live nd' x0') (hlen0 : x0.len = 0) (hlen0' : x0'.len = 0)
    (hD : ∀ v : List Nat, v.length = b →
      D x0.ctx.algo x0.ctx.key (E x0.ctx.algo x0.ctx.key v) = v)
    (P dst dst' : List Nat) (cap cap' : Int)
    (hcap : ((((P.length / b + 1) * b : Nat) : Int)) ≤ cap)
    (hcap' : (P.length : Int) ≤ cap') :
    ∃ C, run (with_store (gcry_cbc E D blk klen) st) nd x0
          (if P = [] then [] else [P]) dst cap = .ok (some C)
      ∧ run (with_store (gcry_cbc E D blk klen) st) nd' x0' [C] dst' cap'
          = .ok (some P) := by
  have hfl : (if P = [] then ([] : List (List Nat)) else [P]).flatten = P := by
    split_ifs with h
    · simp [h]
    · simp
  have hne : ∀ c ∈ (if P = [] then ([] : List (List Nat)) else [P]), c ≠ [] := by
    intro c hc
    split_ifs at hc with h
    · simp at hc
    · simp only [List.mem_singleton] at hc
      rw [hc]; exact h
  have h1 := run_enc E D blk klen nd b x0 hx0 henc hlive hlen0 (if P = [] then [] else [P])
    hne dst cap (by rw [hfl]; exact hcap)
  rw [hfl] at h1
  refine ⟨_, (run_store _ st nd x0 _ dst cap).trans h1, ?_⟩
  have h2 := run_dec E D blk klen nd' b x0' hx0' hdec hlive' hlen0'
    (by rw [hctx]; exact hD) P dst' cap' hcap'
  rw [hctx] at h2
  exact (run_store _ st nd' x0' _ dst' cap').trans h2

/-- C3 at its failing input: a platform where `size_t` has 64 bits and the
local `algo` of `_cipher_init` lies in the four bytes after `len` (x86_64,
gcc without optimisation), any of the four ciphers, either direction, either
build.  The first `gcry_cipher_algo_info` stores the key length through
`(size_t *) &len`: its low half lands in `len`, its high half, 0, in `algo`.
The second `gcry_cipher_algo_info` is then asked for the block length of
algorithm 0, which Libgcrypt does not have, and `_cipher_init` returns -1:
nothing is encrypted, where the claim has the round trip succeed.  The same
calls with a store that writes `len` alone encrypt 1, 2, 3 and decrypt the
result to 1, 2, 3. -/
theorem cipher_init_overrun :
    store_overrun GCRY_CIPHER_BLOWFISH 16 = (0, 16)
    ∧ toy_gcry_overrun.blklen 0 = (12, 0)
    ∧ (cipher_init toy_gcry_overrun false toy_raw_ctx MUNGE_CIPHER_BLOWFISH toy_key toy_iv
        1).map Prod.fst = .ok (-1)
    ∧ (cipher_init toy_gcry_overrun true toy_raw_ctx MUNGE_CIPHER_BLOWFISH toy_key toy_iv
        0).map Prod.fst = .ok (-1)
    ∧ (cipher_init toy_gcry_overrun false toy_raw_ctx MUNGE_CIPHER_CAST5 toy_key toy_iv
        1).map Prod.fst = .ok (-1)
    ∧ (cipher_init toy_gcry_overrun false toy_raw_ctx MUNGE_CIPHER_AES128 toy_key toy_iv
        1).map Prod.fst = .ok (-1)
    ∧ (cipher_init toy_gcry_overrun false toy_raw_ctx MUNGE_CIPHER_AES256 toy_key toy_iv
        1).map Prod.fst = .ok (-1)
    ∧ crypt toy_gcry_overrun false toy_raw_ctx MUNGE_CIPHER_BLOWFISH toy_key toy_iv 1
        [[1, 2, 3]] [] 8 = .ok none
    ∧ crypt toy_gcry false toy_raw_ctx MUNGE_CIPHER_BLOWFISH toy_key toy_iv 1
        [[1, 2, 3]] [] 8 = .ok (some [13, 2, 3, 0, 1, 0, 0, 0])
    ∧ crypt toy_gcry true toy_raw_ctx MUNGE_CIPHER_BLOWFISH toy_key toy_iv 0
        [[13, 2, 3, 0, 1, 0, 0, 0]] [] 3 = .ok (some [1, 2, 3]) := by
  exact ⟨rfl, rfl, rfl, rfl, rfl, rfl, rfl, rfl, rfl, rfl⟩

/-- Where the store through `len_ptr` runs over `algo`, `cipher_init` fails
for every cipher and every key and IV: the key length stored first is below
2^32, so `algo` is left 0, and the library has no algorithm 0. -/
theorem init_overrun_fails (E D : Int → List Nat → List Nat → List Nat)
    (blk klen : Int → Nat) (nd : Bool) (x : cipher_ctx cbc_handle) (cipher : Int)
    (key iv : List Nat) (enc : Int) (h0 : blk 0 = 0)
    (hk : klen (cipher_algo cipher) < 4294967296) (henc : enc = 0 ∨ enc = 1) :
    (cipher_init (with_store (gcry_cbc E D blk klen) store_overrun) nd x cipher key iv
        enc).map Prod.fst = .ok (-1) := by
  have hfst : (_cipher_init (with_store (gcry_cbc E D blk klen) store_overrun) x cipher
      key iv enc).1 = -1 := by
    have hdiv : ((klen (cipher_algo cipher) : Nat) : Int) / 4294967296 = 0 :=
      Int.ediv_eq_zero_of_lt (Int.natCast_nonneg _) (by omega)
    have hz : to_int 0 = 0 := rfl
    unfold _cipher_init
    dsimp only [gcry_cbc, store_overrun, with_store]
    unfold cipher_algo at hdiv
    split_ifs <;> simp_all
  unfold cipher_init
  rw [if_neg (fun h => h.2 henc)]
  dsimp only
  rw [if_neg (by rw [hfst]; decide)]
  simp only [Except.map, hfst]

/-- C4 at the plaintext 1, 2, 3 split as 1 | 2, 3 (Blowfish numbering, block
length 8), on the context that `cipher_init` leaves. -/
theorem encrypt_chunking_independent_witness :
    cipher_init toy_gcry false toy_raw_ctx MUNGE_CIPHER_BLOWFISH toy_key toy_iv 1
      = .ok (0, cbc_init_ctx gcry_blk gcry_klen false toy_raw_ctx MUNGE_CIPHER_BLOWFISH
          toy_key toy_iv 1)
    ∧ run toy_gcry false
        (cbc_init_ctx gcry_blk gcry_klen false toy_raw_ctx MUNGE_CIPHER_BLOWFISH toy_key
          toy_iv 1) [[1], [2, 3]] [] 8
      = run toy_gcry false
        (cbc_init_ctx gcry_blk gcry_klen false toy_raw_ctx MUNGE_CIPHER_BLOWFISH toy_key
          toy_iv 1) [[1, 2, 3]] [] 8 :=
  ⟨rfl,
   (encrypt_chunking_independent toy_block toy_block gcry_blk gcry_klen store_exact false 8
    (cbc_init_ctx gcry_blk gcry_klen false toy_raw_ctx MUNGE_CIPHER_BLOWFISH toy_key toy_iv 1)
    ⟨by decide, by decide, by decide, by decide, by decide, by decide,
      fun v h => by simp [toy_block, h]⟩
    (by decide) (fun _ => ⟨rfl, by decide⟩) rfl [[1], [2, 3]] (by decide) [] 8
    (by decide)).2⟩

/-- C9 at the same input: three bytes of plaintext give eight of ciphertext. -/
theorem ciphertext_length_witness :
    ∃ out, run toy_gcry false
        (cbc_init_ctx gcry_blk gcry_klen false toy_raw_ctx MUNGE_CIPHER_BLOWFISH toy_key
          toy_iv 1) [[1], [2, 3]] [] 8 = .ok (some out) ∧ out.length = 8 :=
  (ciphertext_length toy_block toy_block gcry_blk gcry_klen store_exact false 8 3
    (cbc_init_ctx gcry_blk gcry_klen false toy_raw_ctx MUNGE_CIPHER_BLOWFISH toy_key toy_iv 1)
    ⟨by decide, by decide, by decide, by decide, by decide, by decide,
      fun v h => by simp [toy_block, h]⟩
    (by decide) (fun _ => ⟨rfl, by decide⟩) rfl [[1], [2, 3]] (by decide) (by decide) [] 8
    (by decide)).2.imp
    (fun _ h => ⟨h.1, h.2.1⟩)

/-- The round trip at the plaintext 1, 2, 3 with the exact store. -/
theorem round_trip_exact_store_example :
    ∃ C, crypt toy_gcry false toy_raw_ctx MUNGE_CIPHER_BLOWFISH toy_key toy_iv 1
          [[1, 2, 3]] [] 8 = .ok (some C)
      ∧ crypt toy_gcry true toy_raw_ctx MUNGE_CIPHER_BLOWFISH toy_key toy_iv 0 [C] [] 3
          = .ok (some [1, 2, 3]) :=
  round_trip_exact_store toy_block toy_block gcry_blk gcry_klen false true toy_raw_ctx
    toy_raw_ctx MUNGE_CIPHER_BLOWFISH toy_key toy_iv [1, 2, 3] [] [] 8 3 8 (by decide)
    (by decide) (by decide) (by decide) (by decide) (by decide) (by decide) (by decide)
    (fun v h => by simp [toy_block, h]) (fun v _ => by simp [toy_block]) (by decide)
    (by decide)

/-! ### C5: decryption in chunks -/

/-- In a decrypt-mode update whose bytes do not reach beyond the block in
progress, the code arrives at the leftovers section with `n_partial = blklen`
and a non-empty buffer: the assertion `x->len == 0` of line 285 fails. -/
theorem dec_update_short_aborts {σ : Type} (G : Gcry σ) (x : cipher_ctx σ)
    (dst : List Nat) (dstlen : Int) (src : List Nat) (srclen : Int)
    (hdec : x.do_encrypt = 0) (hl0 : 0 < x.len) (hcap : 0 ≤ dstlen)
    (hs0 : 0 < srclen) (hs : srclen ≤ x.blklen - x.len) :
    _cipher_update G false x dst dstlen src srclen = .error 285 := by
  have hmin : MIN srclen (x.blklen - x.len) = srclen := by
    unfold MIN; rw [if_pos hs]
  have hp : update_partial_block G false x dst dstlen src srclen
      = .next ⟨{ x with
                 buf := x.buf.take x.len.toNat ++ memcpy (x.buf.drop x.len.toNat) src srclen
                 len := x.len + srclen },
               [], dst, 0, src.drop srclen.toNat, 0⟩ := by
    unfold update_partial_block
    rw [if_pos (by omega), if_neg (fun h => h.2 (by omega))]
    have hno : ¬ (x.do_encrypt ≠ 0 ∨ (0 : Int) > 0) := by
      rintro (h | h)
      · exact h hdec
      · exact absurd h (by decide)
    simp only [hmin, Int.sub_self, hno, if_false, ite_self]
  have hnp : n_partial_val
      { x with
        buf := x.buf.take x.len.toNat ++ memcpy (x.buf.drop x.len.toNat) src srclen
        len := x.len + srclen } 0 = x.blklen := by
    unfold n_partial_val
    simp [hdec]
  have hbz : x.blklen ≠ 0 := by omega
  rw [update_of_next G false x dst dstlen src srclen _ (by omega) hp hbz]
  simp only
  unfold update_tail
  simp only [hnp]
  unfold update_complete_blocks
  rw [if_neg (by omega)]
  simp only
  unfold update_leftovers
  rw [if_pos (by omega), if_pos ⟨rfl, by simp only; omega⟩]

/-- C5 at the eight-byte ciphertext of the empty plaintext, split into
chunks of three and five bytes: passed whole it decrypts to the empty
plaintext; split, the second `cipher_update` aborts on the assertion of
line 285 in a build with assertions, and in a build without them the
held-back block is overwritten and `cipher_final` returns -1. -/
theorem decrypt_chunking_fails :
    crypt toy_gcry false toy_raw_ctx MUNGE_CIPHER_BLOWFISH toy_key toy_iv 1 [] [] 8
      = .ok (some [0, 15, 14, 13, 12, 11, 10, 9])
    ∧ crypt toy_gcry false toy_raw_ctx MUNGE_CIPHER_BLOWFISH toy_key toy_iv 0
        [[0, 15, 14, 13, 12, 11, 10, 9]] [] 8 = .ok (some [])
    ∧ crypt toy_gcry false toy_raw_ctx MUNGE_CIPHER_BLOWFISH toy_key toy_iv 0
        [[0, 15, 14], [13, 12, 11, 10, 9]] [] 8 = .error 285
    ∧ crypt toy_gcry true toy_raw_ctx MUNGE_CIPHER_BLOWFISH toy_key toy_iv 0
        [[0, 15, 14], [13, 12, 11, 10, 9]] [] 8 = .ok none :=
  ⟨rfl, rfl, rfl, rfl⟩

/-! ### C10: the `-t` option -/

/-- The library call `strtol` on a sign and a non-empty string of digits
whose value fits a `long`. -/
theorem strtol_numeral (long_max errno : Int) (sgn ds : List Nat)
    (hsgn : sgn = [] ∨ sgn = [45] ∨ sgn = [43]) (hne : ds ≠ [])
    (hds : ∀ c ∈ ds, isdigit c = true)
    (hlo : - long_max - 1 ≤ (if sgn = [45] then - digits_value ds else digits_value ds))
    (hhi : (if sgn = [45] then - digits_value ds else digits_value ds) ≤ long_max) :
    strtol long_max errno (sgn ++ ds)
      = ⟨if sgn = [45] then - digits_value ds else digits_value ds, [], errno⟩ := by
  obtain ⟨d, ds', rfl⟩ := List.exists_cons_of_ne_nil hne
  have hd : isdigit d = true := hds d (List.mem_cons_self _ _)
  have hd' : 48 ≤ d ∧ d ≤ 57 := by simpa [isdigit] using hd
  have hsp : isspace d = false := by
    simp only [isspace, Bool.or_eq_false_iff, decide_eq_false_iff_not, Bool.and_eq_false_iff]
    omega
  have htake : List.takeWhile isdigit (d :: ds') = d :: ds' :=
    List.takeWhile_eq_self_iff.mpr hds
  have hdrop : List.dropWhile isdigit (d :: ds') = [] :=
    List.dropWhile_eq_nil_iff.mpr hds
  unfold strtol
  rcases hsgn with h | h | h
  · subst h
    have h45 : ¬ (d = 45) := by omega
    have h43 : ¬ (d = 43) := by omega
    simp only [List.nil_append, List.dropWhile_cons, hsp, Bool.false_eq_true, if_false,
      List.head?_cons, Option.some.injEq, h45, h43, or_self, htake, hdrop,
      List.cons_ne_nil, reduceCtorEq] at hlo hhi ⊢
    rw [if_neg (by omega), if_neg (by omega)]
  · subst h
    have hs45 : isspace 45 = false := by decide
    simp only [List.cons_append, List.nil_append, List.dropWhile_cons, hs45,
      Bool.false_eq_true, if_false, List.head?_cons, true_or, if_true, List.tail_cons, htake,
      hdrop, List.cons_ne_nil] at hlo hhi ⊢
    rw [if_neg (by omega), if_neg (by omega)]
  · subst h
    have hs43 : isspace 43 = false := by decide
    have hne' : ¬ ([43] : List Nat) = [45] := by decide
    have hne2 : ¬ ((43 : Nat) = 45) := by decide
    simp only [List.cons_append, List.nil_append, List.dropWhile_cons, hs43,
      Bool.false_eq_true, if_false, List.head?_cons, Option.some.injEq, hne2, or_true, if_true,
      List.tail_cons, htake, hdrop, List.cons_ne_nil, hne'] at hlo hhi ⊢
    rw [if_neg (by omega), if_neg (by omega)]

/-- The TTL option mapping, where it holds: for a complete decimal integer
`v` that an `int` represents, the value passed to `munge_ctx_set` is
`MUNGE_TTL_MAXIMUM` when `v < 0` and `v` otherwise, unless `v = LONG_MAX` and
errno is `ERANGE` on entry (possible only where `long` is no wider than
`int`). -/
theorem ttl_option_mapping (long_max errno : Int) (sgn ds : List Nat) (v : Int)
    (hsgn : sgn = [] ∨ sgn = [45] ∨ sgn = [43]) (hne : ds ≠ [])
    (hds : ∀ c ∈ ds, isdigit c = true)
    (hv : v = if sgn = [45] then - digits_value ds else digits_value ds)
    (hlo : -2147483648 ≤ v) (hhi : v ≤ 2147483647) (hlong : 2147483647 ≤ long_max)
    (hstale : ¬ (v = long_max ∧ errno = ERANGE)) :
    parse_ttl long_max errno (sgn ++ ds)
      = .ctx_set (if v < 0 then MUNGE_TTL_MAXIMUM else v) errno := by
  have hst := strtol_numeral long_max errno sgn ds hsgn hne hds (by rw [← hv]; omega)
    (by rw [← hv]; omega)
  rw [← hv] at hst
  have hlen : ¬ (([] : List Nat).length = (sgn ++ ds).length ∨ ([] : List Nat) ≠ []) := by
    have : 0 < ds.length := List.length_pos.mpr hne
    simp only [List.length_nil, List.length_append, ne_eq, not_true_eq_false, or_false]
    omega
  have hint : to_int v = v := by unfold to_int; omega
  unfold parse_ttl
  simp only [hst, hint]
  rw [if_neg hlen, if_neg hstale]

/-- C10 at its failing input, where `long` and `int` are both 32 bits
(`LONG_MAX = 2147483647`): the option `-u 4294967296` overflows `strtol` and
leaves errno at `ERANGE`; the option `-t 2147483647` that follows is a
complete decimal integer that an `int` represents, yet the handler takes the
stale errno for an overflow and ends the process on line 371 instead of
passing 2147483647 to `munge_ctx_set`; with errno clear the value is
passed. -/
theorem ttl_stale_errno :
    parse_uid_digits 2147483647 0 [52, 50, 57, 52, 57, 54, 55, 50, 57, 54]
      = .ctx_set 2147483647 ERANGE
    ∧ parse_ttl 2147483647 ERANGE [50, 49, 52, 55, 52, 56, 51, 54, 52, 55]
      = .exit EMUNGE_SNAFU 371
    ∧ parse_ttl 2147483647 0 [50, 49, 52, 55, 52, 56, 51, 54, 52, 55]
      = .ctx_set 2147483647 0 :=
  ⟨rfl, rfl, rfl⟩

/-- The TTL option mapping at `-t -5` with a 64-bit `long`. -/
theorem ttl_option_mapping_example :
    parse_ttl 9223372036854775807 0 ([45] ++ [53])
      = .ctx_set (if (-5 : Int) < 0 then MUNGE_TTL_MAXIMUM else -5) 0 :=
  ttl_option_mapping 9223372036854775807 0 [45] [53] (-5) (by decide) (by decide)
    (by decide) (by decide) (by decide) (by decide) (by decide) (by decide)

/-! ### C11: the exit status of `munge` -/

/-- The function `display_cred` ends the process only with `EMUNGE_SNAFU`. -/
theorem display_cred_exit {κ : Type} (E : Env κ) (cf : conf κ) (e : exit_info)
    (h : display_cred E cf = .error e) : e.status = EMUNGE_SNAFU := by
  unfold display_cred at h
  cases hf : cf.fp_out with
  | none => rw [hf] at h; simp at h
  | some fp =>
    rw [hf] at h
    simp only at h
    split_ifs at h
    simp only [Except.error.injEq] at h
    rw [← h]
    rfl

/-- The function `destroy_conf` ends the process only with `EMUNGE_SNAFU`. -/
theorem destroy_conf_exit {κ : Type} (E : Env κ) (cf : conf κ) (e : exit_info)
    (h : destroy_conf E cf = .error e) : e.status = EMUNGE_SNAFU := by
  unfold destroy_conf at h
  dsimp only at h
  cases hi : cf.fp_in with
  | none =>
    rw [hi] at h
    simp only at h
    cases ho : cf.fp_out with
    | none => rw [ho] at h; simp at h
    | some fp =>
      rw [ho] at h
      simp only at h
      split_ifs at h
      simp only [Except.error.injEq] at h
      rw [← h]
      rfl
  | some fp =>
    rw [hi] at h
    simp only at h
    split_ifs at h
    · simp only [Except.error.injEq] at h
      rw [← h]
      rfl
    · simp only at h
      cases ho : cf.fp_out with
      | none => rw [ho] at h; simp at h
      | some fp =>
        rw [ho] at h
        simp only at h
        split_ifs at h
        simp only [Except.error.injEq] at h
        rw [← h]
        rfl

/-- The exits of `display_cred` and `destroy_conf` in the toy world:
with `-s hi` a failed `fclose` of the output ends the run on line 205 after
the credential was written, unless errno is `EPIPE`; with `-i f` a failed
`fclose` of the input ends it on line 199; a failed `fprintf` ends it on
line 579 with nothing written. -/
theorem main_exit_close_examples :
    main (toy_env_close (-1) 5) 0 [⟨115, [104, 105], 0⟩] none
      = ⟨EMUNGE_SNAFU, 205, some [77, 85, 78, 71, 69, 58, 10]⟩
    ∧ main (toy_env_close (-1) EPIPE) 0 [⟨115, [104, 105], 0⟩] none
      = ⟨0, 159, some [77, 85, 78, 71, 69, 58, 10]⟩
    ∧ main (toy_env_close (-1) EPIPE) 0 [⟨105, [102], 0⟩] none
      = ⟨EMUNGE_SNAFU, 199, some [77, 85, 78, 71, 69, 58, 10]⟩
    ∧ main (toy_env (-1)) 0 [⟨115, [104, 105], 0⟩] none = ⟨EMUNGE_SNAFU, 579, none⟩ :=
  ⟨rfl, rfl, rfl, rfl⟩

/-! ### C12: the compile-time defaults -/

/-- C12: in every build configuration `MUNGE_DEFAULT_MAC` is SHA1 and not
`MUNGE_MAC_NONE`, and `MUNGE_DEFAULT_CIPHER` (CAST5 for OpenSSL without
AES-128-CBC, else AES128) is neither NONE nor DEFAULT and is accepted by
`cipher_map_enum` of each backend that the configuration compiles, whatever
the `dst` argument. -/
theorem default_algorithms_usable (c : build_config) :
    MUNGE_DEFAULT_MAC = MUNGE_MAC_SHA1 ∧ MUNGE_DEFAULT_MAC ≠ MUNGE_MAC_NONE
    ∧ (c.HAVE_OPENSSL = true ∧ c.HAVE_EVP_AES_128_CBC = false →
        MUNGE_DEFAULT_CIPHER c = MUNGE_CIPHER_CAST5)
    ∧ (¬ (c.HAVE_OPENSSL = true ∧ c.HAVE_EVP_AES_128_CBC = false) →
        MUNGE_DEFAULT_CIPHER c = MUNGE_CIPHER_AES128)
    ∧ MUNGE_DEFAULT_CIPHER c ≠ MUNGE_CIPHER_NONE
    ∧ MUNGE_DEFAULT_CIPHER c ≠ MUNGE_CIPHER_DEFAULT
    ∧ (c.HAVE_LIBGCRYPT = true →
        ∀ dst, (cipher_map_enum (MUNGE_DEFAULT_CIPHER c) dst).1 = 0)
    ∧ (c.HAVE_OPENSSL = true →
        ∀ dst, (OpenSSL.cipher_map_enum c (MUNGE_DEFAULT_CIPHER c) dst).1 = 0) := by
  have hd : MUNGE_DEFAULT_CIPHER c = MUNGE_CIPHER_CAST5
      ∨ MUNGE_DEFAULT_CIPHER c = MUNGE_CIPHER_AES128 := by
    unfold MUNGE_DEFAULT_CIPHER
    split_ifs
    · exact Or.inl rfl
    · exact Or.inr rfl
  refine ⟨rfl, by decide, ?_, ?_, ?_, ?_, ?_, ?_⟩
  · rintro ⟨h1, h2⟩
    unfold MUNGE_DEFAULT_CIPHER
    rw [if_pos ⟨h1, by rw [h2]; decide⟩]
  · intro h
    unfold MUNGE_DEFAULT_CIPHER
    rw [if_neg (fun h' => h ⟨h'.1, by simpa using h'.2⟩)]
  · rcases hd with h | h <;> rw [h] <;> decide
  · rcases hd with h | h <;> rw [h] <;> decide
  · intro _ dst
    rcases hd with h | h <;> rw [h] <;> cases dst <;> rfl
  · intro ho dst
    by_cases ha : c.HAVE_EVP_AES_128_CBC = true
    · have h : MUNGE_DEFAULT_CIPHER c = MUNGE_CIPHER_AES128 := by
        unfold MUNGE_DEFAULT_CIPHER
        rw [if_neg (fun h' => h'.2 ha)]
      rw [h]
      unfold OpenSSL.cipher_map_enum OpenSSL._cipher_map_enum
      simp only [ha, true_and]
      cases dst <;> rfl
    · have h : MUNGE_DEFAULT_CIPHER c = MUNGE_CIPHER_CAST5 := by
        unfold MUNGE_DEFAULT_CIPHER
        rw [if_pos ⟨ho, ha⟩]
      rw [h]
      cases dst <;> rfl

/-! ### C13: the builds with and without assertions -/

/-- Contexts that agree outside `magic` and `finalized` differ by a change of
these two fields. -/
theorem same_fields_retag {σ : Type} (x y : cipher_ctx σ) (h : same_fields x y) :
    y = retag y.magic y.finalized x := by
  obtain ⟨c, b, l, bl, d, m0, f0⟩ := x
  obtain ⟨c', b', l', bl', d', m, f⟩ := y
  simp only [same_fields] at h
  obtain ⟨rfl, rfl, rfl, rfl, rfl⟩ := h
  rfl

/-- The helper `_cipher_update_aux` in terms of `aux_core`: it reads the
direction and the handle and writes the handle. -/
theorem aux_mk {σ : Type} (G : Gcry σ) (c : σ) (b : List Nat) (l bl d : Int) (m : Nat)
    (f : Int) (dst : List Nat) (dstlen : Int) (src : Option (List Nat)) (srclen : Int) :
    _cipher_update_aux G ⟨c, b, l, bl, d, m, f⟩ dst dstlen src srclen
      = ⟨(aux_core G d c dst dstlen src srclen).1,
         ⟨(aux_core G d c dst dstlen src srclen).2.1, b, l, bl, d, m, f⟩,
         (aux_core G d c dst dstlen src srclen).2.2.1,
         (aux_core G d c dst dstlen src srclen).2.2.2⟩ := by
  unfold aux_core _cipher_update_aux
  dsimp only
  split_ifs <;> rfl

/-- The partial block section does not look at `magic` and `finalized`. -/
theorem partial_block_retag {σ : Type} (G : Gcry σ) (nd : Bool) (m : Nat) (f : Int)
    (x : cipher_ctx σ) (vdst : List Nat) (dstlen : Int) (vsrc : List Nat) (srclen : Int) :
    update_partial_block G nd (retag m f x) vdst dstlen vsrc srclen
      = (update_partial_block G nd x vdst dstlen vsrc srclen).retag m f := by
  obtain ⟨c, b, l, bl, d, m0, f0⟩ := x
  unfold update_partial_block retag
  dsimp only
  simp only [aux_mk, apply_ite (update_step.retag m f)]
  rfl

/-- Where the partial block section passes its assertions, the build without
assertions does the same. -/
theorem partial_block_release {σ : Type} (G : Gcry σ) (x : cipher_ctx σ)
    (vdst : List Nat) (dstlen : Int) (vsrc : List Nat) (srclen : Int)
    (h : ∀ l, update_partial_block G false x vdst dstlen vsrc srclen ≠ .abort l) :
    update_partial_block G true x vdst dstlen vsrc srclen
      = update_partial_block G false x vdst dstlen vsrc srclen := by
  unfold update_partial_block at h ⊢
  dsimp only at h ⊢
  simp only [Bool.true_eq_false, false_and, if_false, true_and] at h ⊢
  split_ifs at h ⊢ <;> first
    | rfl
    | exact absurd rfl (h _)

/-- The complete blocks section does not look at `magic` and `finalized`. -/
theorem complete_blocks_retag {σ : Type} (G : Gcry σ) (nd : Bool) (m : Nat) (f : Int)
    (s : update_locals σ) (dstlen n_complete : Int) :
    update_complete_blocks G nd { s with x := retag m f s.x } dstlen n_complete
      = (update_complete_blocks G nd s dstlen n_complete).retag m f := by
  obtain ⟨⟨c, b, l, bl, d, m0, f0⟩, o, ds, nw, sr, sl⟩ := s
  unfold update_complete_blocks retag
  dsimp only
  simp only [aux_mk, apply_ite (update_step.retag m f)]
  rfl

/-- Where the complete blocks section passes its assertions, the build without
assertions does the same. -/
theorem complete_blocks_release {σ : Type} (G : Gcry σ) (s : update_locals σ)
    (dstlen n_complete : Int)
    (h : ∀ l, update_complete_blocks G false s dstlen n_complete ≠ .abort l) :
    update_complete_blocks G true s dstlen n_complete
      = update_complete_blocks G false s dstlen n_complete := by
  unfold update_complete_blocks at h ⊢
  dsimp only at h ⊢
  simp only [Bool.true_eq_false, false_and, if_false, true_and] at h ⊢
  split_ifs at h ⊢ <;> first
    | rfl
    | exact absurd rfl (h _)

/-- The leftovers section does not look at `magic` and `finalized`. -/
theorem leftovers_retag {σ : Type} (nd : Bool) (m : Nat) (f : Int)
    (s : update_locals σ) (n_part : Int) :
    update_leftovers nd { s with x := retag m f s.x } n_part
      = (update_leftovers nd s n_part).retag m f := by
  obtain ⟨⟨c, b, l, bl, d, m0, f0⟩, o, ds, nw, sr, sl⟩ := s
  unfold update_leftovers retag
  dsimp only
  simp only [apply_ite (update_step.retag m f)]
  rfl

/-- Where the leftovers section passes its assertions, the build without
assertions does the same. -/
theorem leftovers_release {σ : Type} (s : update_locals σ) (n_part : Int)
    (h : ∀ l, update_leftovers false s n_part ≠ .abort l) :
    update_leftovers true s n_part = update_leftovers false s n_part := by
  unfold update_leftovers at h ⊢
  dsimp only at h ⊢
  simp only [Bool.true_eq_false, false_and, and_false, if_false, true_and] at h ⊢
  split_ifs at h ⊢ <;> first
    | rfl
    | exact absurd rfl (h _)

/-- Lines 259-298 do not look at `magic` and `finalized`. -/
theorem tail_retag {σ : Type} (G : Gcry σ) (nd : Bool) (m : Nat) (f : Int)
    (s1 : update_locals σ) (dstlen n_part : Int) :
    update_tail G nd { s1 with x := retag m f s1.x } dstlen n_part
      = (update_tail G nd s1 dstlen n_part).map (cipher_ret.retag m f) := by
  unfold update_tail
  simp only [complete_blocks_retag]
  cases update_complete_blocks G nd s1 dstlen (s1.srclen - n_part) with
  | abort l => rfl
  | err y d => rfl
  | next s2 =>
    simp only [update_step.retag, leftovers_retag]
    cases update_leftovers nd s2 n_part with
    | abort l => rfl
    | err y d => rfl
    | next s3 => rfl

/-- Where lines 266-298 pass their assertions, the build without assertions
does the same. -/
theorem tail_release {σ : Type} (G : Gcry σ) (s1 : update_locals σ) (dstlen n_part : Int)
    (h : ∀ l, update_tail G false s1 dstlen n_part ≠ .error l) :
    update_tail G true s1 dstlen n_part = update_tail G false s1 dstlen n_part := by
  unfold update_tail at h ⊢
  simp only at h ⊢
  have h2 : ∀ l, update_complete_blocks G false s1 dstlen
      (s1.srclen - n_part) ≠ .abort l := by
    intro l hl
    rw [hl] at h
    exact h l rfl
  rw [complete_blocks_release G s1 dstlen _ h2]
  cases hc : update_complete_blocks G false s1 dstlen
      (s1.srclen - n_part) with
  | abort l => rfl
  | err y d => rfl
  | next s2 =>
    rw [hc] at h
    simp only at h ⊢
    have h3 : ∀ l, update_leftovers false s2 n_part ≠ .abort l := by
      intro l hl
      rw [hl] at h
      exact h l rfl
    rw [leftovers_release s2 _ h3]

/-- The function `_cipher_update` does not look at `magic` and `finalized`. -/
theorem update_retag {σ : Type} (G : Gcry σ) (nd : Bool) (m : Nat) (f : Int)
    (x : cipher_ctx σ) (vdst : List Nat) (dstlen : Int) (vsrc : List Nat) (srclen : Int) :
    _cipher_update G nd (retag m f x) vdst dstlen vsrc srclen
      = (_cipher_update G nd x vdst dstlen vsrc srclen).map (cipher_ret.retag m f) := by
  unfold _cipher_update
  rw [partial_block_retag]
  split_ifs
  · rfl
  · cases update_partial_block G nd x vdst dstlen vsrc srclen with
    | abort l => rfl
    | err y d => rfl
    | next s1 =>
      have hn : update_n_part (retag m f s1.x) s1.srclen = update_n_part s1.x s1.srclen := rfl
      simp only [update_step.retag, hn]
      cases update_n_part s1.x s1.srclen with
      | none => rfl
      | some n => exact tail_retag G nd m f s1 dstlen n

/-- Where `_cipher_update` runs to its return in the build with assertions,
the build without assertions does the same. -/
theorem update_release {σ : Type} (G : Gcry σ) (x : cipher_ctx σ) (vdst : List Nat)
    (dstlen : Int) (vsrc : List Nat) (srclen : Int)
    (h : ∀ l, _cipher_update G false x vdst dstlen vsrc srclen ≠ .error l) :
    _cipher_update G true x vdst dstlen vsrc srclen
      = _cipher_update G false x vdst dstlen vsrc srclen := by
  unfold _cipher_update at h ⊢
  split_ifs at h ⊢ with h0
  · rfl
  · have h1 : ∀ l, update_partial_block G false x vdst dstlen vsrc srclen ≠ .abort l := by
      intro l hl
      rw [hl] at h
      exact h l rfl
    rw [partial_block_release G x vdst dstlen vsrc srclen h1]
    cases hp : update_partial_block G false x vdst dstlen vsrc srclen with
    | abort l => rfl
    | err y d => rfl
    | next s1 =>
      rw [hp] at h
      simp only at h ⊢
      cases hn : update_n_part s1.x s1.srclen with
      | none => rfl
      | some n =>
        rw [hn] at h
        exact tail_release G s1 dstlen n h

/-- The function `_cipher_final` does not look at `magic` and `finalized`. -/
theorem final_retag {σ : Type} (G : Gcry σ) (nd : Bool) (m : Nat) (f : Int)
    (x : cipher_ctx σ) (dst : List Nat) (dstlen : Int) :
    _cipher_final G nd (retag m f x) dst dstlen
      = (_cipher_final G nd x dst dstlen).map (cipher_ret.retag m f) := by
  obtain ⟨c, b, l, bl, d, m0, f0⟩ := x
  unfold _cipher_final retag
  dsimp only
  simp only [aux_mk, apply_ite (Except.map (cipher_ret.retag m f))]
  rfl

/-- Where `_cipher_final` passes its assertion, the build without assertions
does the same. -/
theorem final_release {σ : Type} (G : Gcry σ) (x : cipher_ctx σ) (dst : List Nat)
    (dstlen : Int) (h : ∀ l, _cipher_final G false x dst dstlen ≠ .error l) :
    _cipher_final G true x dst dstlen = _cipher_final G false x dst dstlen := by
  unfold _cipher_final at h ⊢
  dsimp only at h ⊢
  simp only [Bool.true_eq_false, false_and, if_false, true_and] at h ⊢
  split_ifs at h ⊢ <;> first
    | rfl
    | exact absurd rfl (h _)

/-- The function `_cipher_init` does not look at `magic` and `finalized`. -/
theorem init_retag {σ : Type} (G : Gcry σ) (m : Nat) (f : Int) (x : cipher_ctx σ)
    (cipher : Int) (key iv : List Nat) (enc : Int) :
    _cipher_init G (retag m f x) cipher key iv enc
      = ((_cipher_init G x cipher key iv enc).1,
         retag m f (_cipher_init G x cipher key iv enc).2) := by
  obtain ⟨c, b, l, bl, d, m0, f0⟩ := x
  unfold _cipher_init retag
  dsimp only
  split_ifs <;> rfl

/-- Two changes of `magic` and `finalized` on one context agree on the other
fields. -/
theorem same_fields_retag_left {σ : Type} (m : Nat) (f : Int) (m1 : Nat) (f1 : Int)
    (x : cipher_ctx σ) : same_fields (retag m1 f1 x) (retag m f x) :=
  ⟨rfl, rfl, rfl, rfl, rfl⟩

/-- One call that the build with assertions runs to its return returns the
same in the build without assertions, on a context that agrees outside
`magic` and `finalized`. -/
theorem call_release {σ : Type} (G : Gcry σ) (x y : cipher_ctx σ) (c : cipher_call)
    (x1 : cipher_ctx σ) (r : call_result) (hxy : same_fields x y)
    (h : call G false x c = .ok (x1, r)) :
    ∃ y1, call G true y c = .ok (y1, r) ∧ same_fields x1 y1 := by
  rw [same_fields_retag x y hxy]
  generalize y.magic = m
  generalize y.finalized = f
  cases c with
  | init cipher key iv enc =>
    simp only [call, cipher_init, init_retag] at h ⊢
    simp only [Bool.false_eq_true, if_false, if_true, true_and, Bool.true_eq_false,
      false_and, ite_self] at h ⊢
    split_ifs at h with h1 h2
    · simp only [Except.ok.injEq, Prod.mk.injEq] at h
      obtain ⟨rfl, rfl⟩ := h
      exact ⟨_, rfl, rfl, rfl, rfl, rfl, rfl⟩
    · simp only [Except.ok.injEq, Prod.mk.injEq] at h
      obtain ⟨rfl, rfl⟩ := h
      exact ⟨_, rfl, rfl, rfl, rfl, rfl, rfl⟩
  | update dst dstlen src srclen =>
    simp only [call, cipher_update] at h ⊢
    simp only [Bool.true_eq_false, false_and, if_false, true_and] at h ⊢
    split_ifs at h ⊢ with h1 h2 h3
    · simp only [Except.ok.injEq, Prod.mk.injEq] at h
      obtain ⟨rfl, rfl⟩ := h
      exact ⟨_, rfl, rfl, rfl, rfl, rfl, rfl⟩
    · have hne : ∀ l, _cipher_update G false x dst dstlen src srclen ≠ .error l := by
        intro l hl
        rw [hl] at h
        exact absurd h (by simp)
      rw [update_retag, update_release G x dst dstlen src srclen hne]
      cases hu : _cipher_update G false x dst dstlen src srclen with
      | error l => exact absurd hu (hne l)
      | ok r0 =>
        rw [hu] at h
        simp only [Except.ok.injEq, Prod.mk.injEq] at h
        obtain ⟨rfl, rfl⟩ := h
        exact ⟨_, rfl, rfl, rfl, rfl, rfl, rfl⟩
  | final dst dstlen =>
    simp only [call, cipher_final] at h ⊢
    simp only [Bool.true_eq_false, false_and, if_false, true_and, Bool.false_eq_true,
      if_true] at h ⊢
    split_ifs at h with h1 h2
    have hne : ∀ l, _cipher_final G false x dst dstlen ≠ .error l := by
      intro l hl
      rw [hl] at h
      exact absurd h (by simp)
    rw [final_retag, final_release G x dst dstlen hne]
    cases hu : _cipher_final G false x dst dstlen with
    | error l => exact absurd hu (hne l)
    | ok r0 =>
      rw [hu] at h
      simp only [Except.ok.injEq, Prod.mk.injEq] at h
      obtain ⟨rfl, rfl⟩ := h
      exact ⟨_, rfl, rfl, rfl, rfl, rfl, rfl⟩
  | cleanup =>
    simp only [call, cipher_cleanup] at h ⊢
    simp only [Bool.true_eq_false, false_and, if_false, true_and, Bool.false_eq_true,
      if_true] at h ⊢
    split_ifs at h with h1
    simp only [Except.ok.injEq, Prod.mk.injEq] at h
    obtain ⟨rfl, rfl⟩ := h
    exact ⟨_, rfl, rfl, rfl, rfl, rfl, rfl⟩

/-- A sequence of calls that the build with assertions runs to the end returns
the same, call by call, in the build without assertions. -/
theorem calls_release {σ : Type} (G : Gcry σ) (cs : List cipher_call) :
    ∀ (x y x1 : cipher_ctx σ) (rs : List call_result), same_fields x y →
      calls G false cs x = .ok (x1, rs) →
      ∃ y1, calls G true cs y = .ok (y1, rs) ∧ same_fields x1 y1 := by
  induction cs with
  | nil =>
    intro x y x1 rs hxy h
    simp only [calls, Except.ok.injEq, Prod.mk.injEq] at h
    obtain ⟨rfl, rfl⟩ := h
    exact ⟨y, rfl, hxy⟩
  | cons c cs ih =>
    intro x y x1 rs hxy h
    simp only [calls] at h ⊢
    cases hc : call G false x c with
    | error l => rw [hc] at h; exact absurd h (by simp)
    | ok r =>
      obtain ⟨x2, r2⟩ := r
      rw [hc] at h
      simp only at h
      obtain ⟨y2, hy2, hs2⟩ := call_release G x y c x2 r2 hxy hc
      rw [hy2]
      simp only
      cases hcs : calls G false cs x2 with
      | error l => rw [hcs] at h; exact absurd h (by simp)
      | ok q =>
        obtain ⟨x3, rs3⟩ := q
        rw [hcs] at h
        simp only [Except.ok.injEq, Prod.mk.injEq] at h
        obtain ⟨rfl, rfl⟩ := h
        obtain ⟨y3, hy3, hs3⟩ := ih x2 y2 x3 rs3 hs2 hcs
        rw [hy3]
        exact ⟨y3, rfl, hs3⟩

/-- The function `_cipher_init` keeps `magic` and `finalized`. -/
theorem init_tags {σ : Type} (G : Gcry σ) (x : cipher_ctx σ) (cipher : Int)
    (key iv : List Nat) (enc : Int) :
    same_tags x (_cipher_init G x cipher key iv enc).2 := by
  unfold _cipher_init same_tags
  dsimp only
  split_ifs <;> exact ⟨rfl, rfl⟩

/-- Without assertions `_cipher_final` always returns. -/
theorem final_no_abort {σ : Type} (G : Gcry σ) (x : cipher_ctx σ) (dst : List Nat)
    (dstlen : Int) : ∃ r, _cipher_final G true x dst dstlen = .ok r := by
  unfold _cipher_final
  dsimp only
  simp only [Bool.true_eq_false, false_and, if_false]
  split_ifs <;> exact ⟨_, rfl⟩

/-- Without assertions `_cipher_update` returns, unless the block length is
0: then, and only then, it can be stopped, by the division of line 262. -/
theorem update_no_abort {σ : Type} (G : Gcry σ) (x : cipher_ctx σ) (vdst : List Nat)
    (dstlen : Int) (vsrc : List Nat) (srclen : Int) :
    (∀ l, _cipher_update G true x vdst dstlen vsrc srclen = .error l →
        l = 262 ∧ x.blklen = 0)
    ∧ (x.blklen ≠ 0 → ∃ r, _cipher_update G true x vdst dstlen vsrc srclen = .ok r) := by
  have hp : ∀ l, update_partial_block G true x vdst dstlen vsrc srclen ≠ .abort l := by
    intro l
    unfold update_partial_block
    dsimp only
    simp only [Bool.true_eq_false, false_and, if_false]
    split_ifs <;> exact fun h => by cases h
  have hc : ∀ (s : update_locals σ) (n : Int) l,
      update_complete_blocks G true s dstlen n ≠ .abort l := by
    intro s n l
    unfold update_complete_blocks
    dsimp only
    simp only [Bool.true_eq_false, false_and, if_false]
    split_ifs <;> exact fun h => by cases h
  have hv : ∀ (s : update_locals σ) (n : Int) l, update_leftovers true s n ≠ .abort l := by
    intro s n l
    unfold update_leftovers
    dsimp only
    simp only [Bool.true_eq_false, false_and, and_false, if_false]
    split_ifs <;> exact fun h => by cases h
  have key : ∀ (s1 : update_locals σ) (n : Int), ∃ r, update_tail G true s1 dstlen n = .ok r := by
    intro s1 n
    unfold update_tail
    simp only
    cases h2 : update_complete_blocks G true s1 dstlen (s1.srclen - n) with
    | abort l => exact absurd h2 (hc _ _ l)
    | err y d => exact ⟨_, rfl⟩
    | next s2 =>
      simp only
      cases h3 : update_leftovers true s2 n with
      | abort l => exact absurd h3 (hv _ _ l)
      | err y d => exact ⟨_, rfl⟩
      | next s3 => exact ⟨_, rfl⟩
  have hmain : (∃ r, _cipher_update G true x vdst dstlen vsrc srclen = .ok r)
      ∨ (_cipher_update G true x vdst dstlen vsrc srclen = .error 262 ∧ x.blklen = 0) := by
    unfold _cipher_update
    split_ifs
    · exact Or.inl ⟨_, rfl⟩
    · cases h1 : update_partial_block G true x vdst dstlen vsrc srclen with
      | abort l => exact absurd h1 (hp l)
      | err y d => exact Or.inl ⟨_, rfl⟩
      | next s1 =>
        simp only
        have hbl := partial_block_blklen G true x vdst dstlen vsrc srclen s1 h1
        by_cases hb : s1.x.blklen = 0
        · rw [update_n_part_zero _ _ hb]
          exact Or.inr ⟨rfl, hbl.symm.trans hb⟩
        · rw [update_n_part_pos _ _ hb]
          exact Or.inl (key s1 _)
  constructor
  · intro l hl
    rcases hmain with ⟨r, hr⟩ | ⟨h262, hb⟩
    · rw [hr] at hl
      exact absurd hl (by simp)
    · rw [h262] at hl
      simp only [Except.error.injEq] at hl
      exact ⟨hl.symm, hb⟩
  · intro hb
    rcases hmain with h | ⟨_, hb0⟩
    · exact h
    · exact absurd hb0 hb

/-- No assertion of the partial block section is on line 262. -/
theorem partial_block_not_div {σ : Type} (G : Gcry σ) (nd : Bool) (x : cipher_ctx σ)
    (vdst : List Nat) (dstlen : Int) (vsrc : List Nat) (srclen : Int) :
    update_partial_block G nd x vdst dstlen vsrc srclen ≠ .abort 262 := by
  intro h
  unfold update_partial_block at h
  dsimp only at h
  split_ifs at h <;> simp at h

/-- No assertion of the complete blocks section is on line 262. -/
theorem complete_blocks_not_div {σ : Type} (G : Gcry σ) (nd : Bool) (s : update_locals σ)
    (dstlen n_complete : Int) :
    update_complete_blocks G nd s dstlen n_complete ≠ .abort 262 := by
  intro h
  unfold update_complete_blocks at h
  dsimp only at h
  split_ifs at h <;> simp at h

/-- No assertion of the leftovers section is on line 262. -/
theorem leftovers_not_div {σ : Type} (nd : Bool) (s : update_locals σ) (n : Int) :
    update_leftovers nd s n ≠ .abort 262 := by
  intro h
  unfold update_leftovers at h
  dsimp only at h
  split_ifs at h <;> simp at h

/-- Past line 262 `_cipher_update` is not stopped on line 262. -/
theorem tail_not_div {σ : Type} (G : Gcry σ) (nd : Bool) (s1 : update_locals σ)
    (dstlen n : Int) : update_tail G nd s1 dstlen n ≠ .error 262 := by
  intro h
  unfold update_tail at h
  simp only at h
  cases hc : update_complete_blocks G nd s1 dstlen (s1.srclen - n) with
  | abort l =>
    rw [hc] at h
    simp only [Except.error.injEq] at h
    subst h
    exact complete_blocks_not_div G nd s1 dstlen _ hc
  | err y d =>
    rw [hc] at h
    simp at h
  | next s2 =>
    rw [hc] at h
    simp only at h
    cases hl : update_leftovers nd s2 n with
    | abort l =>
      rw [hl] at h
      simp only [Except.error.injEq] at h
      subst h
      exact leftovers_not_div nd s2 n hl
    | err y d =>
      rw [hl] at h
      simp at h
    | next s3 =>
      rw [hl] at h
      simp at h

/-- Where the build with assertions is stopped by the division of line 262,
so is the build without. -/
theorem update_release_div {σ : Type} (G : Gcry σ) (x : cipher_ctx σ) (vdst : List Nat)
    (dstlen : Int) (vsrc : List Nat) (srclen : Int)
    (h : _cipher_update G false x vdst dstlen vsrc srclen = .error 262) :
    _cipher_update G true x vdst dstlen vsrc srclen = .error 262 := by
  unfold _cipher_update at h ⊢
  by_cases h0 : dstlen < 0
  · rw [if_pos h0] at h
    exact absurd h (by simp)
  · rw [if_neg h0] at h ⊢
    cases hp : update_partial_block G false x vdst dstlen vsrc srclen with
    | abort l =>
      rw [hp] at h
      simp only [Except.error.injEq] at h
      subst h
      exact absurd hp (partial_block_not_div G false x vdst dstlen vsrc srclen)
    | err z d =>
      rw [hp] at h
      exact absurd h (by simp)
    | next s1 =>
      have hne : ∀ l, update_partial_block G false x vdst dstlen vsrc srclen ≠ .abort l := by
        intro l hl
        rw [hp] at hl
        exact absurd hl (by simp)
      rw [partial_block_release G x vdst dstlen vsrc srclen hne, hp]
      rw [hp] at h
      simp only at h ⊢
      cases hn : update_n_part s1.x s1.srclen with
      | none => rfl
      | some n =>
        rw [hn] at h
        exact absurd h (tail_not_div G false s1 dstlen n)

/-- One call that no assertion stops, but the division of line 262 does, is
stopped there in the build without assertions too. -/
theorem call_release_div {σ : Type} (G : Gcry σ) (x y : cipher_ctx σ) (c : cipher_call)
    (hxy : same_fields x y) (h : call G false x c = .error 262) :
    call G true y c = .error 262 := by
  rw [same_fields_retag x y hxy]
  generalize y.magic = m
  generalize y.finalized = f
  cases c with
  | init cipher key iv enc =>
    exfalso
    simp only [call] at h
    cases hu : cipher_init G false x cipher key iv enc with
    | ok r0 =>
      rw [hu] at h
      simp at h
    | error l =>
      rw [hu] at h
      simp only [Except.error.injEq] at h
      subst h
      unfold cipher_init at hu
      dsimp only at hu
      split_ifs at hu
      simp at hu
  | update dst dstlen src srclen =>
    simp only [call] at h ⊢
    have hx : cipher_update G false x dst dstlen src srclen = .error 262 := by
      cases hu : cipher_update G false x dst dstlen src srclen with
      | ok r0 =>
        rw [hu] at h
        simp at h
      | error l =>
        rw [hu] at h
        simp only [Except.error.injEq] at h
        rw [h]
    have hu : _cipher_update G false x dst dstlen src srclen = .error 262 ∧ ¬ srclen ≤ 0 := by
      unfold cipher_update at hx
      by_cases h1 : (false = false ∧ ¬ (x.magic = CIPHER_MAGIC))
      · rw [if_pos h1] at hx
        exact absurd hx (by simp)
      · rw [if_neg h1] at hx
        by_cases h2 : (false = false ∧ ¬ (x.finalized ≠ 1))
        · rw [if_pos h2] at hx
          exact absurd hx (by simp)
        · rw [if_neg h2] at hx
          by_cases h3 : srclen ≤ 0
          · rw [if_pos h3] at hx
            exact absurd hx (by simp)
          · rw [if_neg h3] at hx
            exact ⟨hx, h3⟩
    have hrel := update_release_div G x dst dstlen src srclen hu.1
    unfold cipher_update
    rw [if_neg (fun h => absurd h.1 (by decide)), if_neg (fun h => absurd h.1 (by decide)),
      if_neg hu.2, update_retag, hrel]
    rfl
  | final dst dstlen =>
    exfalso
    simp only [call] at h
    cases hx : cipher_final G false x dst dstlen with
    | ok r0 =>
      rw [hx] at h
      simp at h
    | error l =>
      rw [hx] at h
      simp only [Except.error.injEq] at h
      subst h
      unfold cipher_final at hx
      by_cases h1 : (false = false ∧ ¬ (x.magic = CIPHER_MAGIC))
      · rw [if_pos h1] at hx
        exact absurd hx (by simp)
      · rw [if_neg h1] at hx
        by_cases h2 : (false = false ∧ ¬ (x.finalized ≠ 1))
        · rw [if_pos h2] at hx
          exact absurd hx (by simp)
        · rw [if_neg h2] at hx
          have hk := final_keeps G false x dst dstlen
          cases hu : _cipher_final G false x dst dstlen with
          | error l2 =>
            rw [hu] at hx hk
            simp only [Except.error.injEq] at hx
            subst hx
            have hk2 : (262 : Nat) = 338 := hk
            exact absurd hk2 (by decide)
          | ok r0 =>
            rw [hu] at hx
            simp at hx
  | cleanup =>
    exfalso
    simp only [call] at h
    cases hu : cipher_cleanup G false x with
    | ok r0 =>
      rw [hu] at h
      simp at h
    | error l =>
      rw [hu] at h
      simp only [Except.error.injEq] at h
      subst h
      unfold cipher_cleanup at hu
      dsimp only at hu
      split_ifs at hu
      simp at hu

/-- A sequence of calls that no assertion stops, but the division of line 262
does, is stopped there in the build without assertions too. -/
theorem calls_release_div {σ : Type} (G : Gcry σ) (cs : List cipher_call) :
    ∀ (x y : cipher_ctx σ), same_fields x y → calls G false cs x = .error 262 →
      calls G true cs y = .error 262 := by
  induction cs with
  | nil =>
    intro x y hxy h
    simp [calls] at h
  | cons c cs ih =>
    intro x y hxy h
    simp only [calls] at h ⊢
    cases hc : call G false x c with
    | error l =>
      rw [hc] at h
      simp only [Except.error.injEq] at h
      subst h
      rw [call_release_div G x y c hxy hc]
    | ok r =>
      obtain ⟨x2, r2⟩ := r
      rw [hc] at h
      simp only at h
      obtain ⟨y2, hy2, hs2⟩ := call_release G x y c x2 r2 hxy hc
      rw [hy2]
      simp only
      cases hcs : calls G false cs x2 with
      | error l =>
        rw [hcs] at h
        simp only [Except.error.injEq] at h
        subst h
        rw [ih x2 y2 hs2 hcs]
      | ok q =>
        rw [hcs] at h
        simp at h

/-- C13: in a build without assertions (`ndebug = true`) `cipher_init`
returns what `_cipher_init` returns and leaves `magic` and `finalized` as
they were; `cipher_final` returns what `_cipher_final` returns and leaves
`finalized` as it was (and `magic` and the block length); so on the context
that a `cipher_final` left, `cipher_update` (with `srclen > 0`) is
`_cipher_update` and `cipher_final` is `_cipher_final`: the call is passed on
and not rejected.  `cipher_cleanup` leaves `magic` zero, and a
`cipher_update` on the context it left (`srclen > 0`, `*dstlen >= 0`) is
passed on as well: it comes to line 262 with the block length 0 and is
stopped there by the division by zero.  And for every sequence of calls that
the build with assertions runs to the end, from contexts that agree outside
`magic` and `finalized`, the build without assertions returns the same code,
`dst` and `*dstlen` at every call, and the contexts at the end agree outside
`magic` and `finalized`; a sequence that the build with assertions runs up
to a division by zero on line 262 is stopped there in the build without
assertions as well. -/
theorem release_build_refines {σ : Type} (G : Gcry σ) :
    (∀ x cipher key iv enc,
        cipher_init G true x cipher key iv enc = .ok (_cipher_init G x cipher key iv enc)
        ∧ (_cipher_init G x cipher key iv enc).2.magic = x.magic
        ∧ (_cipher_init G x cipher key iv enc).2.finalized = x.finalized)
    ∧ (∀ x dst dstlen, ∃ r, cipher_final G true x dst dstlen = .ok r
        ∧ _cipher_final G true x dst dstlen = .ok r
        ∧ r.x.finalized = x.finalized ∧ r.x.magic = x.magic ∧ r.x.blklen = x.blklen
        ∧ (∀ d n s k, 0 < k →
            cipher_update G true r.x d n s k = _cipher_update G true r.x d n s k)
        ∧ (∀ d n, ∃ r2, cipher_final G true r.x d n = .ok r2
            ∧ _cipher_final G true r.x d n = .ok r2))
    ∧ (∀ x, ∃ rc z, cipher_cleanup G true x = .ok (rc, z) ∧ z.magic = 0
        ∧ (∀ d n s k, 0 < k → 0 ≤ n →
            cipher_update G true z d n s k = _cipher_update G true z d n s k
            ∧ cipher_update G true z d n s k = .error 262))
    ∧ (∀ cs x y x1 rs, same_fields x y → calls G false cs x = .ok (x1, rs) →
        ∃ y1, calls G true cs y = .ok (y1, rs) ∧ same_fields x1 y1)
    ∧ (∀ cs x y, same_fields x y → calls G false cs x = .error 262 →
        calls G true cs y = .error 262) := by
  have hfin : ∀ x dst dstlen, ∃ r, cipher_final G true x dst dstlen = .ok r
      ∧ _cipher_final G true x dst dstlen = .ok r
      ∧ r.x.finalized = x.finalized ∧ r.x.magic = x.magic ∧ r.x.blklen = x.blklen := by
    intro x dst dstlen
    obtain ⟨r, hr⟩ := final_no_abort G x dst dstlen
    have hk := final_keeps G true x dst dstlen
    rw [hr] at hk
    refine ⟨r, ?_, hr, hk.2, hk.1, final_blklen G true x dst dstlen r hr⟩
    unfold cipher_final
    rw [if_neg (fun h => absurd h.1 (by decide)), if_neg (fun h => absurd h.1 (by decide)), hr]
    rfl
  have hpub : ∀ (x : cipher_ctx σ) d n s k, 0 < k →
      cipher_update G true x d n s k = _cipher_update G true x d n s k := by
    intro x d n s k hk
    unfold cipher_update
    rw [if_neg (fun h => absurd h.1 (by decide)),
      if_neg (fun h => absurd h.1 (by decide)), if_neg (by omega)]
  refine ⟨?_, ?_, ?_, ?_, ?_⟩
  · intro x cipher key iv enc
    have ht := init_tags G x cipher key iv enc
    refine ⟨?_, ht.1, ht.2⟩
    unfold cipher_init
    rw [if_neg (fun h => absurd h.1 (by decide))]
    simp only [if_true, ite_self]
  · intro x dst dstlen
    obtain ⟨r, h1, h2, h3, h4, h5⟩ := hfin x dst dstlen
    refine ⟨r, h1, h2, h3, h4, h5, ?_, ?_⟩
    · intro d n s k hk
      exact hpub r.x d n s k hk
    · intro d n
      obtain ⟨r2, h6, h7, _⟩ := hfin r.x d n
      exact ⟨r2, h6, h7⟩
  · intro x
    unfold cipher_cleanup
    rw [if_neg (fun h => absurd h.1 (by decide))]
    refine ⟨_, _, rfl, rfl, ?_⟩
    intro d n s k hk hn
    refine ⟨hpub _ d n s k hk, ?_⟩
    rw [hpub _ d n s k hk]
    exact update_div_zero G true _ d n s k hn (le_refl _) rfl
  · intro cs x y x1 rs hxy h
    exact calls_release G cs x y x1 rs hxy h
  · intro cs x y hxy h
    exact calls_release_div G cs x y hxy h

/-- C13 at one run: `cipher_init` for encryption, a `cipher_update` with three
bytes, `cipher_final` and `cipher_cleanup` return the same codes and bytes in
both builds. -/
theorem release_build_refines_witness :
    ∃ y1, calls toy_gcry true
        [.init MUNGE_CIPHER_BLOWFISH toy_key toy_iv 1, .update [] 8 [1, 2, 3] 3,
         .final [] 8, .cleanup] toy_raw_ctx
      = .ok (y1, [⟨0, [], 0⟩, ⟨0, [], 0⟩, ⟨0, [13, 2, 3, 0, 1, 0, 0, 0], 8⟩, ⟨0, [], 0⟩])
      ∧ same_fields ⟨⟨0, [], []⟩, List.replicate 16 0, 0, 0, 0, CIPHER_MAGIC_NOT, 0⟩ y1 :=
  (release_build_refines toy_gcry).2.2.2.1
    [.init MUNGE_CIPHER_BLOWFISH toy_key toy_iv 1, .update [] 8 [1, 2, 3] 3,
     .final [] 8, .cleanup] toy_raw_ctx toy_raw_ctx _ _ ⟨rfl, rfl, rfl, rfl, rfl⟩ rfl

/-- An update after `cipher_final`, on the CBC backend: the build without
assertions encrypts the eight bytes as one more block, the build with
assertions stops at the assertion of line 93. -/
theorem release_build_after_final :
    (∃ y, calls toy_gcry true
        [.init MUNGE_CIPHER_BLOWFISH toy_key toy_iv 1, .final [] 8,
         .update [] 8 [1, 2, 3, 4, 5, 6, 7, 8] 8] toy_raw_ctx
      = .ok (y, [⟨0, [], 0⟩, ⟨0, [0, 15, 14, 13, 12, 11, 10, 9], 8⟩,
                 ⟨0, [1, 13, 13, 9, 9, 13, 13, 1], 8⟩]))
    ∧ calls toy_gcry false
        [.init MUNGE_CIPHER_BLOWFISH toy_key toy_iv 1, .final [] 8,
         .update [] 8 [1, 2, 3, 4, 5, 6, 7, 8] 8] toy_raw_ctx
      = .error 93 :=
  ⟨⟨_, rfl⟩, rfl⟩

/-- An update after `cipher_cleanup`, which leaves the block length 0, on the
CBC backend: the build without assertions is stopped by the division by zero
of line 262, the build with assertions by the assertion of line 92. -/
theorem release_build_after_cleanup :
    calls toy_gcry true
        [.init MUNGE_CIPHER_BLOWFISH toy_key toy_iv 1, .cleanup,
         .update [] 8 [1, 2, 3] 3] toy_raw_ctx
      = .error 262
    ∧ calls toy_gcry false
        [.init MUNGE_CIPHER_BLOWFISH toy_key toy_iv 1, .cleanup,
         .update [] 8 [1, 2, 3] 3] toy_raw_ctx
      = .error 92 :=
  ⟨rfl, rfl⟩

/-! ### C14: cleanup -/

/-- C14: `cipher_cleanup`, called on a context that passes its assertion,
returns what the backend cleanup returned and leaves every field of the
context zero, except that `magic` is `~CIPHER_MAGIC` in a build with
assertions; in the OpenSSL build this is so when the backend cleanup fails
(return value -1) as well as when it succeeds. -/
theorem cipher_cleanup_zeroizes {σ ε : Type} (G : Gcry σ) (c : build_config)
    (EVP_CIPHER_CTX_cleanup : ε → Int × ε) (null : ε) (nd : Bool) (x : cipher_ctx σ)
    (xo : OpenSSL.cipher_ctx ε) (hx : nd = false → x.magic = CIPHER_MAGIC)
    (hxo : nd = false → xo.magic = CIPHER_MAGIC) :
    cipher_cleanup G nd x
      = .ok ((_cipher_cleanup G x).1,
          ⟨G.null, List.replicate MUNGE_MAXIMUM_BLK_LEN 0, 0, 0, 0,
           if nd then 0 else CIPHER_MAGIC_NOT, 0⟩)
    ∧ OpenSSL.cipher_cleanup c EVP_CIPHER_CTX_cleanup null nd xo
      = .ok ((OpenSSL._cipher_cleanup c EVP_CIPHER_CTX_cleanup xo).1,
          ⟨null, if nd then 0 else CIPHER_MAGIC_NOT, 0⟩)
    ∧ (c.HAVE_EVP_CIPHERINIT_EX = true → (EVP_CIPHER_CTX_cleanup xo.ctx).1 = 0 →
        (OpenSSL._cipher_cleanup c EVP_CIPHER_CTX_cleanup xo).1 = -1)
    ∧ ((EVP_CIPHER_CTX_cleanup xo.ctx).1 ≠ 0 →
        (OpenSSL._cipher_cleanup c EVP_CIPHER_CTX_cleanup xo).1 = 0) := by
  refine ⟨?_, ?_, ?_, ?_⟩
  · unfold cipher_cleanup
    rw [if_neg (fun h => h.2 (hx h.1))]
    cases nd <;> rfl
  · unfold OpenSSL.cipher_cleanup
    rw [if_neg (fun h => h.2 (hxo h.1))]
    cases nd <;> rfl
  · intro h1 h2
    unfold OpenSSL._cipher_cleanup
    simp only [h1, h2, and_self, if_true]
  · intro h
    unfold OpenSSL._cipher_cleanup
    simp only [h, and_false, if_false]

/-- C14 at a context holding three bytes and at an OpenSSL context whose
cleanup fails. -/
theorem cipher_cleanup_zeroizes_witness :
    cipher_cleanup toy_gcry false toy_enc_ctx
      = .ok (0, ⟨⟨0, [], []⟩, List.replicate 16 0, 0, 0, 0, CIPHER_MAGIC_NOT, 0⟩)
    ∧ OpenSSL.cipher_cleanup ⟨false, true, true, true, true⟩ (fun (e : Nat) => ((0 : Int), e)) 0
        false ⟨7, CIPHER_MAGIC, 1⟩
      = .ok (-1, ⟨0, CIPHER_MAGIC_NOT, 0⟩) :=
  ⟨(cipher_cleanup_zeroizes toy_gcry ⟨false, true, true, true, true⟩
      (fun (e : Nat) => ((0 : Int), e)) 0 false toy_enc_ctx ⟨7, CIPHER_MAGIC, 1⟩
      (fun _ => rfl) (fun _ => rfl)).1,
   (cipher_cleanup_zeroizes toy_gcry ⟨false, true, true, true, true⟩
      (fun (e : Nat) => ((0 : Int), e)) 0 false toy_enc_ctx ⟨7, CIPHER_MAGIC, 1⟩
      (fun _ => rfl) (fun _ => rfl)).2.1⟩

/-! ### C15: the retry constants -/

/-- C15: `MUNGE_SOCKET_XFER_ATTEMPTS` is 5, and the product with
`MUNGE_SOCKET_XFER_USLEEP` is below one million microseconds, as the comment
of munge_defs.h line 140 asks. -/
theorem xfer_retry_bound :
    MUNGE_SOCKET_XFER_ATTEMPTS = 5
    ∧ MUNGE_SOCKET_XFER_ATTEMPTS * MUNGE_SOCKET_XFER_USLEEP < 1000000 := by
  decide

/-! ### C16 and C17: the assertions of `_cipher_update` and the partial block buffer -/

/-- The helper `_cipher_update_aux` keeps `len`, `blklen` and `do_encrypt`. -/
theorem aux_len {σ : Type} (G : Gcry σ) (x : cipher_ctx σ) (dst : List Nat) (dstlen : Int)
    (src : Option (List Nat)) (srclen : Int) :
    (_cipher_update_aux G x dst dstlen src srclen).x.len = x.len
    ∧ (_cipher_update_aux G x dst dstlen src srclen).x.blklen = x.blklen
    ∧ (_cipher_update_aux G x dst dstlen src srclen).x.do_encrypt = x.do_encrypt := by
  unfold _cipher_update_aux
  dsimp only
  split_ifs <;> exact ⟨rfl, rfl, rfl⟩

/-- The partial block section: either the buffer is empty afterwards and the
bytes left differ from `len + srclen` by zero or one block, or the buffer was
not empty, no bytes are left and it holds `len + srclen` bytes, a full block
only when decrypting. -/
theorem partial_block_len {σ : Type} (G : Gcry σ) (nd : Bool) (x : cipher_ctx σ)
    (vdst : List Nat) (dstlen : Int) (vsrc : List Nat) (srclen : Int) (s1 : update_locals σ)
    (hl0 : 0 ≤ x.len) (hk : 0 ≤ srclen)
    (h : update_partial_block G nd x vdst dstlen vsrc srclen = .next s1) :
    s1.x.blklen = x.blklen ∧ s1.x.do_encrypt = x.do_encrypt ∧ 0 ≤ s1.srclen
    ∧ ((s1.x.len = 0 ∧ (x.len + srclen = s1.srclen ∨ x.len + srclen = s1.srclen + x.blklen))
      ∨ (s1.srclen = 0 ∧ s1.x.len = x.len + srclen ∧ x.len + srclen ≤ x.blklen
          ∧ 0 < x.len ∧ (x.len + srclen = x.blklen → x.do_encrypt = 0))) := by
  have hmin : (srclen ≤ x.blklen - x.len ∧ MIN srclen (x.blklen - x.len) = srclen)
      ∨ (x.blklen - x.len < srclen ∧ MIN srclen (x.blklen - x.len) = x.blklen - x.len) := by
    unfold MIN
    split_ifs with h1
    · exact Or.inl ⟨h1, rfl⟩
    · exact Or.inr ⟨by omega, rfl⟩
  unfold update_partial_block at h
  dsimp only at h
  generalize MIN srclen (x.blklen - x.len) = np at h hmin
  split_ifs at h with h1 h2 h3 h4 h5 h6
  · simp only [update_step.next.injEq] at h
    subst h
    have ha := aux_len G
      { x with buf := x.buf.take x.len.toNat ++ memcpy (x.buf.drop x.len.toNat) vsrc np
               len := x.len + np } vdst dstlen
      (some (x.buf.take x.len.toNat ++ memcpy (x.buf.drop x.len.toNat) vsrc np)) x.blklen
    simp only at ha ⊢
    refine ⟨ha.2.1, ha.2.2, by omega, Or.inl ⟨trivial, ?_⟩⟩
    simp only at h3
    omega
  · simp only [update_step.next.injEq] at h
    subst h
    simp only at h3 h4 ⊢
    refine ⟨trivial, trivial, by omega, Or.inr ⟨by omega, by omega, by omega, h1, ?_⟩⟩
    intro _
    by_contra hne
    exact h4 (Or.inl hne)
  · simp only [update_step.next.injEq] at h
    subst h
    simp only at h3 ⊢
    refine ⟨trivial, trivial, by omega, Or.inr ⟨by omega, by omega, by omega, h1, ?_⟩⟩
    intro hcontra
    omega
  · simp only [update_step.next.injEq] at h
    subst h
    refine ⟨rfl, rfl, hk, Or.inl ⟨?_, Or.inl ?_⟩⟩ <;> simp only <;> omega

/-- The bytes kept back by an update, for a positive block length and a
non-negative number of bytes: the remainder in encrypt mode, and in decrypt
mode the remainder or, when that is zero, a whole block. -/
theorem n_part_len {σ : Type} (x : cipher_ctx σ) (k : Int) (hb : 0 < x.blklen)
    (hk : 0 ≤ k) :
    (x.do_encrypt ≠ 0 → n_partial_val x k = k % x.blklen)
    ∧ (x.do_encrypt = 0 → 1 ≤ n_partial_val x k ∧ n_partial_val x k ≤ x.blklen) := by
  have ht : Int.tmod k x.blklen = k % x.blklen := Int.tmod_eq_emod hk (le_of_lt hb)
  have h0 : 0 ≤ k % x.blklen := Int.emod_nonneg _ (ne_of_gt hb)
  have h1 : k % x.blklen < x.blklen := Int.emod_lt_of_pos _ hb
  unfold n_partial_val
  simp only [ht]
  constructor
  · intro he
    rw [if_neg (fun h => he h.1)]
  · intro hd
    split_ifs with h
    · omega
    · have : k % x.blklen ≠ 0 := fun h' => h ⟨hd, h'⟩
      omega

/-- The complete blocks section keeps `len`, `blklen` and `do_encrypt`. -/
theorem complete_blocks_len {σ : Type} (G : Gcry σ) (nd : Bool) (s s2 : update_locals σ)
    (dstlen n_complete : Int)
    (h : update_complete_blocks G nd s dstlen n_complete = .next s2) :
    s2.x.len = s.x.len ∧ s2.x.blklen = s.x.blklen ∧ s2.x.do_encrypt = s.x.do_encrypt := by
  unfold update_complete_blocks at h
  dsimp only at h
  split_ifs at h
  · simp only [update_step.next.injEq] at h
    subst h
    exact aux_len G s.x s.dst (dstlen - s.n_written) (some s.src) n_complete
  · simp only [update_step.next.injEq] at h
    subst h
    exact ⟨rfl, rfl, rfl⟩

/-- The leftovers section sets `len` to a positive `n_partial` and keeps it
otherwise. -/
theorem leftovers_len {σ : Type} (nd : Bool) (s s3 : update_locals σ) (n_part : Int)
    (h : update_leftovers nd s n_part = .next s3) :
    s3.x.len = (if n_part > 0 then n_part else s.x.len) ∧ s3.x.blklen = s.x.blklen
    ∧ s3.x.do_encrypt = s.x.do_encrypt := by
  unfold update_leftovers at h
  dsimp only at h
  by_cases h1 : n_part > 0 <;> simp only [h1, if_true, if_false] at h ⊢ <;>
  split_ifs at h
  · simp only [update_step.next.injEq] at h
    subst h
    exact ⟨rfl, rfl, rfl⟩
  · simp only [update_step.next.injEq] at h
    subst h
    exact ⟨rfl, rfl, rfl⟩

/-- Lines 259-298 on success: `len` is the number of bytes kept back when
that is positive, and unchanged otherwise. -/
theorem tail_len {σ : Type} (G : Gcry σ) (nd : Bool) (s1 : update_locals σ)
    (dstlen n_part : Int)
    (r : cipher_ret σ) (h : update_tail G nd s1 dstlen n_part = .ok r) (hrc : r.rc = 0) :
    r.x.len = (if n_part > 0 then n_part else s1.x.len)
    ∧ r.x.blklen = s1.x.blklen ∧ r.x.do_encrypt = s1.x.do_encrypt := by
  unfold update_tail at h
  simp only at h
  cases hc : update_complete_blocks G nd s1 dstlen (s1.srclen - n_part) with
  | abort l => rw [hc] at h; exact absurd h (by simp)
  | err y d =>
    rw [hc] at h
    simp only [Except.ok.injEq] at h
    rw [← h] at hrc
    simp at hrc
  | next s2 =>
    rw [hc] at h
    simp only at h
    have h2 := complete_blocks_len G nd s1 s2 dstlen _ hc
    cases hl : update_leftovers nd s2 n_part with
    | abort l => rw [hl] at h; exact absurd h (by simp)
    | err y d =>
      rw [hl] at h
      simp only [Except.ok.injEq] at h
      rw [← h] at hrc
      simp at hrc
    | next s3 =>
      rw [hl] at h
      simp only [Except.ok.injEq] at h
      have h3 := leftovers_len nd s2 s3 _ hl
      rw [← h]
      simp only
      rw [h3.1, h3.2.1, h3.2.2, h2.1, h2.2.1, h2.2.2]
      exact ⟨rfl, rfl, rfl⟩

/-- One successful `cipher_update` with `srclen >= 0` on a context with
`0 <= len <= blklen` (`len < blklen` in encrypt mode) and a positive block
length: the same holds afterwards; in encrypt mode `len` becomes
`(len + srclen) mod blklen`; in decrypt mode `len >= 1` once a byte has been
fed. -/
theorem update_len {σ : Type} (G : Gcry σ) (nd : Bool) (x : cipher_ctx σ) (dst : List Nat)
    (dstlen : Int) (src : List Nat) (srclen : Int) (r : cipher_ret σ)
    (hb : 0 < x.blklen) (hl0 : 0 ≤ x.len) (hl : x.len ≤ x.blklen)
    (henc : x.do_encrypt ≠ 0 → x.len < x.blklen) (hk : 0 ≤ srclen)
    (h : cipher_update G nd x dst dstlen src srclen = .ok r) (hrc : r.rc = 0) :
    r.x.blklen = x.blklen ∧ r.x.do_encrypt = x.do_encrypt ∧ 0 ≤ r.x.len
    ∧ r.x.len ≤ x.blklen
    ∧ (x.do_encrypt ≠ 0 → r.x.len < x.blklen ∧ r.x.len = (x.len + srclen) % x.blklen)
    ∧ (x.do_encrypt = 0 → 0 < srclen ∨ 0 < x.len → 1 ≤ r.x.len) := by
  unfold cipher_update at h
  split_ifs at h with h1 h2 h3
  · simp only [Except.ok.injEq] at h
    subst h
    have hk0 : srclen = 0 := by omega
    subst hk0
    refine ⟨rfl, rfl, hl0, hl, ?_, ?_⟩
    · intro he
      simp only [add_zero]
      exact ⟨henc he, (Int.emod_eq_of_lt hl0 (henc he)).symm⟩
    · intro _ h'
      simp only at h' ⊢
      omega
  · unfold _cipher_update at h
    split_ifs at h with h4
    · simp only [Except.ok.injEq] at h
      rw [← h] at hrc
      simp at hrc
    · cases hp : update_partial_block G nd x dst dstlen src srclen with
      | abort l => rw [hp] at h; exact absurd h (by simp)
      | err y d =>
        rw [hp] at h
        simp only [Except.ok.injEq] at h
        rw [← h] at hrc
        simp at hrc
      | next s1 =>
        rw [hp] at h
        simp only at h
        obtain ⟨hb1, hd1, hk1, hcase⟩ :=
          partial_block_len G nd x dst dstlen src srclen s1 hl0 hk hp
        have hb1' : 0 < s1.x.blklen := by rw [hb1]; exact hb
        rw [update_n_part_pos _ _ (ne_of_gt hb1')] at h
        simp only at h
        obtain ⟨hlen, hbl, hde⟩ := tail_len G nd s1 dstlen _ r h hrc
        obtain ⟨hne, hnd⟩ := n_part_len s1.x s1.srclen hb1' hk1
        rw [hb1, hd1] at hne hnd
        have hm0 : 0 ≤ s1.srclen % x.blklen := Int.emod_nonneg _ (ne_of_gt hb)
        have hm1 : s1.srclen % x.blklen < x.blklen := Int.emod_lt_of_pos _ hb
        refine ⟨hbl.trans hb1, hde.trans hd1, ?_, ?_, ?_, ?_⟩
        · rw [hlen]
          split_ifs with hpos
          · omega
          · rcases hcase with hc | hc <;> omega
        · rw [hlen]
          split_ifs with hpos
          · by_cases he : x.do_encrypt = 0
            · exact (hnd he).2
            · rw [hne he]; omega
          · rcases hcase with hc | hc <;> omega
        · intro he
          have hnp := hne he
          rw [hlen, hnp]
          rcases hcase with ⟨hz, hc | hc⟩ | ⟨hz, hc1, hc2, _, hc3⟩
          · rw [hc, hz]
            split_ifs with hpos
            · exact ⟨hm1, rfl⟩
            · exact ⟨hb, by omega⟩
          · rw [hc, Int.add_emod_self, hz]
            split_ifs with hpos
            · exact ⟨hm1, rfl⟩
            · exact ⟨hb, by omega⟩
          · have hlt : x.len + srclen < x.blklen := by
              rcases lt_or_eq_of_le hc2 with h' | h'
              · exact h'
              · exact absurd (hc3 h') he
            rw [hz, if_neg (by simp), hc1]
            exact ⟨hlt, (Int.emod_eq_of_lt (by omega) hlt).symm⟩
        · intro hd _
          have hnp := hnd hd
          rw [hlen, if_pos (by omega)]
          exact hnp.1

/-- A successful `_cipher_init` leaves an empty partial block buffer and the
direction asked for. -/
theorem init_len {σ : Type} (G : Gcry σ) (nd : Bool) (x0 : cipher_ctx σ) (cipher : Int)
    (key iv : List Nat) (enc rc : Int) (x : cipher_ctx σ)
    (h : cipher_init G nd x0 cipher key iv enc = .ok (rc, x)) (hrc : 0 ≤ rc) :
    x.len = 0 ∧ x.do_encrypt = enc := by
  have hi : 0 ≤ (_cipher_init G x0 cipher key iv enc).1 →
      (_cipher_init G x0 cipher key iv enc).2.len = 0
      ∧ (_cipher_init G x0 cipher key iv enc).2.do_encrypt = enc := by
    unfold _cipher_init
    dsimp only
    split_ifs <;> first
      | (intro _; exact ⟨rfl, rfl⟩)
      | (intro h'; simp at h')
  unfold cipher_init at h
  dsimp only at h
  generalize _cipher_init G x0 cipher key iv enc = q at h hi
  obtain ⟨q1, q2⟩ := q
  simp only at h hi
  split_ifs at h with h1 h2 h3
  · simp only [Except.ok.injEq, Prod.mk.injEq] at h
    obtain ⟨rfl, rfl⟩ := h
    exact hi h2
  · simp only [Except.ok.injEq, Prod.mk.injEq] at h
    obtain ⟨rfl, rfl⟩ := h
    exact hi h2
  · simp only [Except.ok.injEq, Prod.mk.injEq] at h
    obtain ⟨rfl, rfl⟩ := h
    exact absurd hrc h2

/-- The invariant of `update_len` along a run of successful updates. -/
theorem feed_len {σ : Type} (G : Gcry σ) (nd : Bool) :
    ∀ (chunks : List (List Nat)) (x : cipher_ctx σ) (out dst : List Nat) (cap : Int)
      (y : cipher_ctx σ) (out1 dst1 : List Nat) (cap1 : Int),
      0 < x.blklen → 0 ≤ x.len → x.len ≤ x.blklen →
      (x.do_encrypt ≠ 0 → x.len < x.blklen) →
      feed G nd chunks x out dst cap = .ok (some (y, out1, dst1, cap1)) →
      y.blklen = x.blklen ∧ y.do_encrypt = x.do_encrypt ∧ 0 ≤ y.len ∧ y.len ≤ x.blklen
      ∧ (x.do_encrypt ≠ 0 → y.len < x.blklen
          ∧ y.len = (x.len + ((chunks.map List.length).sum : Nat)) % x.blklen)
      ∧ (x.do_encrypt = 0 → (0 < x.len ∨ ∃ ch ∈ chunks, ch ≠ []) → 1 ≤ y.len) := by
  intro chunks
  induction chunks with
  | nil =>
    intro x out dst cap y out1 dst1 cap1 hb hl0 hl henc h
    simp only [feed, Except.ok.injEq, Option.some.injEq, Prod.mk.injEq] at h
    obtain ⟨rfl, _⟩ := h
    refine ⟨rfl, rfl, hl0, hl, ?_, ?_⟩
    · intro he
      simp only [List.map_nil, List.sum_nil, Nat.cast_zero, add_zero]
      exact ⟨henc he, (Int.emod_eq_of_lt hl0 (henc he)).symm⟩
    · rintro _ (h' | ⟨ch, hch, _⟩)
      · omega
      · exact absurd hch (List.not_mem_nil _)
  | cons c cs ih =>
    intro x out dst cap y out1 dst1 cap1 hb hl0 hl henc h
    simp only [feed] at h
    cases hu : cipher_update G nd x dst cap c c.length with
    | error l => rw [hu] at h; exact absurd h (by simp)
    | ok r =>
      rw [hu] at h
      simp only at h
      split_ifs at h with hrc
      · exact absurd h (by simp)
      · have hrc0 : r.rc = 0 := by
          by_contra hne
          exact hrc hne
        obtain ⟨h1, h2, h3, h4, h5, h6⟩ := update_len G nd x dst cap c c.length r hb hl0 hl henc
          (Int.natCast_nonneg _) hu hrc0
        have hb' : 0 < r.x.blklen := by rw [h1]; exact hb
        have henc' : r.x.do_encrypt ≠ 0 → r.x.len < r.x.blklen := by
          intro he
          rw [h1]
          exact (h5 (by rw [← h2]; exact he)).1
        obtain ⟨g1, g2, g3, g4, g5, g6⟩ := ih r.x _ _ _ y out1 dst1 cap1 hb' h3
          (by rw [h1]; exact h4) henc' h
        refine ⟨g1.trans h1, g2.trans h2, g3, by rw [← h1]; exact g4, ?_, ?_⟩
        · intro he
          have he' : r.x.do_encrypt ≠ 0 := by rw [h2]; exact he
          obtain ⟨k1, k2⟩ := g5 he'
          rw [h1] at k1 k2
          refine ⟨k1, ?_⟩
          rw [k2, (h5 he).2, Int.emod_add_emod]
          simp only [List.map_cons, List.sum_cons, Nat.cast_add]
          rw [add_assoc]
        · intro hd hor
          have hd' : r.x.do_encrypt = 0 := by rw [h2]; exact hd
          apply g6 hd'
          rcases hor with h' | ⟨ch, hch, hne⟩
          · exact Or.inl (by have := h6 hd (Or.inr h'); omega)
          · rcases List.mem_cons.mp hch with rfl | hin
            · have hpos : 0 < (ch.length : Int) := by
                have := List.length_pos.mpr hne
                omega
              exact Or.inl (by have := h6 hd (Or.inl hpos); omega)
            · exact Or.inr ⟨ch, hin, hne⟩

/-- The length of the partial block: after a successful `cipher_init` the
partial block buffer is empty, and after every run of successful
`cipher_update` calls that follows (on any backend that reported a positive
block length) `0 <= len <= blklen`; in encrypt mode `len < blklen` and `len`
is the total number of bytes fed modulo `blklen`; in decrypt mode `len >= 1`
as soon as an update with `srclen > 0` has been made.  This says nothing of
the bytes in the buffer. -/
theorem partial_block_invariant {σ : Type} (G : Gcry σ) (nd : Bool) (x0 : cipher_ctx σ)
    (cipher : Int) (key iv : List Nat) (enc rc : Int) (x : cipher_ctx σ)
    (chunks : List (List Nat)) (dst : List Nat) (cap : Int) (y : cipher_ctx σ)
    (out1 dst1 : List Nat) (cap1 : Int)
    (hinit : cipher_init G nd x0 cipher key iv enc = .ok (rc, x)) (hrc : 0 ≤ rc)
    (hblk : 0 < x.blklen)
    (hfeed : feed G nd chunks x [] dst cap = .ok (some (y, out1, dst1, cap1))) :
    x.len = 0 ∧ y.blklen = x.blklen ∧ 0 ≤ y.len ∧ y.len ≤ y.blklen
    ∧ (enc ≠ 0 → y.len < y.blklen
        ∧ y.len = (((chunks.map List.length).sum : Nat) : Int) % y.blklen)
    ∧ (enc = 0 → (∃ ch ∈ chunks, ch ≠ []) → 1 ≤ y.len) := by
  obtain ⟨hl, hd⟩ := init_len G nd x0 cipher key iv enc rc x hinit hrc
  obtain ⟨g1, g2, g3, g4, g5, g6⟩ := feed_len G nd chunks x [] dst cap y out1 dst1 cap1 hblk
    (by omega) (by omega) (fun _ => by omega) hfeed
  rw [hd] at g5 g6
  refine ⟨hl, g1, g3, by rw [g1]; exact g4, ?_, ?_⟩
  · intro he
    obtain ⟨k1, k2⟩ := g5 he
    rw [hl, zero_add] at k2
    rw [g1]
    exact ⟨k1, k2⟩
  · intro he hex
    exact g6 he (Or.inr hex)

/-- An encryption of 1 | 2, 3 | 4, 5, 6, 7, 8, 9, 10 with block length 8: ten
bytes fed leave two in the buffer. -/
theorem partial_block_invariant_example :
    ∃ y out1 dst1 cap1,
      feed toy_gcry false [[1], [2, 3], [4, 5, 6, 7, 8, 9, 10]]
        ⟨⟨GCRY_CIPHER_BLOWFISH, toy_key, toy_iv⟩, List.replicate 16 0, 0, 8, 1,
          CIPHER_MAGIC, 0⟩ [] [] 8 = .ok (some (y, out1, dst1, cap1))
      ∧ y.len = 2 ∧ y.blklen = 8 :=
  ⟨_, _, _, _, rfl,
    ((partial_block_invariant toy_gcry false toy_raw_ctx MUNGE_CIPHER_BLOWFISH toy_key toy_iv 1 0
      ⟨⟨GCRY_CIPHER_BLOWFISH, toy_key, toy_iv⟩, List.replicate 16 0, 0, 8, 1, CIPHER_MAGIC, 0⟩
      [[1], [2, 3], [4, 5, 6, 7, 8, 9, 10]] [] 8 _ _ _ _ rfl (by decide) (by decide) rfl
      ).2.2.2.2.1 (by decide)).2,
    (partial_block_invariant toy_gcry false toy_raw_ctx MUNGE_CIPHER_BLOWFISH toy_key toy_iv 1 0
      ⟨⟨GCRY_CIPHER_BLOWFISH, toy_key, toy_iv⟩, List.replicate 16 0, 0, 8, 1, CIPHER_MAGIC, 0⟩
      [[1], [2, 3], [4, 5, 6, 7, 8, 9, 10]] [] 8 _ _ _ _ rfl (by decide) (by decide) rfl
      ).2.1⟩

/-- C17 at its failing input: a build without assertions, the decrypt
direction, block length 8 (Blowfish numbering), and the eight-byte ciphertext
13, 2, 3, 0, 1, 0, 0, 0 of the plaintext 1, 2, 3 fed as 3 + 5 bytes, the
second chunk followed in memory by the bytes 21 to 28.  Both updates return
0 and leave `len` where the claim has it (3, then 8 = `blklen`).  But the
second update, having moved its five bytes into the partial block, sets
`n_partial` to `blklen` and copies that many bytes from `src`, which now
points past the chunk, over the block: what is held for `cipher_final` is
21 to 28, not the last block of the input, and `cipher_final` returns -1.
Fed in one update the same ciphertext is held back as it is and
`cipher_final` gives 1, 2, 3.  In the build with assertions the second update
of the split run is stopped by the assertion of line 285. -/
theorem held_block_overwritten :
    (∃ y, calls toy_gcry true
        [.init MUNGE_CIPHER_BLOWFISH toy_key toy_iv 0, .update [] 8 [13, 2, 3] 3] toy_raw_ctx
        = .ok (y, [⟨0, [], 0⟩, ⟨0, [], 0⟩])
      ∧ y.len = 3 ∧ y.blklen = 8 ∧ y.buf.take 3 = [13, 2, 3])
    ∧ (∃ y, calls toy_gcry true
        [.init MUNGE_CIPHER_BLOWFISH toy_key toy_iv 0, .update [] 8 [13, 2, 3] 3,
         .update [] 8 [0, 1, 0, 0, 0, 21, 22, 23, 24, 25, 26, 27, 28] 5] toy_raw_ctx
        = .ok (y, [⟨0, [], 0⟩, ⟨0, [], 0⟩, ⟨0, [], 0⟩])
      ∧ y.len = 8 ∧ y.blklen = 8 ∧ y.buf.take 8 = [21, 22, 23, 24, 25, 26, 27, 28])
    ∧ (∃ y, calls toy_gcry true
        [.init MUNGE_CIPHER_BLOWFISH toy_key toy_iv 0, .update [] 8 [13, 2, 3] 3,
         .update [] 8 [0, 1, 0, 0, 0, 21, 22, 23, 24, 25, 26, 27, 28] 5, .final [] 8]
        toy_raw_ctx
        = .ok (y, [⟨0, [], 0⟩, ⟨0, [], 0⟩, ⟨0, [], 0⟩, ⟨-1, [], 8⟩]))
    ∧ (∃ y, calls toy_gcry true
        [.init MUNGE_CIPHER_BLOWFISH toy_key toy_iv 0,
         .update [] 8 [13, 2, 3, 0, 1, 0, 0, 0] 8] toy_raw_ctx
        = .ok (y, [⟨0, [], 0⟩, ⟨0, [], 0⟩])
      ∧ y.len = 8 ∧ y.blklen = 8 ∧ y.buf.take 8 = [13, 2, 3, 0, 1, 0, 0, 0])
    ∧ (∃ y, calls toy_gcry true
        [.init MUNGE_CIPHER_BLOWFISH toy_key toy_iv 0,
         .update [] 8 [13, 2, 3, 0, 1, 0, 0, 0] 8, .final [] 8] toy_raw_ctx
        = .ok (y, [⟨0, [], 0⟩, ⟨0, [], 0⟩, ⟨0, [1, 2, 3], 3⟩]))
    ∧ calls toy_gcry false
        [.init MUNGE_CIPHER_BLOWFISH toy_key toy_iv 0, .update [] 8 [13, 2, 3] 3,
         .update [] 8 [0, 1, 0, 0, 0, 21, 22, 23, 24, 25, 26, 27, 28] 5] toy_raw_ctx
        = .error 285 :=
  ⟨⟨_, rfl, rfl, rfl, rfl⟩, ⟨_, rfl, rfl, rfl, rfl⟩, ⟨_, rfl⟩, ⟨_, rfl, rfl, rfl, rfl⟩,
    ⟨_, rfl⟩, rfl⟩

/-- On success with a non-NULL source `_cipher_update_aux` reports `srclen`
bytes written. -/
theorem aux_dstlen {σ : Type} (G : Gcry σ) (x : cipher_ctx σ) (dst : List Nat) (dstlen : Int)
    (src : List Nat) (srclen : Int)
    (h : ¬ (_cipher_update_aux G x dst dstlen (some src) srclen).rc < 0) :
    (_cipher_update_aux G x dst dstlen (some src) srclen).dstlen = srclen := by
  unfold _cipher_update_aux at h ⊢
  dsimp only at h ⊢
  generalize (if x.do_encrypt ≠ 0 then G.gcry_cipher_encrypt x.ctx dst dstlen (some src) srclen
    else G.gcry_cipher_decrypt x.ctx dst dstlen (some src) srclen) = e at h ⊢
  split_ifs at h ⊢ with h1 h2
  · exact absurd (show (-1 : Int) < 0 by decide) h
  · rfl
  · exact absurd (Or.inl rfl) h2

/-- The partial block section aborts only on line 239, when `len` exceeds
`blklen`. -/
theorem partial_block_abort {σ : Type} (G : Gcry σ) (x : cipher_ctx σ) (vdst : List Nat)
    (dstlen : Int) (vsrc : List Nat) (srclen : Int) (l : Nat)
    (h : update_partial_block G false x vdst dstlen vsrc srclen = .abort l) :
    l = 239 ∧ ¬ (x.len ≤ x.blklen) := by
  unfold update_partial_block at h
  dsimp only at h
  split_ifs at h with h1 h2 h3 h4 h5 h6
  · simp only [update_step.abort.injEq] at h
    exact ⟨h.symm, h2.2⟩
  · exfalso
    apply h6.2
    rw [aux_dstlen G _ vdst dstlen _ _ h5, (aux_len G _ vdst dstlen _ _).2.1]

/-- The complete blocks section aborts only on line 271 or 272. -/
theorem complete_blocks_abort {σ : Type} (G : Gcry σ) (s : update_locals σ) (dstlen : Int)
    (n_complete : Int) (l : Nat)
    (h : update_complete_blocks G false s dstlen n_complete = .abort l) :
    0 < n_complete ∧ ((l = 271 ∧ s.x.len ≠ 0)
      ∨ (l = 272 ∧ Int.tmod n_complete s.x.blklen ≠ 0)) := by
  unfold update_complete_blocks at h
  dsimp only at h
  split_ifs at h with h1 h2 h3 h4 h5
  · simp only [update_step.abort.injEq] at h
    exact ⟨h1, Or.inl ⟨h.symm, h2.2⟩⟩
  · simp only [update_step.abort.injEq] at h
    exact ⟨h1, Or.inr ⟨h.symm, h3.2⟩⟩
  · exact absurd (aux_dstlen G _ s.dst _ _ _ h4) h5.2

/-- The leftovers section aborts on line 285, 286 or 293, each with its
failed condition. -/
theorem leftovers_abort {σ : Type} (s : update_locals σ) (n_part : Int) (l : Nat)
    (h : update_leftovers false s n_part = .abort l) :
    (l = 285 ∧ 0 < n_part ∧ s.x.len ≠ 0) ∨ (l = 286 ∧ s.x.blklen < n_part)
    ∨ (l = 293 ∧ s.x.do_encrypt = 0 ∧ n_part ≤ 0 ∧ s.x.len ≤ 0) := by
  unfold update_leftovers at h
  dsimp only at h
  split_ifs at h with h1 h2 h3 h4 h5
  · simp only [update_step.abort.injEq] at h
    exact Or.inl ⟨h.symm, h1, h2.2⟩
  · simp only [update_step.abort.injEq] at h
    exact Or.inr (Or.inl ⟨h.symm, by omega⟩)
  · exact absurd h1 h4.2.2
  · simp only [update_step.abort.injEq] at h
    exact Or.inr (Or.inr ⟨h.symm, h5.1, by omega, by omega⟩)

/-- The bytes passed on as complete blocks are a whole number of blocks. -/
theorem n_complete_tmod {σ : Type} (x : cipher_ctx σ) (k : Int) (hb : 0 < x.blklen)
    (hk : 0 ≤ k) : Int.tmod (k - n_partial_val x k) x.blklen = 0 := by
  have ht : Int.tmod k x.blklen = k % x.blklen := Int.tmod_eq_emod hk (le_of_lt hb)
  have hd : x.blklen ∣ k - k % x.blklen := by
    rw [Int.emod_def]
    exact ⟨k / x.blklen, by ring⟩
  apply Int.tmod_eq_zero_of_dvd
  unfold n_partial_val
  simp only [ht]
  split_ifs with h
  · have hk' : x.blklen ∣ k := Int.dvd_of_emod_eq_zero h.2
    exact dvd_sub hk' (dvd_refl _)
  · exact hd

/-- In a build with assertions, on a context within the partial block
invariant and with `srclen > 0`, the only assertion of `_cipher_update` that
can fail is `x->len == 0` on line 285, and it fails only in decrypt mode, on
a non-empty buffer, for a chunk that does not reach beyond the block in
progress. -/
theorem update_abort_only_285 {σ : Type} (G : Gcry σ) (x : cipher_ctx σ) (vdst : List Nat)
    (dstlen : Int) (vsrc : List Nat) (srclen : Int) (l : Nat)
    (hb : 0 < x.blklen) (hl0 : 0 ≤ x.len) (hl : x.len ≤ x.blklen) (hk : 0 < srclen)
    (h : _cipher_update G false x vdst dstlen vsrc srclen = .error l) :
    l = 285 ∧ x.do_encrypt = 0 ∧ 0 < x.len ∧ srclen ≤ x.blklen - x.len := by
  unfold _cipher_update at h
  split_ifs at h with h0
  cases hp : update_partial_block G false x vdst dstlen vsrc srclen with
  | abort l1 => exact absurd hl (partial_block_abort G x vdst dstlen vsrc srclen l1 hp).2
  | err y d => rw [hp] at h; exact absurd h (by simp)
  | next s1 =>
    rw [hp] at h
    simp only at h
    obtain ⟨hb1, hd1, hk1, hcase⟩ :=
      partial_block_len G false x vdst dstlen vsrc srclen s1 hl0 (le_of_lt hk) hp
    have hb1' : 0 < s1.x.blklen := by rw [hb1]; exact hb
    obtain ⟨hne, hnd⟩ := n_part_len s1.x s1.srclen hb1' hk1
    have hm0 : 0 ≤ s1.srclen % s1.x.blklen := Int.emod_nonneg _ (ne_of_gt hb1')
    have hm1 : s1.srclen % s1.x.blklen < s1.x.blklen := Int.emod_lt_of_pos _ hb1'
    have hnp : 0 ≤ n_partial_val s1.x s1.srclen ∧ n_partial_val s1.x s1.srclen ≤ s1.x.blklen := by
      by_cases he : s1.x.do_encrypt = 0
      · have := hnd he
        omega
      · rw [hne he]
        omega
    rw [update_n_part_pos _ _ (ne_of_gt hb1')] at h
    simp only at h
    unfold update_tail at h
    simp only at h
    cases hc : update_complete_blocks G false s1 dstlen
        (s1.srclen - n_partial_val s1.x s1.srclen) with
    | err y d => rw [hc] at h; exact absurd h (by simp)
    | abort l2 =>
      exfalso
      obtain ⟨hpos, h271 | h272⟩ := complete_blocks_abort G s1 dstlen _ l2 hc
      · rcases hcase with hA | hB
        · exact h271.2 hA.1
        · omega
      · exact h272.2 (n_complete_tmod s1.x s1.srclen hb1' hk1)
    | next s2 =>
      rw [hc] at h
      simp only at h
      obtain ⟨g1, g2, g3⟩ := complete_blocks_len G false s1 s2 dstlen _ hc
      cases hv : update_leftovers false s2 (n_partial_val s1.x s1.srclen) with
      | err y d => rw [hv] at h; exact absurd h (by simp)
      | next s3 => rw [hv] at h; exact absurd h (by simp)
      | abort l3 =>
        rw [hv] at h
        simp only [Except.error.injEq] at h
        subst h
        rcases leftovers_abort s2 _ l3 hv with ⟨e1, e2, e3⟩ | ⟨e1, e2⟩ | ⟨e1, e2, e3, e4⟩
        · rw [g1] at e3
          rcases hcase with hA | ⟨hB1, hB2, hB3, hB0, hB4⟩
          · exact absurd hA.1 e3
          · have hdec : x.do_encrypt = 0 := by
              by_contra he
              have hz : n_partial_val s1.x s1.srclen = 0 := by
                rw [hne (by rw [hd1]; exact he), hB1]
                exact Int.zero_emod _
              omega
            exact ⟨e1, hdec, hB0, by omega⟩
        · rw [g2] at e2
          omega
        · rw [g3] at e2
          have := (hnd e2).1
          omega

/-- C16 at its failing input: after a successful `cipher_init` for
decryption with block length 8, a first `cipher_update` with three bytes
succeeds and leaves `len = 3`; the second, with five bytes, sufficient room
at `dst` and a backend that has not failed, stops at the assertion
`x->len == 0` of line 285. -/
theorem update_assertion_fails :
    ∃ x1 r1,
      cipher_init toy_gcry false toy_raw_ctx MUNGE_CIPHER_BLOWFISH toy_key toy_iv 0
        = .ok (0, x1)
      ∧ cipher_update toy_gcry false x1 [] 8 [0, 15, 14] 3 = .ok r1
      ∧ r1.rc = 0 ∧ r1.x.len = 3 ∧ r1.x.blklen = 8
      ∧ cipher_update toy_gcry false r1.x [] 8 [13, 12, 11, 10, 9] 5 = .error 285 :=
  ⟨_, _, rfl, rfl, rfl, rfl, rfl, rfl⟩

/-! ### C18: an update without input -/

/-- C18: `cipher_update` with `srclen <= 0` on a context that passes the
assertions (initialised, not finalized) returns 0 and changes nothing: the
context, the memory at `dst` and `*dstlen` are as before, so `*dstlen` still
holds the capacity the caller passed in. -/
theorem cipher_update_no_input {σ : Type} (G : Gcry σ) (nd : Bool) (x : cipher_ctx σ)
    (dst : List Nat) (dstlen : Int) (src : List Nat) (srclen : Int)
    (hx : nd = false → x.magic = CIPHER_MAGIC ∧ x.finalized ≠ 1) (hs : srclen ≤ 0) :
    cipher_update G nd x dst dstlen src srclen = .ok ⟨0, x, dst, dstlen⟩ := by
  unfold cipher_update
  rw [if_neg (fun h => h.2 (hx h.1).1), if_neg (fun h => h.2 (hx h.1).2), if_pos hs]

/-- C18 at a context holding three bytes, with a capacity of 8 and no
input. -/
theorem cipher_update_no_input_witness :
    cipher_update toy_gcry false toy_enc_ctx [1, 2] 8 [] 0 = .ok ⟨0, toy_enc_ctx, [1, 2], 8⟩ :=
  cipher_update_no_input toy_gcry false toy_enc_ctx [1, 2] 8 [] 0
    (fun _ => ⟨rfl, by decide⟩) (by decide)

/-! ### C19 and C20: `str_to_int` -/

/-- Two strings compare equal under `strcasecmp` exactly when they agree
after `tolower`. -/
theorem strcasecmp_eq_zero (a : List Nat) :
    ∀ b, strcasecmp a b = 0 ↔ a.map tolower = b.map tolower := by
  induction a with
  | nil =>
    intro b
    cases b with
    | nil => simp [strcasecmp]
    | cons b bs => simp [strcasecmp]
  | cons a as ih =>
    intro b
    cases b with
    | nil => simp [strcasecmp]
    | cons b bs =>
      simp only [strcasecmp, List.map_cons, List.cons.injEq]
      split_ifs with h1 h2
      · constructor
        · intro h; exact absurd h (by decide)
        · intro h; omega
      · constructor
        · intro h; exact absurd h (by decide)
        · intro h; omega
      · rw [ih bs]
        constructor
        · intro h; exact ⟨by omega, h⟩
        · intro h; exact h.2

/-- What the loop of `str_to_int` returns: the least index whose entry
matches, or nothing when no entry matches. -/
theorem str_to_int_loop_spec (s : List Nat) :
    ∀ (strings : List (List Nat)) (i : Int),
      (∀ j, str_to_int_loop s strings i = some j →
        ∃ k : Nat, k < strings.length ∧ j = i + k ∧ strcasecmp s (strings.getD k []) = 0
          ∧ ∀ k' : Nat, k' < k → strcasecmp s (strings.getD k' []) ≠ 0)
      ∧ (str_to_int_loop s strings i = none → ∀ q ∈ strings, strcasecmp s q ≠ 0) := by
  intro strings
  induction strings with
  | nil =>
    intro i
    exact ⟨fun j h => by simp [str_to_int_loop] at h, fun _ q hq => absurd hq (List.not_mem_nil _)⟩
  | cons p pp ih =>
    intro i
    simp only [str_to_int_loop]
    by_cases hp : strcasecmp s p = 0
    · rw [if_pos hp]
      refine ⟨?_, fun h => by simp at h⟩
      intro j hj
      simp only [Option.some.injEq] at hj
      refine ⟨0, by simp, by simp [hj], by simpa using hp, fun k' hk' => by omega⟩
    · rw [if_neg hp]
      obtain ⟨ih1, ih2⟩ := ih (i + 1)
      refine ⟨?_, ?_⟩
      · intro j hj
        obtain ⟨k, hk, hjk, hm, hmin⟩ := ih1 j hj
        refine ⟨k + 1, by simp; omega, by push_cast; omega, by simpa using hm, ?_⟩
        intro k' hk'
        cases k' with
        | zero => simpa using hp
        | succ k'' =>
          have := hmin k'' (by omega)
          simpa using this
      · intro h q hq
        rcases List.mem_cons.mp hq with rfl | hin
        · exact hp
        · exact ih2 h q hin

/-- A string that matches a non-empty string is not empty. -/
theorem strcasecmp_ne_nil (a b : List Nat) (h : strcasecmp a b = 0) (ha : a ≠ []) :
    b ≠ [] := by
  intro hb
  subst hb
  cases a with
  | nil => exact ha rfl
  | cons c cs => simp [strcasecmp] at h

/-- C19: `str_to_int` returns -1 or an index below the number of entries
whose entry is not the empty string, whether found by name or given as a
number; for a NULL or empty `s` it returns -1. -/
theorem str_to_int_range (long_max errno : Int) (s : Option (List Nat))
    (strings : List (List Nat)) :
    (str_to_int long_max errno s strings = -1
      ∨ (0 ≤ str_to_int long_max errno s strings
          ∧ str_to_int long_max errno s strings < (strings.length : Int)
          ∧ strings.getD (str_to_int long_max errno s strings).toNat [] ≠ []))
    ∧ (s = none ∨ s = some [] → str_to_int long_max errno s strings = -1) := by
  constructor
  · cases s with
    | none => exact Or.inl rfl
    | some s =>
      unfold str_to_int
      dsimp only
      by_cases hs : s = []
      · rw [if_pos hs]; exact Or.inl rfl
      · rw [if_neg hs]
        cases hm : str_to_int_loop s strings 0 with
        | some j =>
          obtain ⟨k, hk, hjk, hmatch, _⟩ := (str_to_int_loop_spec s strings 0).1 j hm
          simp only [zero_add] at hjk
          subst hjk
          simp only
          refine Or.inr ⟨Int.natCast_nonneg _, by omega, ?_⟩
          simp only [Int.toNat_ofNat]
          exact strcasecmp_ne_nil s _ hmatch hs
        | none =>
          simp only
          split_ifs with h1 h2 h3
          · exact Or.inl rfl
          · exact Or.inl rfl
          · exact Or.inl rfl
          · exact Or.inr ⟨by omega, by omega, h3⟩
  · rintro (rfl | rfl)
    · rfl
    · rfl

/-- The digits of a decimal numeral give back the number. -/
theorem decimal_value (n : Nat) :
    decimal n ≠ [] ∧ (∀ c ∈ decimal n, isdigit c = true)
    ∧ digits_value (decimal n) = (n : Int) := by
  have hfold : ∀ L : List Nat,
      List.foldr (fun (d : Nat) (acc : Int) => 10 * acc + (((d + 48 : Nat) : Int) - 48)) 0 L
        = ((Nat.ofDigits 10 L : Nat) : Int) := by
    intro L
    induction L with
    | nil => simp
    | cons d ds ih =>
      simp only [List.foldr_cons, ih, Nat.ofDigits_cons]
      push_cast
      ring
  unfold decimal
  by_cases hn : n = 0
  · subst hn
    simp only [if_true]
    exact ⟨by decide, by decide, by decide⟩
  · rw [if_neg hn]
    refine ⟨?_, ?_, ?_⟩
    · intro h
      rw [List.map_eq_nil_iff, List.reverse_eq_nil_iff] at h
      exact hn (Nat.digits_eq_nil_iff_eq_zero.mp h)
    · intro c hc
      rw [List.mem_map] at hc
      obtain ⟨d, hd, rfl⟩ := hc
      rw [List.mem_reverse] at hd
      have := Nat.digits_lt_base (by decide : 1 < 10) hd
      simp only [isdigit, Bool.and_eq_true, decide_eq_true_eq]
      omega
    · have hdv : ∀ L : List Nat, digits_value L
          = L.foldl (fun (a : Int) (c : Nat) => 10 * a + ((c : Int) - 48)) 0 := by
        intro L
        unfold digits_value
        generalize (0 : Int) = a0
        induction L generalizing a0 with
        | nil => rfl
        | cons d ds ih => exact ih (10 * a0 + ((d : Int) - 48))
      rw [hdv, List.foldl_map, List.foldl_reverse]
      have := hfold (Nat.digits 10 n)
      rw [Nat.ofDigits_digits] at this
      rw [← this]

/-- A string that matches a string of digits is that string. -/
theorem strcasecmp_digits (ds : List Nat) (hds : ∀ c ∈ ds, isdigit c = true) :
    ∀ q, strcasecmp ds q = 0 → q = ds := by
  induction ds with
  | nil =>
    intro q h
    cases q with
    | nil => rfl
    | cons c cs => simp [strcasecmp] at h
  | cons d ds ih =>
    intro q h
    cases q with
    | nil => simp [strcasecmp] at h
    | cons c cs =>
      have hd := hds d (List.mem_cons_self _ _)
      simp only [isdigit, Bool.and_eq_true, decide_eq_true_eq] at hd
      simp only [strcasecmp] at h
      by_cases h1 : tolower d < tolower c
      · rw [if_pos h1] at h
        exact absurd h (by decide)
      · rw [if_neg h1] at h
        by_cases h2 : tolower c < tolower d
        · rw [if_pos h2] at h
          exact absurd h (by decide)
        · rw [if_neg h2] at h
          have h3 := ih (fun c hc => hds c (List.mem_cons_of_mem _ hc)) cs h
          subst h3
          have hcd : c = d := by
            unfold tolower at h1 h2
            split_ifs at h1 h2 <;> omega
          rw [hcd]

/-- What `display_strings` lists: each non-empty entry with its index. -/
theorem display_strings_loop_mem (name : List Nat) (i : Int) :
    ∀ (strings : List (List Nat)) (i0 : Int),
      (name, i) ∈ display_strings_loop strings i0 ↔
        ∃ k : Nat, k < strings.length ∧ i = i0 + k ∧ strings.getD k [] = name ∧ name ≠ [] := by
  intro strings
  induction strings with
  | nil =>
    intro i0
    simp [display_strings_loop]
  | cons p pp ih =>
    intro i0
    simp only [display_strings_loop]
    constructor
    · intro h
      have hrest : (name, i) ∈ display_strings_loop pp (i0 + 1) →
          ∃ k : Nat, k < (p :: pp).length ∧ i = i0 + k ∧ (p :: pp).getD k [] = name
            ∧ name ≠ [] := by
        intro h'
        obtain ⟨k, hk, hik, hget, hne⟩ := (ih (i0 + 1)).mp h'
        exact ⟨k + 1, by simp; omega, by push_cast; omega, by simpa using hget, hne⟩
      split_ifs at h with hp
      · rcases List.mem_cons.mp h with heq | h'
        · simp only [Prod.mk.injEq] at heq
          obtain ⟨rfl, rfl⟩ := heq
          exact ⟨0, by simp, by simp, by simp, hp⟩
        · exact hrest h'
      · exact hrest h
    · rintro ⟨k, hk, hik, hget, hne⟩
      have hrest : ∀ k' : Nat, k = k' + 1 → (name, i) ∈ display_strings_loop pp (i0 + 1) := by
        intro k' hk'
        subst hk'
        exact (ih (i0 + 1)).mpr ⟨k', by simpa using hk, by push_cast at hik; omega,
          by simpa using hget, hne⟩
      cases k with
      | zero =>
        simp only [List.getD_cons_zero] at hget
        subst hget
        rw [if_pos hne]
        simp only [Nat.cast_zero, add_zero] at hik
        subst hik
        exact List.mem_cons_self _ _
      | succ k' =>
        split_ifs
        · exact List.mem_cons_of_mem _ (hrest k' rfl)
        · exact hrest k' rfl

/-- C20: for every line `name (i)` that `display_strings` prints, that is for
every index `i` whose entry `name` is not empty: `str_to_int` on a string
that equals `name` up to letter case returns the least index whose entry
equals `name` up to letter case, which is `i` when no other entry does; and
`str_to_int` on the decimal numeral of `i` returns `i` provided no entry of
the list is that numeral.  A name match comes first: the first statement
holds also when the string is a numeral.  The list is one an `int` can index
and `LONG_MAX` is at least `2^31 - 1`. -/
theorem str_to_int_accepts_listed (long_max errno : Int) (strings : List (List Nat))
    (name : List Nat) (i : Int) (hlong : 2147483647 ≤ long_max)
    (hlen : (strings.length : Int) ≤ 2147483647)
    (hlisted : (name, i) ∈ display_strings strings) :
    (∃ k : Nat, k < strings.length ∧ i = k ∧ strings.getD k [] = name ∧ name ≠ [])
    ∧ (∀ s, strcasecmp s name = 0 →
        ∃ j : Nat, str_to_int long_max errno (some s) strings = j ∧ (j : Int) ≤ i
          ∧ strcasecmp (strings.getD j []) name = 0
          ∧ (∀ k : Nat, k < j → strcasecmp (strings.getD k []) name ≠ 0)
          ∧ ((∀ k : Nat, k < strings.length → (k : Int) ≠ i →
                strcasecmp (strings.getD k []) name ≠ 0) → (j : Int) = i))
    ∧ ((∀ q ∈ strings, q ≠ decimal i.toNat) →
        str_to_int long_max errno (some (decimal i.toNat)) strings = i) := by
  obtain ⟨k, hk, hik, hget, hne⟩ := (display_strings_loop_mem name i strings 0).mp hlisted
  simp only [zero_add] at hik
  subst hik
  have hmem : name ∈ strings := by
    rw [← hget, List.getD_eq_getElem _ _ hk]
    exact List.getElem_mem _
  refine ⟨⟨k, hk, rfl, hget, hne⟩, ?_, ?_⟩
  · intro s hs
    have hsn : s ≠ [] := by
      intro h
      subst h
      cases name with
      | nil => exact hne rfl
      | cons c cs => simp [strcasecmp] at hs
    have heqv : ∀ p, strcasecmp s p = 0 ↔ strcasecmp p name = 0 := by
      intro p
      rw [strcasecmp_eq_zero, strcasecmp_eq_zero, (strcasecmp_eq_zero s name).mp hs]
      exact eq_comm
    cases hm : str_to_int_loop s strings 0 with
    | none =>
      exact absurd hs ((str_to_int_loop_spec s strings 0).2 hm name hmem)
    | some j0 =>
      obtain ⟨k0, hk0, hj0, hmatch, hmin⟩ := (str_to_int_loop_spec s strings 0).1 j0 hm
      simp only [zero_add] at hj0
      subst hj0
      have hle : k0 ≤ k := by
        by_contra hgt
        exact hmin k (by omega) (by rw [hget]; exact hs)
      refine ⟨k0, ?_, by omega, (heqv _).mp hmatch, ?_, ?_⟩
      · unfold str_to_int
        simp only [if_neg hsn, hm]
      · intro k' hk'
        exact fun h => hmin k' hk' ((heqv _).mpr h)
      · intro hdist
        by_contra hneq
        exact hdist k0 hk0 hneq ((heqv _).mp hmatch)
  · intro hnone
    simp only [Int.toNat_ofNat] at hnone ⊢
    obtain ⟨hd1, hd2, hd3⟩ := decimal_value k
    have hloop : str_to_int_loop (decimal k) strings 0 = none := by
      cases hm : str_to_int_loop (decimal k) strings 0 with
      | none => rfl
      | some j0 =>
        obtain ⟨k0, hk0, _, hmatch, _⟩ := (str_to_int_loop_spec (decimal k) strings 0).1 j0 hm
        have := strcasecmp_digits (decimal k) hd2 _ hmatch
        have hin : strings.getD k0 [] ∈ strings := by
          rw [List.getD_eq_getElem _ _ hk0]
          exact List.getElem_mem _
        exact absurd this (hnone _ hin)
    have hnil : ¬ (([] : List Nat) = [45]) := by decide
    have hst := strtol_numeral long_max errno [] (decimal k) (Or.inl rfl) hd1 hd2
      (by rw [if_neg hnil, hd3]; omega) (by rw [if_neg hnil, hd3]; omega)
    simp only [List.nil_append, hd3] at hst
    rw [if_neg hnil] at hst
    have hint : to_int (k : Int) = k := by unfold to_int; omega
    have hpos : 0 < (decimal k).length := List.length_pos.mpr hd1
    unfold str_to_int
    simp only [if_neg hd1, hloop, hst, hint]
    rw [if_neg (by simp only [List.length_nil, ne_eq, not_true_eq_false, or_false]; omega),
      if_neg (by omega), if_neg (by simp only [Int.toNat_ofNat]; rw [hget]; exact hne)]

/-- C20 at the list `none`, empty, `AES`: the entry `AES (2)` is found under
the name `aes` and under the numeral `2`. -/
theorem str_to_int_accepts_listed_witness :
    (∃ j : Nat, str_to_int 2147483647 0 (some [97, 101, 115]) toy_strings = j ∧ (j : Int) ≤ 2)
    ∧ str_to_int 2147483647 0 (some (decimal (2 : Int).toNat)) toy_strings = 2 :=
  ⟨((str_to_int_accepts_listed 2147483647 0 toy_strings [65, 69, 83] 2 (by decide) (by decide)
      (by decide)).2.1 [97, 101, 115] (by decide)).imp (fun _ h => ⟨h.1, h.2.1⟩),
   (str_to_int_accepts_listed 2147483647 0 toy_strings [65, 69, 83] 2 (by decide) (by decide)
      (by decide)).2.2
      (by show ∀ q ∈ toy_strings, q ≠ decimal 2; norm_num [toy_strings, decimal])⟩

/-- C19 and C20 on examples: a numeral pointing at the empty placeholder is
refused, as are a numeral beyond the list, the empty string and NULL; where an
entry is itself a numeral, the name match decides. -/
theorem str_to_int_examples :
    str_to_int 2147483647 0 (some [49]) toy_strings = -1
    ∧ str_to_int 2147483647 0 (some [51]) toy_strings = -1
    ∧ str_to_int 2147483647 0 (some []) toy_strings = -1
    ∧ str_to_int 2147483647 0 none toy_strings = -1
    ∧ str_to_int 2147483647 0 (some [48]) toy_strings = 0
    ∧ str_to_int 2147483647 0 (some [49]) [[49], [97]] = 0
    ∧ str_to_int 2147483647 0 (some [97, 69, 115]) toy_strings = 2 := by
  decide

/-! ### C21: the input options -/

/-- A conditional returns what one of its branches returns. -/
theorem ok_ite {α : Type} (c : Prop) [Decidable c] (a b : Except exit_info α)
    (P : α → Prop) (ha : c → ∀ x, a = .ok x → P x) (hb : ¬ c → ∀ x, b = .ok x → P x) :
    ∀ x, (if c then a else b) = .ok x → P x := by
  intro x hx
  by_cases hc : c
  · rw [if_pos hc] at hx
    exact ha hc x hx
  · rw [if_neg hc] at hx
    exact hb hc x hx

/-- A step that ends the process returns nothing. -/
theorem ok_error {α : Type} (e : exit_info) (P : α → Prop) :
    ∀ x, (Except.error e : Except exit_info α) = .ok x → P x := by
  intro x hx
  exact absurd hx (by simp)

/-- The selection on a single option that is one of `-n`, `-s`, `-i`. -/
theorem select_input_single (s0 : Option (List Nat) × Option (List Nat)) (o : getopt_ret)
    (h : is_input_opt o = true) :
    select_input s0 [o] = (if o.c = 110 then (none, none)
      else if o.c = 115 then (some o.optarg, none) else (none, some o.optarg)) := by
  simp only [select_input, last_input_opt, List.filter, h, List.getLast?_singleton]

/-- The selection on a single option that is none of `-n`, `-s`, `-i`. -/
theorem select_input_other (s0 : Option (List Nat) × Option (List Nat)) (o : getopt_ret)
    (h : is_input_opt o = false) : select_input s0 [o] = s0 := by
  simp only [select_input, last_input_opt, List.filter, h, List.getLast?_nil]

/-- The selection on a command line is the selection on its tail, begun with
what the first option selects. -/
theorem select_input_cons (s0 : Option (List Nat) × Option (List Nat)) (o : getopt_ret)
    (os : List getopt_ret) :
    select_input s0 (o :: os) = select_input (select_input s0 [o]) os := by
  cases ho : is_input_opt o with
  | false =>
    rw [select_input_other s0 o ho]
    simp only [select_input, last_input_opt, List.filter, ho]
  | true =>
    rw [select_input_single s0 o ho]
    cases hf : List.filter is_input_opt os with
    | nil =>
      simp only [select_input, last_input_opt, List.filter, ho, hf, List.getLast?_singleton,
        List.getLast?_nil]
    | cons b l =>
      simp only [select_input, last_input_opt, List.filter, ho, hf, List.getLast?_cons_cons]
      cases hl : (b :: l).getLast? with
      | none => simp at hl
      | some p => rfl

/-- The selection without an option of the three is the pair it began with. -/
theorem select_input_none (s0 : Option (List Nat) × Option (List Nat))
    (opts : List getopt_ret) (h : last_input_opt opts = none) : select_input s0 opts = s0 := by
  simp only [select_input, h]

/-- The selection leaves at most one of the two set. -/
theorem select_input_one (s0 : Option (List Nat) × Option (List Nat))
    (opts : List getopt_ret) (h : s0.1 = none ∨ s0.2 = none) :
    (select_input s0 opts).1 = none ∨ (select_input s0 opts).2 = none := by
  unfold select_input
  cases last_input_opt opts with
  | none => exact h
  | some o =>
    dsimp only
    split_ifs
    · exact Or.inl rfl
    · exact Or.inr rfl
    · exact Or.inl rfl

/-- A successful `ctx_set_int` changes the context only. -/
theorem ctx_set_int_ok {κ : Type} (E : Env κ) (cf : conf κ) (opt : munge_opt)
    (i errno : Int) (line : Nat) :
    ∀ x, ctx_set_int E cf opt i errno line = .ok x → ∃ k, x.1 = { cf with ctx := k } := by
  unfold ctx_set_int
  refine ok_ite _ _ _ _ (fun _ => ok_error _ _) (fun _ x hx => ?_)
  simp only [Except.ok.injEq] at hx
  exact ⟨_, by rw [← hx]⟩

/-- A successful `-c`, `-m` or `-z` changes the context only. -/
theorem parse_enum_ok {κ : Type} (E : Env κ) (cf : conf κ) (errno : Int)
    (optarg : List Nat) (strings : List (List Nat)) (opt : munge_opt) (line : Nat) :
    ∀ x, parse_enum E cf errno optarg strings opt line = .ok x →
      ∃ k, x.1 = { cf with ctx := k } := by
  unfold parse_enum
  exact ok_ite _ _ _ _ (fun _ => ok_error _ _) (fun _ => ctx_set_int_ok E cf opt _ _ _)

/-- A successful `-u` or `-g` changes the context only. -/
theorem parse_id_ok {κ : Type} (E : Env κ) (cf : conf κ) (errno : Int)
    (optarg : List Nat) (self : Int) (lookup : List Nat → Option Int) (opt : munge_opt)
    (line : Nat) :
    ∀ x, parse_id E cf errno optarg self lookup opt line = .ok x →
      ∃ k, x.1 = { cf with ctx := k } := by
  unfold parse_id parse_uid_digits
  refine ok_ite _ _ _ _ (fun _ => ctx_set_int_ok E cf opt _ _ _) (fun _ => ?_)
  refine ok_ite _ _ _ _ (fun _ => ctx_set_int_ok E cf opt _ _ _) (fun _ => ?_)
  cases lookup optarg with
  | none => exact ok_error _ _
  | some id => exact ctx_set_int_ok E cf opt _ _ _

/-- An option other than `-n`, `-s`, `-i` that changes the context only. -/
theorem option_effect_ctx {κ : Type} (cf : conf κ) (o : getopt_ret)
    (hi : is_input_opt o = false) (r : Except exit_info (conf κ × Int))
    (h : ∀ x, r = .ok x → ∃ k, x.1 = { cf with ctx := k }) :
    ∀ x, r = .ok x → option_effect cf o x.1 := by
  intro x hx
  obtain ⟨k, hk⟩ := h x hx
  rw [hk]
  exact ⟨rfl, rfl, rfl, rfl, fun _ => rfl, (select_input_other _ o hi).symm⟩

/-- What one turn of the option loop does to the input and output fields. -/
theorem parse_option_effect {κ : Type} (E : Env κ) (cf : conf κ) (errno : Int)
    (o : getopt_ret) : ∀ x, parse_option E cf errno o = .ok x → option_effect cf o x.1 := by
  have hin : ∀ n : Nat, o.c = n → n ≠ 110 → n ≠ 115 → n ≠ 105 → is_input_opt o = false := by
    intro n hn h1 h2 h3
    simp only [is_input_opt, hn, Bool.or_eq_false_iff, decide_eq_false_iff_not]
    exact ⟨⟨h1, h2⟩, h3⟩
  unfold parse_option
  refine ok_ite _ _ _ _ (fun _ => ok_error _ _) (fun _ => ?_)
  refine ok_ite _ _ _ _ (fun _ => ok_error _ _) (fun _ => ?_)
  refine ok_ite _ _ _ _ (fun _ => ok_error _ _) (fun _ => ?_)
  refine ok_ite _ _ _ _ (fun hc x hx => ?_) (fun hn => ?_)
  · simp only [Except.ok.injEq] at hx
    rw [← hx]
    refine ⟨rfl, rfl, rfl, rfl, fun _ => rfl, ?_⟩
    rw [select_input_single _ o (by simp [is_input_opt, hc]), if_pos hc]
  refine ok_ite _ _ _ _ (fun hc x hx => ?_) (fun hs => ?_)
  · simp only [Except.ok.injEq] at hx
    rw [← hx]
    refine ⟨rfl, rfl, rfl, rfl, fun _ => rfl, ?_⟩
    rw [select_input_single _ o (by simp [is_input_opt, hc]), if_neg hn, if_pos hc]
  refine ok_ite _ _ _ _ (fun hc x hx => ?_) (fun hi => ?_)
  · simp only [Except.ok.injEq] at hx
    rw [← hx]
    refine ⟨rfl, rfl, rfl, rfl, fun _ => rfl, ?_⟩
    rw [select_input_single _ o (by simp [is_input_opt, hc]), if_neg hn, if_neg hs]
  refine ok_ite _ _ _ _ (fun hc x hx => ?_) (fun _ => ?_)
  · simp only [Except.ok.injEq] at hx
    rw [← hx]
    refine ⟨rfl, rfl, rfl, rfl, fun h => absurd hc h, ?_⟩
    rw [select_input_other _ o (hin 111 hc (by decide) (by decide) (by decide))]
  refine ok_ite _ _ _ _ (fun hc => option_effect_ctx cf o
    (hin 99 hc (by decide) (by decide) (by decide)) _ (parse_enum_ok E cf errno _ _ _ _))
    (fun _ => ?_)
  refine ok_ite _ _ _ _ (fun _ => ok_error _ _) (fun _ => ?_)
  refine ok_ite _ _ _ _ (fun hc => option_effect_ctx cf o
    (hin 109 hc (by decide) (by decide) (by decide)) _ (parse_enum_ok E cf errno _ _ _ _))
    (fun _ => ?_)
  refine ok_ite _ _ _ _ (fun _ => ok_error _ _) (fun _ => ?_)
  refine ok_ite _ _ _ _ (fun hc => option_effect_ctx cf o
    (hin 122 hc (by decide) (by decide) (by decide)) _ (parse_enum_ok E cf errno _ _ _ _))
    (fun _ => ?_)
  refine ok_ite _ _ _ _ (fun _ => ok_error _ _) (fun _ => ?_)
  refine ok_ite _ _ _ _ (fun hc => option_effect_ctx cf o
    (hin 117 hc (by decide) (by decide) (by decide)) _ (parse_id_ok E cf errno _ _ _ _ _))
    (fun _ => ?_)
  refine ok_ite _ _ _ _ (fun hc => option_effect_ctx cf o
    (hin 103 hc (by decide) (by decide) (by decide)) _ (parse_id_ok E cf errno _ _ _ _ _))
    (fun _ => ?_)
  refine ok_ite _ _ _ _ (fun hc => option_effect_ctx cf o
    (hin 116 hc (by decide) (by decide) (by decide)) _ ?_) (fun _ => ?_)
  · cases parse_ttl E.long_max errno o.optarg with
    | exit status l => exact ok_error _ _
    | ctx_set i errno1 => exact ctx_set_int_ok E cf _ _ _ _
  refine ok_ite _ _ _ _ (fun hc => option_effect_ctx cf o
    (hin 83 hc (by decide) (by decide) (by decide)) _ ?_) (fun _ => ?_)
  · refine ok_ite _ _ _ _ (fun _ => ok_error _ _) (fun _ x hx => ?_)
    simp only [Except.ok.injEq] at hx
    exact ⟨_, by rw [← hx]⟩
  refine ok_ite _ _ _ _ (fun _ => ok_ite _ _ _ _ (fun _ => ok_error _ _) (fun _ => ok_error _ _))
    (fun _ => ok_error _ _)

/-- What the option loop does to the input and output fields: the data and
the streams are kept, `fn_out` is kept when there is no `-o`, and `string`
and `fn_in` are those that the last of `-n`, `-s`, `-i` selects. -/
theorem parse_options_effect {κ : Type} (E : Env κ) (opts : List getopt_ret) :
    ∀ (cf : conf κ) (errno : Int) x, parse_options E opts cf errno = .ok x →
      x.1.data = cf.data ∧ x.1.dlen = cf.dlen ∧ x.1.fp_in = cf.fp_in ∧ x.1.fp_out = cf.fp_out
      ∧ ((∀ o ∈ opts, o.c ≠ 111) → x.1.fn_out = cf.fn_out)
      ∧ (x.1.string, x.1.fn_in) = select_input (cf.string, cf.fn_in) opts := by
  induction opts with
  | nil =>
    intro cf errno x hx
    simp only [parse_options, Except.ok.injEq] at hx
    rw [← hx]
    exact ⟨rfl, rfl, rfl, rfl, fun _ => rfl, rfl⟩
  | cons o os ih =>
    intro cf errno x hx
    cases hp : parse_option E cf errno o with
    | error e =>
      simp only [parse_options, hp] at hx
      exact absurd hx (by simp)
    | ok r =>
      simp only [parse_options, hp] at hx
      obtain ⟨h1, h2, h3, h4, h5, h6⟩ := parse_option_effect E cf errno o r hp
      obtain ⟨g1, g2, g3, g4, g5, g6⟩ := ih r.1 r.2 x hx
      refine ⟨g1.trans h1, g2.trans h2, g3.trans h3, g4.trans h4, fun hall => ?_, ?_⟩
      · exact (g5 (fun p hp' => hall p (List.mem_cons_of_mem _ hp'))).trans
          (h5 (hall o (List.mem_cons_self _ _)))
      · rw [g6, h6, ← select_input_cons]

/-- A command line of options `-n`, `-s`, `-i` only is processed to the end,
and changes `string` and `fn_in` only. -/
theorem parse_options_input {κ : Type} (E : Env κ) (opts : List getopt_ret) :
    ∀ (cf : conf κ) (errno : Int), (∀ o ∈ opts, is_input_opt o = true) →
      parse_options E opts cf errno
        = .ok ({ cf with string := (select_input (cf.string, cf.fn_in) opts).1,
                         fn_in := (select_input (cf.string, cf.fn_in) opts).2 }, errno) := by
  induction opts with
  | nil =>
    intro cf errno _
    rfl
  | cons o os ih =>
    intro cf errno hall
    have ho : is_input_opt o = true := hall o (List.mem_cons_self _ _)
    have hos : ∀ p ∈ os, is_input_opt p = true := fun p hp => hall p (List.mem_cons_of_mem _ hp)
    have hc : o.c = 110 ∨ o.c = 115 ∨ o.c = 105 := by
      simpa [is_input_opt, or_assoc] using ho
    have hstep : ∃ cf1 : conf κ, parse_option E cf errno o = .ok (cf1, errno)
        ∧ cf1 = { cf with string := (select_input (cf.string, cf.fn_in) [o]).1,
                          fn_in := (select_input (cf.string, cf.fn_in) [o]).2 } := by
      rw [select_input_single _ o ho]
      rcases hc with h | h | h
      · exact ⟨{ cf with fn_in := none, string := none }, by simp [parse_option, h],
          by simp [h]⟩
      · exact ⟨{ cf with fn_in := none, string := some o.optarg }, by simp [parse_option, h],
          by simp [h]⟩
      · exact ⟨{ cf with fn_in := some o.optarg, string := none }, by simp [parse_option, h],
          by simp [h]⟩
    obtain ⟨cf1, hp, hcf1⟩ := hstep
    simp only [parse_options, hp]
    rw [ih cf1 errno hos, select_input_cons (cf.string, cf.fn_in) o os, hcf1]

/-- What `create_conf` returns. -/
theorem create_conf_ok {κ : Type} (E : Env κ) (cf0 : conf κ) (h : create_conf E = .ok cf0) :
    E.malloc = true ∧ E.munge_ctx_create = some cf0.ctx
    ∧ cf0 = ⟨cf0.ctx, -1, none, some [45], some [45], none, none, 0, none, 0, none⟩ := by
  unfold create_conf at h
  split_ifs at h with hm
  cases hc : E.munge_ctx_create with
  | none => rw [hc] at h; exact absurd h (by simp)
  | some k =>
    rw [hc] at h
    simp only [Except.ok.injEq] at h
    rw [← h]
    exact ⟨by simpa using hm, rfl, rfl⟩

/-- What `open_files` does: the names, the string and the data are kept, and
a name `-` is opened as `stdin` or `stdout`; without input name there is no
input stream. -/
theorem open_files_ok {κ : Type} (E : Env κ) (cf1 cf : conf κ)
    (h : open_files E cf1 = .ok cf) :
    cf.string = cf1.string ∧ cf.fn_in = cf1.fn_in ∧ cf.fn_out = cf1.fn_out
    ∧ cf.data = cf1.data ∧ cf.dlen = cf1.dlen ∧ cf.ctx = cf1.ctx
    ∧ (cf1.fn_in = some [45] → cf.fp_in = some .stdin)
    ∧ (cf1.fn_in = none → cf.fp_in = cf1.fp_in)
    ∧ (cf1.fn_out = some [45] → cf.fp_out = some .stdout) := by
  have hin : ∀ c2, open_files_in E cf1 = .ok c2 →
      c2.string = cf1.string ∧ c2.fn_in = cf1.fn_in ∧ c2.fn_out = cf1.fn_out
      ∧ c2.data = cf1.data ∧ c2.dlen = cf1.dlen ∧ c2.ctx = cf1.ctx
      ∧ (cf1.fn_in = some [45] → c2.fp_in = some .stdin)
      ∧ (cf1.fn_in = none → c2.fp_in = cf1.fp_in) := by
    unfold open_files_in
    cases hf : cf1.fn_in with
    | none =>
      intro c2 h2
      simp only [Except.ok.injEq] at h2
      rw [← h2]
      exact ⟨rfl, hf, rfl, rfl, rfl, rfl, fun h' => absurd h' (by simp), fun _ => rfl⟩
    | some name =>
      dsimp only
      refine ok_ite _ _ _ _ (fun hc c2 h2 => ?_) (fun hc => ?_)
      · simp only [Except.ok.injEq] at h2
        rw [← h2]
        exact ⟨rfl, rfl, rfl, rfl, rfl, rfl, fun _ => rfl, fun h' => absurd h' (by simp)⟩
      · refine ok_ite _ _ _ _ (fun _ c2 h2 => ?_) (fun _ => ok_error _ _)
        simp only [Except.ok.injEq] at h2
        rw [← h2]
        refine ⟨rfl, rfl, rfl, rfl, rfl, rfl, fun h' => ?_, fun h' => absurd h' (by simp)⟩
        simp only [Option.some.injEq] at h'
        exact absurd h' hc
  have hout : ∀ c2 c3 : conf κ, open_files_out E c2 = .ok c3 →
      c3.string = c2.string ∧ c3.fn_in = c2.fn_in ∧ c3.fn_out = c2.fn_out
      ∧ c3.data = c2.data ∧ c3.dlen = c2.dlen ∧ c3.ctx = c2.ctx ∧ c3.fp_in = c2.fp_in
      ∧ (c2.fn_out = some [45] → c3.fp_out = some .stdout) := by
    intro c2
    unfold open_files_out
    cases hf : c2.fn_out with
    | none =>
      intro c3 h3
      simp only [Except.ok.injEq] at h3
      rw [← h3]
      exact ⟨rfl, rfl, hf, rfl, rfl, rfl, rfl, fun h' => absurd h' (by simp)⟩
    | some name =>
      dsimp only
      refine ok_ite _ _ _ _ (fun hc c3 h3 => ?_) (fun hc => ?_)
      · simp only [Except.ok.injEq] at h3
        rw [← h3]
        exact ⟨rfl, rfl, rfl, rfl, rfl, rfl, rfl, fun _ => rfl⟩
      · refine ok_ite _ _ _ _ (fun _ c3 h3 => ?_) (fun _ => ok_error _ _)
        simp only [Except.ok.injEq] at h3
        rw [← h3]
        refine ⟨rfl, rfl, rfl, rfl, rfl, rfl, rfl, fun h' => ?_⟩
        simp only [Option.some.injEq] at h'
        exact absurd h' hc
  unfold open_files at h
  cases h1 : open_files_in E cf1 with
  | error e => rw [h1] at h; exact absurd h (by simp)
  | ok c2 =>
    rw [h1] at h
    simp only at h
    obtain ⟨a1, a2, a3, a4, a5, a6, a7, a8⟩ := hin c2 h1
    obtain ⟨b1, b2, b3, b4, b5, b6, b7, b8⟩ := hout c2 cf h
    refine ⟨b1.trans a1, b2.trans a2, b3.trans a3, b4.trans a4, b5.trans a5, b6.trans a6,
      fun h' => b7.trans (a7 h'), fun h' => b7.trans (a8 h'), fun h' => b8 (a3.trans h')⟩

/-- What `parse_cmdline` returns is what the option loop returned. -/
theorem parse_cmdline_ok {κ : Type} (E : Env κ) (cf : conf κ) (errno : Int)
    (opts : List getopt_ret) (rest : Option (List Nat)) (x : conf κ × Int)
    (h : parse_cmdline E cf errno opts rest = .ok x) :
    parse_options E opts cf errno = .ok x ∧ rest = none := by
  unfold parse_cmdline at h
  cases hp : parse_options E opts cf errno with
  | error e => rw [hp] at h; exact absurd h (by simp)
  | ok r =>
    rw [hp] at h
    simp only at h
    split_ifs at h with hr
    simp only [Except.ok.injEq] at h
    refine ⟨by rw [h], ?_⟩
    cases rest with
    | none => rfl
    | some s => exact absurd rfl hr

/-- The steps of a start of `main` that gets to the input. -/
theorem main_startup_ok {κ : Type} (E : Env κ) (errno : Int) (opts : List getopt_ret)
    (rest : Option (List Nat)) (cf : conf κ) (e1 : Int)
    (h : main_startup E errno opts rest = .ok (cf, e1)) :
    ∃ cf0 cf1, create_conf E = .ok cf0 ∧ parse_cmdline E cf0 errno opts rest = .ok (cf1, e1)
      ∧ open_files E cf1 = .ok cf := by
  unfold main_startup at h
  split_ifs at h
  cases h0 : create_conf E with
  | error e => rw [h0] at h; exact absurd h (by simp)
  | ok cf0 =>
    rw [h0] at h
    simp only at h
    cases h1 : parse_cmdline E cf0 errno opts rest with
    | error e => rw [h1] at h; exact absurd h (by simp)
    | ok r =>
      rw [h1] at h
      simp only at h
      cases h2 : open_files E r.1 with
      | error e => rw [h2] at h; exact absurd h (by simp)
      | ok cf2 =>
        rw [h2] at h
        simp only [Except.ok.injEq, Prod.mk.injEq] at h
        refine ⟨cf0, r.1, rfl, ?_, ?_⟩
        · rw [← h.2]
          exact h1
        · rw [h2, h.1]

/-- The function `main` is its start followed by lines 137-159 on what was
read. -/
theorem main_eq_finish {κ : Type} (E : Env κ) (errno : Int) (opts : List getopt_ret)
    (rest : Option (List Nat)) (cf : conf κ) (e1 : Int)
    (h : main_startup E errno opts rest = .ok (cf, e1)) :
    main E errno opts rest = main_finish E cf (main_read E cf e1) := by
  unfold main main_finish
  rw [h]

/-- C21: `create_conf` returns `string = NULL`, `fn_in = "-"`, `fn_out = "-"`
and no data.  A command line of `-n`, `-s` and `-i` options is processed by
`parse_cmdline` to the end and changes only `string` and `fn_in`, which are
those of the last such option alone: neither for `-n`, `string = STR` for
`-s STR`, `fn_in = FILE` for `-i FILE`.  On every command line that
`parse_cmdline` accepts, other options included, `string` and `fn_in` are
those of the last such option, and at most one of them is non-NULL when this
was so before.  In `main`, once the files are open: `string` and `fn_in` are
those selected from the defaults of `create_conf`; with no such option the
payload is read from `stdin`; with no `-o` the credential is printed to
`stdout`; and when the last such option is `-n` nothing is read and
`munge_encode` receives `data = NULL` and `dlen = 0`.  The run without
options always gets that far. -/
theorem input_source_selection {κ : Type} (E : Env κ) (errno : Int) :
    (∀ cf0, create_conf E = .ok cf0 →
        cf0.string = none ∧ cf0.fn_in = some [45] ∧ cf0.fn_out = some [45]
        ∧ cf0.data = none ∧ cf0.dlen = 0)
    ∧ (∀ (cf : conf κ) (opts : List getopt_ret), (∀ o ∈ opts, is_input_opt o = true) →
        parse_cmdline E cf errno opts none
          = .ok ({ cf with string := (select_input (cf.string, cf.fn_in) opts).1,
                           fn_in := (select_input (cf.string, cf.fn_in) opts).2 }, errno))
    ∧ (∀ (cf cf1 : conf κ) (opts : List getopt_ret) (rest : Option (List Nat)) (e1 : Int),
        parse_cmdline E cf errno opts rest = .ok (cf1, e1) →
        (cf1.string, cf1.fn_in) = select_input (cf.string, cf.fn_in) opts
        ∧ (cf.string = none ∨ cf.fn_in = none → cf1.string = none ∨ cf1.fn_in = none))
    ∧ (∀ (opts : List getopt_ret) (rest : Option (List Nat)) (cf : conf κ) (e1 : Int),
        main_startup E errno opts rest = .ok (cf, e1) →
        main E errno opts rest = main_finish E cf (main_read E cf e1)
        ∧ (cf.string, cf.fn_in) = select_input (none, some [45]) opts
        ∧ (cf.string = none ∨ cf.fn_in = none)
        ∧ (last_input_opt opts = none →
            main_read E cf e1 = E.read_data_from_file (some .stdin))
        ∧ ((∀ o ∈ opts, o.c ≠ 111) → ∀ rd en,
            display_cred E (main_conf cf rd en)
              = if E.fprintf .stdout (en.cred.getD [] ++ [10]) < 0
                then .error (log_exit EMUNGE_SNAFU 579)
                else .ok (some (en.cred.getD [] ++ [10])))
        ∧ (∀ o, last_input_opt opts = some o → o.c = 110 →
            main_read E cf e1 = ⟨0, none, 0, e1⟩
            ∧ main E errno opts rest = main_finish E cf ⟨0, none, 0, e1⟩))
    ∧ (E.posignal = true → E.malloc = true → ∀ k, E.munge_ctx_create = some k →
        main_startup E errno [] none
          = .ok (⟨k, -1, none, some [45], some [45], some .stdin, some .stdout, 0, none, 0,
                  none⟩, errno)) := by
  refine ⟨?_, ?_, ?_, ?_, ?_⟩
  · intro cf0 h0
    obtain ⟨_, _, h⟩ := create_conf_ok E cf0 h0
    rw [h]
    exact ⟨rfl, rfl, rfl, rfl, rfl⟩
  · intro cf opts hall
    unfold parse_cmdline
    rw [parse_options_input E opts cf errno hall]
    rfl
  · intro cf cf1 opts rest e1 h
    obtain ⟨hp, _⟩ := parse_cmdline_ok E cf errno opts rest _ h
    obtain ⟨_, _, _, _, _, h6⟩ := parse_options_effect E opts cf errno _ hp
    refine ⟨h6, fun hone => ?_⟩
    have hsel := select_input_one (cf.string, cf.fn_in) opts hone
    rw [← h6] at hsel
    exact hsel
  · intro opts rest cf e1 h
    obtain ⟨cf0, cf1, h0, h1, h2⟩ := main_startup_ok E errno opts rest cf e1 h
    obtain ⟨_, _, hc0⟩ := create_conf_ok E cf0 h0
    obtain ⟨hp, _⟩ := parse_cmdline_ok E cf0 errno opts rest _ h1
    obtain ⟨p1, p2, p3, p4, p5, p6⟩ := parse_options_effect E opts cf0 errno _ hp
    obtain ⟨q1, q2, q3, q4, q5, _, q7, q8, q9⟩ := open_files_ok E cf1 cf h2
    have hs0 : cf0.string = none := by rw [hc0]
    have hf0 : cf0.fn_in = some [45] := by rw [hc0]
    have ho0 : cf0.fn_out = some [45] := by rw [hc0]
    have hd0 : cf0.data = none := by rw [hc0]
    have hl0 : cf0.dlen = 0 := by rw [hc0]
    have hsel : (cf.string, cf.fn_in) = select_input (none, some [45]) opts := by
      rw [q1, q2, ← hs0, ← hf0]
      exact p6
    have hone : cf.string = none ∨ cf.fn_in = none := by
      have hsel1 := select_input_one (none, some [45]) opts (Or.inl rfl)
      rw [← hsel] at hsel1
      exact hsel1
    have hmain := main_eq_finish E errno opts rest cf e1 h
    refine ⟨hmain, hsel, hone, fun hnone => ?_, fun hall rd en => ?_, fun o hlast hn => ?_⟩
    · rw [select_input_none _ opts hnone] at hsel
      simp only [Prod.mk.injEq] at hsel
      have hin1 : cf1.fn_in = some [45] := by rw [← q2]; exact hsel.2
      unfold main_read
      rw [hsel.1, hsel.2, q7 hin1]
    · have hout1 : cf1.fn_out = some [45] := (p5 hall).trans ho0
      have hfp : (main_conf cf rd en).fp_out = some .stdout := q9 hout1
      unfold display_cred
      rw [hfp]
      rfl
    · have hsel2 : (cf.string, cf.fn_in) = (none, none) := by
        rw [hsel]
        unfold select_input
        rw [hlast]
        simp only [hn, if_true]
      simp only [Prod.mk.injEq] at hsel2
      have hrd : main_read E cf e1 = ⟨0, none, 0, e1⟩ := by
        unfold main_read
        rw [hsel2.1, hsel2.2, q4, q5, p1, p2, hd0, hl0]
      exact ⟨hrd, by rw [hmain, hrd]⟩
  · intro hp hm k hk
    have hp1 : ¬ (E.posignal = false) := by simp [hp]
    have hm1 : ¬ (E.malloc = false) := by simp [hm]
    unfold main_startup create_conf
    rw [if_neg hp1, if_neg hm1, hk]
    rfl

/-- C21 at the run `munge -i f -s hi -n` in a world where every call
succeeds: the last of the three options is `-n`, so nothing is read and
`munge_encode` receives no data. -/
theorem input_source_selection_witness :
    main_read (toy_env 0)
        ⟨(), -1, none, none, some [45], none, some .stdout, 0, none, 0, none⟩ 0
      = ⟨0, none, 0, 0⟩
    ∧ main (toy_env 0) 0 [⟨105, [102], 0⟩, ⟨115, [104, 105], 0⟩, ⟨110, [], 0⟩] none
      = main_finish (toy_env 0)
          ⟨(), -1, none, none, some [45], none, some .stdout, 0, none, 0, none⟩
          ⟨0, none, 0, 0⟩ :=
  ((input_source_selection (toy_env 0) 0).2.2.2.1
    [⟨105, [102], 0⟩, ⟨115, [104, 105], 0⟩, ⟨110, [], 0⟩] none
    ⟨(), -1, none, none, some [45], none, some .stdout, 0, none, 0, none⟩ 0 rfl).2.2.2.2.2
    ⟨110, [], 0⟩ rfl rfl

/-- The selection on some command lines: the last of `-n`, `-s`, `-i`
decides, other options do not count, and without any the defaults stay. -/
theorem select_input_examples :
    select_input (none, some [45]) [] = (none, some [45])
    ∧ select_input (none, some [45]) [⟨111, [102], 0⟩] = (none, some [45])
    ∧ select_input (none, some [45]) [⟨110, [], 0⟩, ⟨115, [104, 105], 0⟩, ⟨111, [102], 0⟩]
        = (some [104, 105], none)
    ∧ select_input (none, some [45]) [⟨115, [104, 105], 0⟩, ⟨105, [102], 0⟩]
        = (none, some [102])
    ∧ select_input (none, some [45]) [⟨105, [102], 0⟩, ⟨110, [], 0⟩] = (none, none) := by
  decide

/-! ### C22: a `-t` argument that overflows `strtol` -/

/-- The library call `strtol` on an optional plus sign and a non-empty string
of digits whose value is above `LONG_MAX`: it returns `LONG_MAX` and sets
errno to `ERANGE`. -/
theorem strtol_overflow (long_max errno : Int) (sgn ds : List Nat)
    (hsgn : sgn = [] ∨ sgn = [43]) (hne : ds ≠ [])
    (hds : ∀ c ∈ ds, isdigit c = true) (hbig : long_max < digits_value ds) :
    strtol long_max errno (sgn ++ ds) = ⟨long_max, [], ERANGE⟩ := by
  obtain ⟨d, ds', rfl⟩ := List.exists_cons_of_ne_nil hne
  have hd : isdigit d = true := hds d (List.mem_cons_self _ _)
  have hd' : 48 ≤ d ∧ d ≤ 57 := by simpa [isdigit] using hd
  have hsp : isspace d = false := by
    simp only [isspace, Bool.or_eq_false_iff, decide_eq_false_iff_not, Bool.and_eq_false_iff]
    omega
  have htake : List.takeWhile isdigit (d :: ds') = d :: ds' :=
    List.takeWhile_eq_self_iff.mpr hds
  have hdrop : List.dropWhile isdigit (d :: ds') = [] :=
    List.dropWhile_eq_nil_iff.mpr hds
  unfold strtol
  rcases hsgn with h | h
  · subst h
    have h45 : ¬ (d = 45) := by omega
    have h43 : ¬ (d = 43) := by omega
    simp only [List.nil_append, List.dropWhile_cons, hsp, Bool.false_eq_true, if_false,
      List.head?_cons, Option.some.injEq, h45, h43, or_self, htake, hdrop,
      List.cons_ne_nil, reduceCtorEq]
    rw [if_pos (by omega)]
  · subst h
    have hs43 : isspace 43 = false := by decide
    have hne2 : ¬ ((43 : Nat) = 45) := by decide
    simp only [List.cons_append, List.nil_append, List.dropWhile_cons, hs43,
      Bool.false_eq_true, if_false, List.head?_cons, Option.some.injEq, hne2, or_true, if_true,
      List.tail_cons, htake, hdrop, List.cons_ne_nil]
    rw [if_pos (by omega)]

/-- The value `LONG_MAX` of a `long` of more than 32 bits becomes -1 when it
is stored in an `int`. -/
theorem to_int_long_max (w : Nat) (hw : 32 < w) : to_int (2 ^ (w - 1) - 1) = -1 := by
  obtain ⟨m, hm⟩ : ∃ m, w - 1 = m + 32 := ⟨w - 33, by omega⟩
  have hp : (2 : Int) ^ (w - 1) = 2 ^ m * 4294967296 := by
    rw [hm, pow_add]
    norm_num
  unfold to_int
  rw [hp]
  generalize (2 : Int) ^ m = q
  omega

/-- An `int` is never equal to the `LONG_MAX` of a wider `long`. -/
theorem to_int_ne_long_max (long_max v : Int) (hw : 2147483647 < long_max) :
    to_int v ≠ long_max := by
  unfold to_int
  omega

/-- Where `long` is wider than `int` the `-t` handler never reports an
exceeded time-to-live: the `log_err` on line 371 is not reached, whatever the
argument and errno. -/
theorem ttl_exceeded_unreachable (long_max errno : Int) (optarg : List Nat)
    (hw : 2147483647 < long_max) (status : Int) :
    parse_ttl long_max errno optarg ≠ .exit status 371 := by
  unfold parse_ttl log_err
  dsimp only
  split_ifs with h1 h2
  · intro h
    simp only [option_result.exit.injEq] at h
    exact absurd h.2 (by decide)
  · exact absurd h2.1 (to_int_ne_long_max long_max _ hw)
  · intro h
    exact absurd h (by simp)
  · intro h
    exact absurd h (by simp)

/-- A `-t` argument too large for `strtol`, where `long` has more than 32
bits: no error is reported, and the handler goes on to set the TTL to
`MUNGE_TTL_MAXIMUM`, with errno left at `ERANGE`. -/
theorem ttl_overflow_wide (w : Nat) (hw : 32 < w) (errno : Int) (sgn ds : List Nat)
    (hsgn : sgn = [] ∨ sgn = [43]) (hne : ds ≠ [])
    (hds : ∀ c ∈ ds, isdigit c = true) (hbig : 2 ^ (w - 1) - 1 < digits_value ds) :
    parse_ttl (2 ^ (w - 1) - 1) errno (sgn ++ ds) = .ctx_set MUNGE_TTL_MAXIMUM ERANGE := by
  have hst := strtol_overflow (2 ^ (w - 1) - 1) errno sgn ds hsgn hne hds hbig
  have hlen : ¬ (([] : List Nat).length = (sgn ++ ds).length ∨ ([] : List Nat) ≠ []) := by
    have : 0 < ds.length := List.length_pos.mpr hne
    simp only [List.length_nil, List.length_append, ne_eq, not_true_eq_false, or_false]
    omega
  have hbigw : (2147483647 : Int) < 2 ^ (w - 1) - 1 := by
    obtain ⟨m, hm⟩ : ∃ m, w - 1 = m + 32 := ⟨w - 33, by omega⟩
    have hp : (2 : Int) ^ (w - 1) = 2 ^ m * 4294967296 := by
      rw [hm, pow_add]
      norm_num
    have hq : (1 : Int) ≤ 2 ^ m := one_le_pow₀ (by norm_num)
    rw [hp]
    generalize (2 : Int) ^ m = q at hq
    omega
  unfold parse_ttl
  simp only [hst, to_int_long_max w hw]
  rw [if_neg hlen, if_neg (fun h => absurd h.1 (by omega))]
  rfl

/-- A `-t` argument too large for `strtol`, where `long` is as wide as `int`
and a whole number of digits is given: the handler ends the process on
line 371. -/
theorem ttl_overflow_same_width (errno : Int) (sgn ds : List Nat)
    (hsgn : sgn = [] ∨ sgn = [43]) (hne : ds ≠ [])
    (hds : ∀ c ∈ ds, isdigit c = true) (hbig : 2147483647 < digits_value ds) :
    parse_ttl 2147483647 errno (sgn ++ ds) = .exit EMUNGE_SNAFU 371 := by
  have hst := strtol_overflow 2147483647 errno sgn ds hsgn hne hds hbig
  have hlen : ¬ (([] : List Nat).length = (sgn ++ ds).length ∨ ([] : List Nat) ≠ []) := by
    have : 0 < ds.length := List.length_pos.mpr hne
    simp only [List.length_nil, List.length_append, ne_eq, not_true_eq_false, or_false]
    omega
  have hint : to_int 2147483647 = 2147483647 := by decide
  unfold parse_ttl
  simp only [hst, hint]
  rw [if_neg hlen, if_pos ⟨trivial, trivial⟩]
  rfl

/-- The two cases at `-t +99999999999` with a `long` of 64 and of 32 bits. -/
theorem ttl_overflow_examples :
    parse_ttl (2 ^ (64 - 1) - 1) 0 ([43] ++ [57, 57, 57, 57, 57, 57, 57, 57, 57, 57, 57, 57,
        57, 57, 57, 57, 57, 57, 57, 57]) = .ctx_set MUNGE_TTL_MAXIMUM ERANGE
    ∧ parse_ttl 2147483647 0 ([43] ++ [57, 57, 57, 57, 57, 57, 57, 57, 57, 57, 57])
        = .exit EMUNGE_SNAFU 371 :=
  ⟨ttl_overflow_wide 64 (by decide) 0 [43] _ (by decide) (by decide) (by decide) (by decide),
   ttl_overflow_same_width 0 [43] _ (by decide) (by decide) (by decide) (by decide)⟩

/-- C22 at its failing input, the option `-t 9223372036854775808` where
`long` has 64 bits (`LONG_MAX = 9223372036854775807`): `strtol` returns
`LONG_MAX` with errno `ERANGE`, the `int` that receives it holds -1, the
comparison with `LONG_MAX` fails, and instead of reporting an exceeded
time-to-live the handler calls `munge_ctx_set` with `MUNGE_OPT_TTL` and
`MUNGE_TTL_MAXIMUM`; the run goes on, writes a credential and ends with
status 0.  Where `long` has 32 bits the same option ends the process on
line 371. -/
theorem ttl_overflow_unreported :
    (∀ errno : Int, strtol 9223372036854775807 errno
        [57, 50, 50, 51, 51, 55, 50, 48, 51, 54, 56, 53, 52, 55, 55, 53, 56, 48, 56]
      = ⟨9223372036854775807, [], ERANGE⟩)
    ∧ to_int 9223372036854775807 = -1
    ∧ (∀ errno : Int, parse_ttl 9223372036854775807 errno
        [57, 50, 50, 51, 51, 55, 50, 48, 51, 54, 56, 53, 52, 55, 55, 53, 56, 48, 56]
      = .ctx_set MUNGE_TTL_MAXIMUM ERANGE)
    ∧ (∀ (κ : Type) (E : Env κ) (cf : conf κ) (errno : Int),
        parse_option { E with long_max := 9223372036854775807 } cf errno
          ⟨116, [57, 50, 50, 51, 51, 55, 50, 48, 51, 54, 56, 53, 52, 55, 55, 53, 56, 48, 56], 0⟩
        = ctx_set_int { E with long_max := 9223372036854775807 } cf .MUNGE_OPT_TTL
            MUNGE_TTL_MAXIMUM ERANGE 380)
    ∧ main (toy_env 0) 0
        [⟨116, [57, 50, 50, 51, 51, 55, 50, 48, 51, 54, 56, 53, 52, 55, 55, 53, 56, 48, 56], 0⟩]
        none = ⟨0, 159, some [77, 85, 78, 71, 69, 58, 10]⟩
    ∧ (∀ errno : Int, parse_ttl 2147483647 errno
        [57, 50, 50, 51, 51, 55, 50, 48, 51, 54, 56, 53, 52, 55, 55, 53, 56, 48, 56]
      = .exit EMUNGE_SNAFU 371)
    ∧ (∀ (κ : Type) (E : Env κ) (cf : conf κ) (errno : Int),
        parse_option { E with long_max := 2147483647 } cf errno
          ⟨116, [57, 50, 50, 51, 51, 55, 50, 48, 51, 54, 56, 53, 52, 55, 55, 53, 56, 48, 56], 0⟩
        = .error (log_exit EMUNGE_SNAFU 371)) :=
  ⟨fun _ => rfl, rfl, fun _ => rfl, fun _ _ _ _ => rfl, rfl, fun _ => rfl,
    fun _ _ _ _ => rfl⟩

end Munge
